import Mathlib

/-!
# KamaCache: exact LRU (`KLruCache`) and LRU-K (`KLruKCache`)

A shallow embedding of `KLruCache.h`.

* A `std::shared_ptr<LruNode>` is an address into a node store `heap_`
  (`std::make_shared` appends a node and returns its index).  The link fields
  `prev_` / `next_` are `Option Nat`, `none` being `nullptr`.
* `std::unordered_map<Key, NodePtr>` is an association list with at most one
  pair per key; its iteration order is never used by the code.
* Every member function is a function from the state before the call to
  `Option` of the state after it; `none` is undefined behaviour (a null or
  dangling pointer is dereferenced).
* The mutex is not modelled: calls are sequential.
-/

namespace KamaCache

/-! ## `LruNode` -/

/-- An `LruNode<Key, Value>`: key, value, access count and the two links. -/
structure LruNode (Key Value : Type) where
  key_ : Key
  value_ : Value
  accessCount_ : Nat
  prev_ : Option Nat
  next_ : Option Nat
deriving DecidableEq, Repr

/-- The constructor `LruNode(Key key, Value value)`: access count 1, both links null. -/
def LruNode.create {Key Value : Type} (key : Key) (value : Value) : LruNode Key Value :=
  { key_ := key, value_ := value, accessCount_ := 1, prev_ := none, next_ := none }

/-- Write through a node pointer: `p->field = ...`; fails when `p` points to no node. -/
def modify {Key Value : Type} (h : List (LruNode Key Value)) (p : Nat)
    (f : LruNode Key Value → LruNode Key Value) : Option (List (LruNode Key Value)) :=
  match h[p]? with
  | none => none
  | some n => some (h.set p (f n))

/-! ## The key index (`std::unordered_map<Key, NodePtr>`) -/

/-- The call `nodeMap_.find(key)`: the pair stored for `key`, `none` for `end()`. -/
def mapFind {Key : Type} [DecidableEq Key] (m : List (Key × Nat)) (key : Key) : Option (Key × Nat) :=
  m.find? (fun p => decide (p.1 = key))

/-- The calls `nodeMap_.erase(it)` and `nodeMap_.erase(key)`. -/
def mapErase {Key : Type} [DecidableEq Key] (m : List (Key × Nat)) (key : Key) : List (Key × Nat) :=
  m.filter (fun p => decide (p.1 ≠ key))

/-- The assignment `nodeMap_[key] = node`. -/
def mapAssign {Key : Type} [DecidableEq Key] (m : List (Key × Nat)) (key : Key) (node : Nat) :
    List (Key × Nat) :=
  match mapFind m key with
  | some _ => m.map (fun p => if p.1 = key then (p.1, node) else p)
  | none => (key, node) :: m

/-! ## `KLruCache` -/

/-- The state of a `KLruCache<Key, Value>`. -/
structure KLruCache (Key Value : Type) where
  capacity_ : Int
  nodeMap_ : List (Key × Nat)
  dummyHead_ : Nat
  dummyTail_ : Nat
  heap_ : List (LruNode Key Value)
deriving DecidableEq, Repr

namespace KLruCache

variable {Key Value : Type}

/-- The constructor `KLruCache(int capacity)` with `initializeList()`: two sentinel nodes
linked to each other, an empty key index. -/
def create [Inhabited Key] [Inhabited Value] (capacity : Int) : KLruCache Key Value :=
  { capacity_ := capacity
    nodeMap_ := []
    dummyHead_ := 0
    dummyTail_ := 1
    heap_ := [ { LruNode.create default default with next_ := some 1 },
               { LruNode.create default default with prev_ := some 0 } ] }

/-- The method `removeNode(node)`. -/
def removeNode (s : KLruCache Key Value) (node : Nat) : Option (KLruCache Key Value) := do
  -- node->prev_->next_ = node->next_;
  let n ← s.heap_[node]?
  let p ← n.prev_
  let h1 ← modify s.heap_ p (fun m => { m with next_ := n.next_ })
  -- node->next_->prev_ = node->prev_;
  let n1 ← h1[node]?
  let nx ← n1.next_
  let h2 ← modify h1 nx (fun m => { m with prev_ := n1.prev_ })
  pure { s with heap_ := h2 }

/-- The method `insertNode(node)`: link `node` in front of the tail sentinel. -/
def insertNode (s : KLruCache Key Value) (node : Nat) : Option (KLruCache Key Value) := do
  -- node->next_ = dummyTail_;
  let h1 ← modify s.heap_ node (fun m => { m with next_ := some s.dummyTail_ })
  -- node->prev_ = dummyTail_->prev_;
  let t1 ← h1[s.dummyTail_]?
  let h2 ← modify h1 node (fun m => { m with prev_ := t1.prev_ })
  -- dummyTail_->prev_->next_ = node;
  let t2 ← h2[s.dummyTail_]?
  let q ← t2.prev_
  let h3 ← modify h2 q (fun m => { m with next_ := some node })
  -- dummyTail_->prev_ = node;
  let h4 ← modify h3 s.dummyTail_ (fun m => { m with prev_ := some node })
  pure { s with heap_ := h4 }

/-- The method `moveToMostRecent(node)`. -/
def moveToMostRecent (s : KLruCache Key Value) (node : Nat) : Option (KLruCache Key Value) := do
  let s1 ← s.removeNode node
  s1.insertNode node

/-- The method `evictLeastRecent()`. -/
def evictLeastRecent [DecidableEq Key] (s : KLruCache Key Value) : Option (KLruCache Key Value) := do
  let hd ← s.heap_[s.dummyHead_]?
  let leastRecent ← hd.next_
  let s1 ← s.removeNode leastRecent
  let lr ← s1.heap_[leastRecent]?
  pure { s1 with nodeMap_ := mapErase s1.nodeMap_ lr.key_ }

/-- The method `updateExistingNode(node, value)`. -/
def updateExistingNode (s : KLruCache Key Value) (node : Nat) (value : Value) :
    Option (KLruCache Key Value) := do
  let h1 ← modify s.heap_ node (fun m => { m with value_ := value })
  moveToMostRecent { s with heap_ := h1 } node

/-- The method `addNewNode(key, value)`.  The comparison `nodeMap_.size() >= capacity_` is
made at type `size_t`; `put` only calls this with `capacity_ > 0`, where the conversion of
the `int` keeps its value. -/
def addNewNode [DecidableEq Key] (s : KLruCache Key Value) (key : Key) (value : Value) :
    Option (KLruCache Key Value) :=
  -- if (nodeMap_.size() >= capacity_) evictLeastRecent();
  (if (s.nodeMap_.length : Int) ≥ s.capacity_ then s.evictLeastRecent else some s).bind fun s1 =>
    -- NodePtr newNode = std::make_shared<LruNodeType>(key, value);
    let newNode := s1.heap_.length
    let s2 : KLruCache Key Value := { s1 with heap_ := s1.heap_ ++ [LruNode.create key value] }
    -- insertNode(newNode); nodeMap_[key] = newNode;
    (s2.insertNode newNode).bind fun s3 =>
      some { s3 with nodeMap_ := mapAssign s3.nodeMap_ key newNode }

/-- The method `put(key, value)`. -/
def put [DecidableEq Key] (s : KLruCache Key Value) (key : Key) (value : Value) :
    Option (KLruCache Key Value) :=
  if s.capacity_ ≤ 0 then some s
  else
    match mapFind s.nodeMap_ key with
    | some it => s.updateExistingNode it.2 value
    | none => s.addNewNode key value

/-- The method `get(key, value)`: the state after the call, the returned flag and the
content of the reference `value` after the call. -/
def get [DecidableEq Key] (s : KLruCache Key Value) (key : Key) (value : Value) :
    Option (KLruCache Key Value × Bool × Value) :=
  match mapFind s.nodeMap_ key with
  | some it => do
      let s1 ← s.moveToMostRecent it.2
      let n ← s1.heap_[it.2]?
      pure (s1, true, n.value_)
  | none => some (s, false, value)

/-- The method `get(key)`: the state after the call and the returned value. -/
def getValue [DecidableEq Key] [Inhabited Value] (s : KLruCache Key Value) (key : Key) :
    Option (KLruCache Key Value × Value) := do
  let r ← s.get key default
  pure (r.1, r.2.2)

/-- The method `remove(key)`. -/
def remove [DecidableEq Key] (s : KLruCache Key Value) (key : Key) :
    Option (KLruCache Key Value) :=
  match mapFind s.nodeMap_ key with
  | some it => do
      let s1 ← s.removeNode it.2
      pure { s1 with nodeMap_ := mapErase s1.nodeMap_ key }
  | none => some s

end KLruCache

/-! ## Call sequences on a `KLruCache` -/

/-- One call of the public interface of `KLruCache`. -/
inductive Op (Key Value : Type) where
  | put (key : Key) (value : Value)
  | get (key : Key)
  | remove (key : Key)
deriving DecidableEq, Repr

/-- The state after one call. -/
def step {Key Value : Type} [DecidableEq Key] [Inhabited Value]
    (s : KLruCache Key Value) : Op Key Value → Option (KLruCache Key Value)
  | Op.put key value => s.put key value
  | Op.get key => (s.getValue key).map Prod.fst
  | Op.remove key => s.remove key

/-- The state after a sequence of calls, the first call first. -/
def run {Key Value : Type} [DecidableEq Key] [Inhabited Value]
    (s : KLruCache Key Value) : List (Op Key Value) → Option (KLruCache Key Value)
  | [] => some s
  | op :: ops => (step s op).bind (fun s1 => run s1 ops)

/-! ## Observations -/

/-- The `next_` link of the node at an address. -/
def nextOf {Key Value : Type} (h : List (LruNode Key Value)) (a : Nat) : Option Nat :=
  (h[a]?).bind (fun n => n.next_)

/-- The `prev_` link of the node at an address. -/
def prevOf {Key Value : Type} (h : List (LruNode Key Value)) (a : Nat) : Option Nat :=
  (h[a]?).bind (fun n => n.prev_)

/-- Follow `next_` links from `cur` up to the tail sentinel, collecting the addresses. -/
def walk {Key Value : Type} (h : List (LruNode Key Value)) (tail : Nat) : Nat → Nat → List Nat
  | 0, _ => []
  | fuel + 1, cur =>
    if cur = tail then []
    else
      match nextOf h cur with
      | none => []
      | some nx => cur :: walk h tail fuel nx

/-- The addresses of the nodes between the two sentinels, least recently used first. -/
def KLruCache.order {Key Value : Type} (s : KLruCache Key Value) : List Nat :=
  match nextOf s.heap_ s.dummyHead_ with
  | none => []
  | some first => walk s.heap_ s.dummyTail_ s.heap_.length first

/-- The recency sequence as (key, value) pairs, least recently used first. -/
def KLruCache.entries {Key Value : Type} (s : KLruCache Key Value) : List (Key × Value) :=
  s.order.filterMap (fun a => (s.heap_[a]?).map (fun n => (n.key_, n.value_)))

/-- The key carried by the node at an address. -/
def KLruCache.keyAt {Key Value : Type} (s : KLruCache Key Value) (a : Nat) : Option Key :=
  (s.heap_[a]?).map (fun n => n.key_)

/-- The access count of the entry of a key, read through the key index. -/
def KLruCache.accessCount {Key Value : Type} [DecidableEq Key] (s : KLruCache Key Value)
    (key : Key) : Option Nat :=
  (mapFind s.nodeMap_ key).bind (fun it => (s.heap_[it.2]?).map (fun n => n.accessCount_))

/-- The value stored for a key, read through the key index without touching the entry. -/
def KLruCache.peek {Key Value : Type} [DecidableEq Key] (s : KLruCache Key Value) (key : Key) :
    Option Value :=
  (mapFind s.nodeMap_ key).bind (fun it => (s.heap_[it.2]?).map (fun n => n.value_))

/-- Whether a key is live: `nodeMap_.find(key) != nodeMap_.end()`. -/
def KLruCache.contains {Key Value : Type} [DecidableEq Key] (s : KLruCache Key Value) (key : Key) :
    Bool :=
  (mapFind s.nodeMap_ key).isSome

/-! ## Touches in a call sequence -/

/-- The call `op`, made in state `s`, touches `key`: it is a put of `key`, or a get of
`key` that finds it. -/
def touches {Key Value : Type} [DecidableEq Key] (s : KLruCache Key Value) :
    Op Key Value → Key → Bool
  | Op.put k _, key => decide (k = key)
  | Op.get k, key => decide (k = key) && s.contains key
  | Op.remove _, _ => false

/-- Call number `i` of `ops`, run on a fresh cache of capacity `C`, touches `key`. -/
def touchesAt {Key Value : Type} [DecidableEq Key] [Inhabited Key] [Inhabited Value] (C : Int)
    (ops : List (Op Key Value)) (i : Nat) (key : Key) : Bool :=
  match ops[i]?, run (KLruCache.create C : KLruCache Key Value) (ops.take i) with
  | some op, some s => touches s op key
  | _, _ => false

/-- Call number `i` is the most recent touch of `key` in `ops`. -/
def IsLastTouch {Key Value : Type} [DecidableEq Key] [Inhabited Key] [Inhabited Value] (C : Int)
    (ops : List (Op Key Value)) (key : Key) (i : Nat) : Prop :=
  touchesAt C ops i key = true ∧ ∀ j : Nat, j < ops.length → i < j → touchesAt C ops j key = false

instance {Key Value : Type} [DecidableEq Key] [Inhabited Key] [Inhabited Value] (C : Int)
    (ops : List (Op Key Value)) (key : Key) (i : Nat) : Decidable (IsLastTouch C ops key i) := by
  unfold IsLastTouch
  infer_instance

/-- The most recent put of `key` in `ops` stores `value`, and no `remove(key)` follows it. -/
def LastPut {Key Value : Type} (ops : List (Op Key Value)) (key : Key) (value : Value) : Prop :=
  ∃ i : Nat, ops[i]? = some (Op.put key value) ∧
    ∀ j : Nat, i < j → ∀ op, ops[j]? = some op → (∀ w, op ≠ Op.put key w) ∧ op ≠ Op.remove key

/-- The keys are listed by increasing time of their most recent touch in `ops`. -/
def TouchOrdered {Key Value : Type} [DecidableEq Key] [Inhabited Key] [Inhabited Value] (C : Int)
    (ops : List (Op Key Value)) (keys : List Key) : Prop :=
  (∀ k ∈ keys, ∃ i, IsLastTouch C ops k i) ∧
    keys.Pairwise (fun a b => ∃ i j, i < j ∧ IsLastTouch C ops a i ∧ IsLastTouch C ops b j)

/-! ## Integer conversions -/

/-- Conversion of a `size_t` (or `unsigned`) value to `int`: the value modulo 2^32, read as a
32-bit two's complement number. -/
def toInt32 (x : Nat) : Int :=
  ((x : Int) + 2 ^ 31) % 2 ^ 32 - 2 ^ 31

/-- The value an `int` holds after an arithmetic result `x` is stored in it: `x` modulo
2^32, read as a 32-bit two's complement number.  In C++ the overflow of a signed
increment is undefined; the compiled code wraps, and that is what is modelled. -/
def wrapInt32 (x : Int) : Int :=
  (x + 2 ^ 31) % 2 ^ 32 - 2 ^ 31

/-- Conversion of an `int` to `size_t` (64 bits): the value modulo 2^64. -/
def toSizeT (x : Int) : Nat :=
  (x % 2 ^ 64).toNat

/-- The `int historyCount` of `KLruKCache::get` and `KLruKCache::put` after
`int historyCount = historyList_->get(key); ++historyCount`, for the `size_t` count
`stored` that the history store returned: the count is narrowed to `int` and incremented
in `int`.  From `INT_MAX = 2^31 - 1` the increment wraps to `-2^31`. -/
def nextCount (stored : Nat) : Int :=
  wrapInt32 (toInt32 stored + 1)

/-! ## `KLruKCache` -/

/-- The state of a `KLruKCache<Key, std::string>`: the base-class subobject (the main
store), the threshold `k_` and the history store `historyList_` of access counts. -/
structure KLruKCache (Key : Type) where
  base : KLruCache Key String
  k_ : Int
  historyList_ : KLruCache Key Nat
deriving DecidableEq, Repr

namespace KLruKCache

variable {Key : Type}

/-- The constructor `KLruKCache(int capacity, int historyCapacity, int k)`. -/
def create [Inhabited Key] (capacity historyCapacity k : Int) : KLruKCache Key :=
  { base := KLruCache.create capacity
    k_ := k
    historyList_ := KLruCache.create historyCapacity }

/-- The method `KLruKCache::get(key)`: the state after the call and the returned value. -/
def get [DecidableEq Key] (c : KLruKCache Key) (key : Key) : Option (KLruKCache Key × String) :=
  -- int historyCount = historyList_->get(key);
  (c.historyList_.getValue key).bind fun r =>
    -- ++historyCount
    let historyCount := nextCount r.2
    -- historyList_->put(key, ++historyCount);
    (r.1.put key (toSizeT historyCount)).bind fun h2 =>
      -- return KLruCache<Key, Value>::get(key);
      (c.base.getValue key).bind fun g =>
        some ({ c with base := g.1, historyList_ := h2 }, g.2)

/-- The method `KLruKCache::put(key, value)`. -/
def put [DecidableEq Key] (c : KLruKCache Key) (key : Key) (value : String) :
    Option (KLruKCache Key) :=
  -- if (KLruCache<Key, Value>::get(key) != "") KLruCache<Key, Value>::put(key, value);
  (c.base.getValue key).bind fun g =>
    (if g.2 ≠ "" then g.1.put key value else some g.1).bind fun m2 =>
      -- int historyCount = historyList_->get(key);
      (c.historyList_.getValue key).bind fun r =>
        -- ++historyCount
        let historyCount := nextCount r.2
        -- historyList_->put(key, ++historyCount);
        (r.1.put key (toSizeT historyCount)).bind fun h2 =>
          -- if (historyCount >= k_) { historyList_->remove(key); KLruCache::put(key, value); }
          if historyCount ≥ c.k_ then
            (h2.remove key).bind fun h3 =>
              (m2.put key value).bind fun m3 =>
                some { c with base := m3, historyList_ := h3 }
          else some { c with base := m2, historyList_ := h2 }

end KLruKCache

/-- One call of the public interface of `KLruKCache`. -/
inductive KOp (Key : Type) where
  | get (key : Key)
  | put (key : Key) (value : String)
deriving DecidableEq, Repr

/-- The state after one call. -/
def stepK {Key : Type} [DecidableEq Key] (c : KLruKCache Key) : KOp Key → Option (KLruKCache Key)
  | KOp.get key => (c.get key).map Prod.fst
  | KOp.put key value => c.put key value

/-- The state after a sequence of calls, the first call first. -/
def runK {Key : Type} [DecidableEq Key] (c : KLruKCache Key) :
    List (KOp Key) → Option (KLruKCache Key)
  | [] => some c
  | op :: ops => (stepK c op).bind (fun c1 => runK c1 ops)

/-- The key a call of `KLruKCache` accesses. -/
def KOp.key {Key : Type} : KOp Key → Key
  | KOp.get key => key
  | KOp.put key _ => key

/-- The number of calls in `ops`, gets and puts alike, that access the key `x`. -/
def accesses {Key : Type} [DecidableEq Key] (x : Key) (ops : List (KOp Key)) : Nat :=
  ops.countP (fun op => decide (op.key = x))

/-- The call of `KLruCache` with the same name and arguments. -/
def KOp.toOp {Key : Type} : KOp Key → Op Key String
  | KOp.get key => Op.get key
  | KOp.put key value => Op.put key value

/-! ## `KHashLruCaches` -/

/-- The value of `std::ceil(capacity / static_cast<double>(sliceNum_))` stored in `size_t`,
for `sliceNum_ > 0`.  The quotient is formed in double precision.  For
`capacity < 2^53` both operands are exact doubles, the correctly rounded quotient lies
strictly above the integer below the exact quotient whenever that is not an integer, and
so its ceiling is the ceiling of the exact quotient, the number defined here.  The
statements that use this definition carry the bound `capacity < 2^53`. -/
def sliceSize (capacity : Nat) (sliceNum : Int) : Nat :=
  (capacity + sliceNum.toNat - 1) / sliceNum.toNat

/-- The state of a `KHashLruCaches<Key, Value>`. -/
structure KHashLruCaches (Key Value : Type) where
  capacity_ : Nat
  sliceNum_ : Int
  lruSliceCaches_ : List (KLruCache Key Value)
deriving DecidableEq, Repr

namespace KHashLruCaches

variable {Key Value : Type}

/-- The constructor `KHashLruCaches(size_t capacity, int sliceNum)`; `hardwareConcurrency` is
what `std::thread::hardware_concurrency()` reports.  With a resulting `sliceNum_ ≤ 0` the
conversion of the double quotient to `size_t` is undefined: `none`.  Each shard is
constructed by `KLruCache(int capacity)` from the `size_t` slice size. -/
def create [Inhabited Key] [Inhabited Value] (hardwareConcurrency capacity : Nat)
    (sliceNum : Int) : Option (KHashLruCaches Key Value) :=
  -- sliceNum_(sliceNum > 0 ? sliceNum : std::thread::hardware_concurrency())
  let sliceNum_ := if sliceNum > 0 then sliceNum else toInt32 hardwareConcurrency
  if sliceNum_ ≤ 0 then none
  else
    -- size_t sliceSize = std::ceil(capacity / static_cast<double>(sliceNum_));
    let size := sliceSize capacity sliceNum_
    -- for (int i = 0; i < sliceNum_; ++i) emplace_back(new KLruCache<Key, Value>(sliceSize));
    some { capacity_ := capacity
           sliceNum_ := sliceNum_
           lruSliceCaches_ := List.replicate sliceNum_.toNat (KLruCache.create (toInt32 size)) }

/-- The index `Hash(key) % sliceNum_` computed by `put` and `get`; `hash` is
`std::hash<Key>`.  The remainder is taken at type `size_t`; with `sliceNum_ > 0` the
conversion of `sliceNum_` keeps its value, with `sliceNum_ ≤ 0` there is no shard to
select (`none`). -/
def sliceIndex (hash : Key → Nat) (c : KHashLruCaches Key Value) (key : Key) : Option Nat :=
  if c.sliceNum_ ≤ 0 then none else some (hash key % c.sliceNum_.toNat)

/-- The method `put(key, value)`. -/
def put [DecidableEq Key] (hash : Key → Nat) (c : KHashLruCaches Key Value) (key : Key)
    (value : Value) : Option (KHashLruCaches Key Value) :=
  -- size_t sliceIndex = Hash(key) % sliceNum_;
  (sliceIndex hash c key).bind fun i =>
    -- return lruSliceCaches_[sliceIndex]->put(key, value);
    (c.lruSliceCaches_[i]?).bind fun shard =>
      (shard.put key value).bind fun shard1 =>
        some { c with lruSliceCaches_ := c.lruSliceCaches_.set i shard1 }

/-- The method `get(key, value)`: the state after the call, the returned flag and the
content of the reference `value` after the call. -/
def get [DecidableEq Key] (hash : Key → Nat) (c : KHashLruCaches Key Value) (key : Key)
    (value : Value) : Option (KHashLruCaches Key Value × Bool × Value) :=
  -- size_t sliceIndex = Hash(key) % sliceNum_;
  (sliceIndex hash c key).bind fun i =>
    -- return lruSliceCaches_[sliceIndex]->get(key, value);
    (c.lruSliceCaches_[i]?).bind fun shard =>
      (shard.get key value).bind fun r =>
        some ({ c with lruSliceCaches_ := c.lruSliceCaches_.set i r.1 }, r.2.1, r.2.2)

end KHashLruCaches

/-- One call of `put` or of the two-argument `get` of `KHashLruCaches`. -/
inductive HOp (Key Value : Type) where
  | put (key : Key) (value : Value)
  | get (key : Key)
deriving DecidableEq, Repr

/-- The state after one call; a `get` is given a default-constructed reference. -/
def stepH {Key Value : Type} [DecidableEq Key] [Inhabited Value] (hash : Key → Nat)
    (c : KHashLruCaches Key Value) : HOp Key Value → Option (KHashLruCaches Key Value)
  | HOp.put key value => c.put hash key value
  | HOp.get key => (c.get hash key default).map Prod.fst

/-- The state after a sequence of calls, the first call first. -/
def runH {Key Value : Type} [DecidableEq Key] [Inhabited Value] (hash : Key → Nat)
    (c : KHashLruCaches Key Value) : List (HOp Key Value) → Option (KHashLruCaches Key Value)
  | [] => some c
  | op :: ops => (stepH hash c op).bind (fun c1 => runH hash c1 ops)

/-! ## The linked sequence, abstractly -/

/-- The fields of a node other than its links. -/
def payload {Key Value : Type} (h : List (LruNode Key Value)) (a : Nat) : Option (Key × Value × Nat) :=
  (h[a]?).map (fun n => (n.key_, n.value_, n.accessCount_))

/-- Node `b` follows node `a`: `a->next_ == b` and `b->prev_ == a`. -/
def Linked {Key Value : Type} (h : List (LruNode Key Value)) (a b : Nat) : Prop :=
  nextOf h a = some b ∧ prevOf h b = some a

/-- The nodes `ids` are exactly the nodes between the sentinels `hd` and `tl`, in link
order, with no address repeated. -/
def Seq {Key Value : Type} (h : List (LruNode Key Value)) (hd tl : Nat) (ids : List Nat) : Prop :=
  (hd :: ids ++ [tl]).Nodup ∧ List.Chain' (Linked h) (hd :: ids ++ [tl])

/-- One live entry as the proofs see it: the address of its node and the node's payload. -/
structure Slot (Key Value : Type) where
  addr : Nat
  key : Key
  value : Value
  count : Nat

/-- The state `s` represents the entries `es`, least recently used first: the nodes of
`es` are linked in this order between the sentinels, each node carries the payload of its
entry, no key occurs twice, and the key index holds exactly the pairs (key, node) of `es`. -/
structure Represents {Key Value : Type} (s : KLruCache Key Value) (es : List (Slot Key Value)) : Prop where
  seq : Seq s.heap_ s.dummyHead_ s.dummyTail_ (es.map Slot.addr)
  node : ∀ e ∈ es, payload s.heap_ e.addr = some (e.key, e.value, e.count)
  keys : (es.map Slot.key).Nodup
  index : s.nodeMap_.Perm (es.map (fun e => (e.key, e.addr)))

/-- The entries after one call, given the entries before it: `cap` is the capacity and
`fresh` the address the next allocated node gets. -/
def absStep {Key Value : Type} [DecidableEq Key] (cap : Int) (fresh : Nat)
    (es : List (Slot Key Value)) : Op Key Value → List (Slot Key Value)
  | Op.put k v =>
    if cap ≤ 0 then es
    else if es.any (fun e => decide (e.key = k)) then
      es.filter (fun e => decide (e.key ≠ k)) ++
        (es.filter (fun e => decide (e.key = k))).map (fun e => { e with value := v })
    else
      (if (es.length : Int) ≥ cap then es.tail else es) ++
        [{ addr := fresh, key := k, value := v, count := 1 }]
  | Op.get k =>
    es.filter (fun e => decide (e.key ≠ k)) ++ es.filter (fun e => decide (e.key = k))
  | Op.remove k => es.filter (fun e => decide (e.key ≠ k))

/-- The state is well formed (it represents some entries) and has the given capacity. -/
def WellFormed {Key Value : Type} (s : KLruCache Key Value) (cap : Int) : Prop :=
  (∃ es, Represents s es) ∧ s.capacity_ = cap

/-- Both stores of an LRU-K cache are well formed, with the given capacities and threshold. -/
structure WellFormedK {Key : Type} (capacity historyCapacity k : Int) (c : KLruKCache Key) : Prop where
  main : WellFormed c.base capacity
  hist : WellFormed c.historyList_ historyCapacity
  thr : c.k_ = k

/-- Counts and admissions are covered by accesses: a recorded count, read as an `int`, is at
most the number of accesses of its key, and a key in the main store has been accessed at
least `k` times and put at least once. -/
def Admitted {Key : Type} [DecidableEq Key] (k : Int) (ops : List (KOp Key))
    (c : KLruKCache Key) : Prop :=
  (∀ x n, c.historyList_.peek x = some n → toInt32 n ≤ (accesses x ops : Int)) ∧
    ∀ x, c.base.contains x = true → k ≤ (accesses x ops : Int) ∧ ∃ v, KOp.put x v ∈ ops

/-- The exact-LRU engine as a pure function on the recency sequence of (key, value) pairs,
least recently used first: `put` overwrites and moves to the end, or evicts the first pair
at full occupancy and appends; `get` moves the pair of the key to the end; `remove` deletes
it; with capacity `≤ 0` a `put` does nothing. -/
def specStep {Key Value : Type} [DecidableEq Key] (cap : Int) (l : List (Key × Value)) :
    Op Key Value → List (Key × Value)
  | Op.put k v =>
    if cap ≤ 0 then l
    else if l.any (fun p => decide (p.1 = k)) then
      l.filter (fun p => decide (p.1 ≠ k)) ++ [(k, v)]
    else (if (l.length : Int) ≥ cap then l.tail else l) ++ [(k, v)]
  | Op.get k => l.filter (fun p => decide (p.1 ≠ k)) ++ l.filter (fun p => decide (p.1 = k))
  | Op.remove k => l.filter (fun p => decide (p.1 ≠ k))


/-- Invariant of a `KHashLruCaches`: `sliceNum_` is `n`, there are `n` shards, and every
shard is a well-formed `KLruCache` of capacity `cap`. -/
structure WellFormedH {Key Value : Type} (n cap : Int) (c : KHashLruCaches Key Value) : Prop where
  num : c.sliceNum_ = n
  len : c.lruSliceCaches_.length = n.toNat
  shards : ∀ s ∈ c.lruSliceCaches_, WellFormed s cap

/-! ## Effect of the link operations on the node store -/

variable {Key Value : Type}

theorem modify_spec {h : List (LruNode Key Value)} {p : Nat} {n : LruNode Key Value}
    (f : LruNode Key Value → LruNode Key Value) (e : h[p]? = some n) :
    ∃ h1, modify h p f = some h1 ∧ h1.length = h.length ∧
      ∀ a, h1[a]? = if a = p then some (f n) else h[a]? := by
  refine ⟨h.set p (f n), by simp [modify, e], by simp, fun a => ?_⟩
  rw [List.getElem?_set]
  have hlt : p < h.length := (List.getElem?_eq_some_iff.mp e).1
  by_cases hap : p = a
  · subst hap; simp [hlt]
  · have : ¬ a = p := fun x => hap x.symm
    simp [hap, this]

/-- The heap after `removeNode`, seen through the links and the payloads. -/

theorem removeNode_spec {s : KLruCache Key Value} {x p nx : Nat}
    (hp : prevOf s.heap_ x = some p) (hn : nextOf s.heap_ x = some nx)
    (hpv : (s.heap_[p]?).isSome) (hnv : (s.heap_[nx]?).isSome) :
    ∃ h2, s.removeNode x = some { s with heap_ := h2 } ∧ h2.length = s.heap_.length ∧
      (∀ a, nextOf h2 a = if a = p then some nx else nextOf s.heap_ a) ∧
      (∀ a, prevOf h2 a = if a = nx then some p else prevOf s.heap_ a) ∧
      (∀ a, payload h2 a = payload s.heap_ a) := by
  obtain ⟨pn, hpn⟩ := Option.isSome_iff_exists.mp hpv
  obtain ⟨nn, hnn⟩ := Option.isSome_iff_exists.mp hnv
  unfold prevOf at hp
  unfold nextOf at hn
  cases hx : s.heap_[x]? with
  | none => simp [hx] at hp
  | some n =>
  rw [hx] at hp hn
  simp only [Option.some_bind] at hp hn
  obtain ⟨nk, nv, nc, npv, nnx⟩ := n
  simp only at hp hn
  subst hp hn
  obtain ⟨h1, e1, l1, k1⟩ :=
    modify_spec (fun m : LruNode Key Value => { m with next_ := some nx }) hpn
  have hx1 : h1[x]? = some ⟨nk, nv, nc, some p, some nx⟩ := by
    rw [k1 x]; split
    · next hxp => subst hxp; rw [hx] at hpn; cases hpn; rfl
    · exact hx
  obtain ⟨m1, hm1⟩ : ∃ m1, h1[nx]? = some m1 := by
    rw [k1 nx]; split
    · exact ⟨_, rfl⟩
    · exact ⟨_, hnn⟩
  obtain ⟨h2, e2, l2, k2⟩ :=
    modify_spec (fun m : LruNode Key Value => { m with prev_ := some p }) hm1
  refine ⟨h2, ?_, by omega, ?_, ?_, ?_⟩
  · simp only [KLruCache.removeNode, hx, Option.bind_eq_bind, Option.some_bind, e1, hx1, e2]
    rfl
  · intro a
    unfold nextOf
    rw [k2 a, k1 a]
    rw [k1 nx] at hm1
    by_cases h1 : a = nx <;> by_cases h2 : a = p
    · subst h1; subst h2; simp at hm1; subst hm1; simp
    · subst h1; simp [h2] at hm1 ⊢; rw [hnn] at hm1; cases hm1; simp [hnn]
    · subst h2; simp [h1]
    · simp [h1, h2]
  · intro a
    unfold prevOf
    rw [k2 a, k1 a]
    by_cases h1 : a = nx <;> by_cases h2 : a = p
    · simp [h1]
    · simp [h1]
    · subst h2; simp [h1, hpn]
    · simp [h1, h2]
  · intro a
    unfold payload
    rw [k2 a, k1 a]
    rw [k1 nx] at hm1
    by_cases h1 : a = nx <;> by_cases h2 : a = p
    · subst h1; subst h2; simp at hm1; subst hm1; simp [hpn]
    · subst h1; simp [h2] at hm1 ⊢; rw [hnn] at hm1; cases hm1; simp [hnn]
    · subst h2; simp [h1, hpn]
    · simp [h1, h2]

/-- The heap after `insertNode`, seen through the links and the payloads. -/

theorem insertNode_spec {s : KLruCache Key Value} {x q : Nat}
    (hxv : (s.heap_[x]?).isSome) (hq : prevOf s.heap_ s.dummyTail_ = some q)
    (hqv : (s.heap_[q]?).isSome) (hxt : x ≠ s.dummyTail_) (hxq : x ≠ q) (hqt : q ≠ s.dummyTail_) :
    ∃ h4, s.insertNode x = some { s with heap_ := h4 } ∧ h4.length = s.heap_.length ∧
      (∀ a, nextOf h4 a =
        if a = q then some x else if a = x then some s.dummyTail_ else nextOf s.heap_ a) ∧
      (∀ a, prevOf h4 a =
        if a = s.dummyTail_ then some x else if a = x then some q else prevOf s.heap_ a) ∧
      (∀ a, payload h4 a = payload s.heap_ a) := by
  obtain ⟨xn, hxn⟩ := Option.isSome_iff_exists.mp hxv
  obtain ⟨qn, hqn⟩ := Option.isSome_iff_exists.mp hqv
  unfold prevOf at hq
  cases ht : s.heap_[s.dummyTail_]? with
  | none => simp [ht] at hq
  | some tn =>
  rw [ht] at hq
  simp only [Option.some_bind] at hq
  have htx : s.dummyTail_ ≠ x := fun e => hxt e.symm
  have hqx : q ≠ x := fun e => hxq e.symm
  have htq : s.dummyTail_ ≠ q := fun e => hqt e.symm
  obtain ⟨h1, e1, l1, k1⟩ :=
    modify_spec (fun m : LruNode Key Value => { m with next_ := some s.dummyTail_ }) hxn
  have ht1 := k1 s.dummyTail_
  rw [if_neg htx, ht] at ht1
  have hx1 := k1 x
  rw [if_pos rfl] at hx1
  obtain ⟨h2, e2, l2, k2⟩ := modify_spec (fun m : LruNode Key Value => { m with prev_ := some q }) hx1
  have ht2 := k2 s.dummyTail_
  rw [if_neg htx, ht1] at ht2
  have hq2 := k2 q
  rw [if_neg hqx, k1 q, if_neg hqx, hqn] at hq2
  obtain ⟨h3, e3, l3, k3⟩ := modify_spec (fun m : LruNode Key Value => { m with next_ := some x }) hq2
  have ht3 := k3 s.dummyTail_
  rw [if_neg htq, ht2] at ht3
  obtain ⟨h4, e4, l4, k4⟩ := modify_spec (fun m : LruNode Key Value => { m with prev_ := some x }) ht3
  refine ⟨h4, ?_, by omega, ?_, ?_, ?_⟩
  · simp only [KLruCache.insertNode, Option.bind_eq_bind, Option.some_bind, e1, ht1, e2, ht2, hq, e3, e4]
    rfl
  · intro a
    unfold nextOf
    rw [k4 a, k3 a, k2 a, k1 a]
    by_cases h1 : a = s.dummyTail_
    · subst h1; simp [htq, htx, ht]
    · by_cases h2 : a = q
      · subst h2; simp [h1]
      · by_cases h3 : a = x
        · subst h3; simp [h1, h2]
        · simp [h1, h2, h3]
  · intro a
    unfold prevOf
    rw [k4 a, k3 a, k2 a, k1 a]
    by_cases h1 : a = s.dummyTail_
    · subst h1; simp
    · by_cases h2 : a = q
      · subst h2; simp [h1, hqx, hqn]
      · by_cases h3 : a = x
        · subst h3; simp [h1, h2]
        · simp [h1, h2, h3]
  · intro a
    unfold payload
    rw [k4 a, k3 a, k2 a, k1 a]
    by_cases h1 : a = s.dummyTail_
    · subst h1; simp [ht]
    · by_cases h2 : a = q
      · subst h2; simp [h1, hqn]
      · by_cases h3 : a = x
        · subst h3; simp [h1, h2, hxn]
        · simp [h1, h2, h3]

theorem isSome_of_nextOf {h : List (LruNode Key Value)} {a b : Nat} (e : nextOf h a = some b) :
    (h[a]?).isSome := by
  unfold nextOf at e
  cases hx : h[a]? with
  | none => simp [hx] at e
  | some n => rfl

theorem isSome_of_prevOf {h : List (LruNode Key Value)} {a b : Nat} (e : prevOf h a = some b) :
    (h[a]?).isSome := by
  unfold prevOf at e
  cases hx : h[a]? with
  | none => simp [hx] at e
  | some n => rfl

theorem chain_frame {R S : Nat → Nat → Prop} :
    ∀ {L : List Nat}, List.Chain' R L →
      (∀ a b, a ∈ L.dropLast → b ∈ L.tail → R a b → S a b) → List.Chain' S L
  | [], _, _ => List.chain'_nil
  | [a], _, _ => List.chain'_singleton a
  | a :: b :: l, hc, H => by
    rw [List.chain'_cons] at hc ⊢
    refine ⟨H a b (by simp) (by simp) hc.1, chain_frame hc.2 ?_⟩
    intro a1 b1 ha hb hr
    refine H a1 b1 ?_ ?_ hr
    · simp only [List.dropLast_cons₂, List.mem_cons]
      exact Or.inr ha
    · simp only [List.tail_cons, List.mem_cons]
      exact Or.inr (by simpa using hb)

theorem exists_concat_of_ne_nil {α : Type} : ∀ {l : List α}, l ≠ [] → ∃ X p, l = X ++ [p] := by
  intro l hl
  exact ⟨l.dropLast, l.getLast hl, (List.dropLast_append_getLast hl).symm⟩

/-- Unlinking `x` from a chain. -/

theorem chain_unlink {h h1 : List (LruNode Key Value)} {X Y : List Nat} {p x n : Nat}
    (hnd : (X ++ p :: x :: n :: Y).Nodup)
    (hc : List.Chain' (Linked h) (X ++ p :: x :: n :: Y))
    (hnext : ∀ a, nextOf h1 a = if a = p then some n else nextOf h a)
    (hprev : ∀ a, prevOf h1 a = if a = n then some p else prevOf h a) :
    List.Chain' (Linked h1) (X ++ p :: n :: Y) := by
  rw [List.chain'_split] at hc ⊢
  obtain ⟨hc1, hc2⟩ := hc
  rw [List.chain'_cons, List.chain'_cons] at hc2
  obtain ⟨-, -, hc3⟩ := hc2
  rw [List.nodup_append] at hnd
  obtain ⟨ndX, ndR, dj⟩ := hnd
  have hpX : p ∉ X := fun hm => dj hm (by simp)
  have hnX : n ∉ X := fun hm => dj hm (by simp)
  simp only [List.nodup_cons, List.mem_cons, not_or] at ndR
  obtain ⟨⟨hpx, hpn, hpY⟩, ⟨hxn, hxY⟩, hnY, ndY⟩ := ndR
  refine ⟨chain_frame hc1 ?_, ?_⟩
  · intro a b ha hb hr
    have haX : a ∈ X := by simpa using ha
    have hbXp : b ∈ X ++ [p] := List.mem_of_mem_tail hb
    have hap : a ≠ p := fun e => hpX (e ▸ haX)
    have hbn : b ≠ n := by
      intro e; subst e
      rcases List.mem_append.mp hbXp with hb1 | hb1
      · exact hnX hb1
      · simp at hb1; exact hpn hb1.symm
    exact ⟨by rw [hnext a, if_neg hap]; exact hr.1, by rw [hprev b, if_neg hbn]; exact hr.2⟩
  · rw [List.chain'_cons]
    refine ⟨⟨by rw [hnext p, if_pos rfl], by rw [hprev n, if_pos rfl]⟩, chain_frame hc3 ?_⟩
    intro a b ha hb hr
    have haY : a ∈ n :: Y := List.mem_of_mem_dropLast ha
    have hbY : b ∈ Y := by simpa using hb
    have hap : a ≠ p := by
      intro e; subst e
      rcases List.mem_cons.mp haY with h1 | h1
      · exact hpn h1
      · exact hpY h1
    have hbn : b ≠ n := fun e => hnY (e ▸ hbY)
    exact ⟨by rw [hnext a, if_neg hap]; exact hr.1, by rw [hprev b, if_neg hbn]; exact hr.2⟩

/-- Linking `x` in front of the last node `t` of a chain. -/

theorem chain_link {h h1 : List (LruNode Key Value)} {X : List Nat} {q x t : Nat}
    (hnd : (X ++ [q, t]).Nodup) (hx : x ∉ X ++ [q, t])
    (hc : List.Chain' (Linked h) (X ++ [q, t]))
    (hnext : ∀ a, nextOf h1 a = if a = q then some x else if a = x then some t else nextOf h a)
    (hprev : ∀ a, prevOf h1 a = if a = t then some x else if a = x then some q else prevOf h a) :
    List.Chain' (Linked h1) (X ++ [q, x, t]) := by
  rw [List.chain'_split] at hc ⊢
  obtain ⟨hc1, -⟩ := hc
  rw [List.nodup_append] at hnd
  obtain ⟨ndX, ndR, dj⟩ := hnd
  have hqX : q ∉ X := fun hm => dj hm (by simp)
  have htX : t ∉ X := fun hm => dj hm (by simp)
  simp only [List.nodup_cons, List.mem_cons, List.mem_singleton, not_or] at ndR
  have hqt : q ≠ t := ndR.1.1
  simp only [List.mem_append, List.mem_cons, not_or] at hx
  obtain ⟨hxX, hxq, hxt, -⟩ := hx
  refine ⟨chain_frame hc1 ?_, ?_⟩
  · intro a b ha hb hr
    have haX : a ∈ X := by simpa using ha
    have hbXp : b ∈ X ++ [q] := List.mem_of_mem_tail hb
    have haq : a ≠ q := fun e => hqX (e ▸ haX)
    have hax : a ≠ x := fun e => hxX (e ▸ haX)
    have hbt : b ≠ t := by
      intro e; subst e
      rcases List.mem_append.mp hbXp with hb1 | hb1
      · exact htX hb1
      · simp at hb1; exact hqt hb1.symm
    have hbx : b ≠ x := by
      intro e; subst e
      rcases List.mem_append.mp hbXp with hb1 | hb1
      · exact hxX hb1
      · simp at hb1; exact hxq hb1
    exact ⟨by rw [hnext a, if_neg haq, if_neg hax]; exact hr.1,
      by rw [hprev b, if_neg hbt, if_neg hbx]; exact hr.2⟩
  · rw [List.chain'_cons, List.chain'_pair]
    refine ⟨⟨by rw [hnext q, if_pos rfl], by rw [hprev x, if_neg hxt, if_pos rfl]⟩,
      ⟨by rw [hnext x, if_neg hxq, if_pos rfl], by rw [hprev t, if_pos rfl]⟩⟩

/-! ## Effect of the link operations on the linked sequence -/

theorem removeNode_seq {s : KLruCache Key Value} {hd tl x : Nat} {A B : List Nat}
    (hs : Seq s.heap_ hd tl (A ++ x :: B)) :
    ∃ h2, s.removeNode x = some { s with heap_ := h2 } ∧ h2.length = s.heap_.length ∧
      Seq h2 hd tl (A ++ B) ∧ (∀ a, payload h2 a = payload s.heap_ a) := by
  obtain ⟨X, p, hX⟩ := exists_concat_of_ne_nil (List.cons_ne_nil hd A)
  obtain ⟨n, Y, hY⟩ : ∃ n Y, B ++ [tl] = n :: Y := by
    cases B with
    | nil => exact ⟨tl, [], rfl⟩
    | cons b B => exact ⟨b, B ++ [tl], rfl⟩
  have hL : hd :: (A ++ x :: B) ++ [tl] = X ++ p :: x :: n :: Y := by
    have : hd :: (A ++ x :: B) ++ [tl] = (hd :: A) ++ x :: (B ++ [tl]) := by simp
    rw [this, hX, hY]; simp
  have hL1 : hd :: (A ++ B) ++ [tl] = X ++ p :: n :: Y := by
    have : hd :: (A ++ B) ++ [tl] = (hd :: A) ++ (B ++ [tl]) := by simp
    rw [this, hX, hY]; simp
  obtain ⟨hnd, hc⟩ := hs
  rw [hL] at hnd hc
  have hc' := hc
  rw [List.chain'_split, List.chain'_cons, List.chain'_cons] at hc'
  obtain ⟨-, hpx, hxn, -⟩ := hc'
  obtain ⟨h2, e, hl, kn, kp, kpay⟩ := removeNode_spec (s := s) hpx.2 hxn.1
    (isSome_of_nextOf hpx.1) (isSome_of_prevOf hxn.2)
  refine ⟨h2, e, hl, ⟨?_, ?_⟩, kpay⟩
  · rw [hL1]
    refine hnd.sublist ?_
    exact List.Sublist.append (List.Sublist.refl X)
      (List.Sublist.cons₂ p (List.Sublist.cons x (List.Sublist.refl _)))
  · rw [hL1]
    exact chain_unlink hnd hc kn kp

theorem insertNode_seq (s : KLruCache Key Value) (hd : Nat) {x : Nat} {ids : List Nat}
    (hs : Seq s.heap_ hd s.dummyTail_ ids) (hx : x ∉ hd :: ids ++ [s.dummyTail_])
    (hxv : (s.heap_[x]?).isSome) :
    ∃ h4, s.insertNode x = some { s with heap_ := h4 } ∧ h4.length = s.heap_.length ∧
      Seq h4 hd s.dummyTail_ (ids ++ [x]) ∧ (∀ a, payload h4 a = payload s.heap_ a) := by
  obtain ⟨X, q, hX⟩ := exists_concat_of_ne_nil (List.cons_ne_nil hd ids)
  have hL : hd :: ids ++ [s.dummyTail_] = X ++ [q, s.dummyTail_] := by
    have : hd :: ids ++ [s.dummyTail_] = (hd :: ids) ++ [s.dummyTail_] := by simp
    rw [this, hX]; simp
  have hL1 : hd :: (ids ++ [x]) ++ [s.dummyTail_] = X ++ [q, x, s.dummyTail_] := by
    have : hd :: (ids ++ [x]) ++ [s.dummyTail_] = (hd :: ids) ++ [x, s.dummyTail_] := by simp
    rw [this, hX]; simp
  obtain ⟨hnd, hc⟩ := hs
  rw [hL] at hnd hc hx
  have hc' := hc
  rw [List.chain'_split, List.chain'_pair] at hc'
  obtain ⟨-, hqt⟩ := hc'
  have hx' := hx
  simp only [List.mem_append, List.mem_cons, not_or] at hx'
  obtain ⟨-, hxq, hxt, -⟩ := hx'
  have hnd' := hnd
  rw [List.nodup_append] at hnd'
  have hqt' : q ≠ s.dummyTail_ := by
    have := hnd'.2.1
    simp only [List.nodup_cons, List.mem_singleton] at this
    exact this.1
  obtain ⟨h4, e, hl, kn, kp, kpay⟩ := insertNode_spec (s := s) hxv hqt.2
    (isSome_of_nextOf hqt.1) hxt hxq hqt'
  refine ⟨h4, e, hl, ⟨?_, ?_⟩, kpay⟩
  · rw [hL1]
    rw [List.nodup_append] at hnd ⊢
    obtain ⟨ndX, ndR, dj⟩ := hnd
    simp only [List.mem_append, not_or] at hx
    refine ⟨ndX, ?_, ?_⟩
    · simp only [List.nodup_cons, List.mem_cons, List.mem_singleton, not_or] at ndR ⊢
      simp only [List.mem_cons, not_or] at hx
      exact ⟨⟨fun e => hxq e.symm, ndR.1.1, by simp⟩, ⟨hxt, by simp⟩, by simp, List.nodup_nil⟩
    · intro a ha hb
      simp only [List.mem_cons] at hb
      rcases hb with hb | hb | hb
      · exact dj ha (by simp [hb])
      · subst hb; exact hx.1 ha
      · exact dj ha (by simpa using Or.inr hb)
  · rw [hL1]
    exact chain_link hnd hx hc kn kp

theorem seq_valid {h : List (LruNode Key Value)} {hd tl : Nat} {ids : List Nat}
    (hs : Seq h hd tl ids) : ∀ a ∈ hd :: ids ++ [tl], (h[a]?).isSome := by
  intro a ha
  obtain ⟨-, hc⟩ := hs
  obtain ⟨X, Y, hXY⟩ := List.append_of_mem ha
  cases Y with
  | cons b Y =>
    rw [hXY, List.chain'_split, List.chain'_cons] at hc
    exact isSome_of_nextOf hc.2.1.1
  | nil =>
    have hX : X ≠ [] := by
      intro e; subst e
      have := congrArg List.length hXY
      simp at this
    obtain ⟨X1, c, hX1⟩ := exists_concat_of_ne_nil hX
    rw [hXY, hX1] at hc
    have : X1 ++ [c] ++ [a] = X1 ++ [c, a] := by simp
    rw [this, List.chain'_split, List.chain'_pair] at hc
    exact isSome_of_prevOf hc.2.2

/-! ## The key index under the representation -/

theorem mapFind_some [DecidableEq Key] {m : List (Key × Nat)} {k : Key} {it : Key × Nat}
    (e : mapFind m k = some it) : it ∈ m ∧ it.1 = k := by
  unfold mapFind at e
  exact ⟨List.mem_of_find?_eq_some e, by simpa using List.find?_some e⟩

theorem mapFind_none [DecidableEq Key] {m : List (Key × Nat)} {k : Key}
    (e : mapFind m k = none) : ∀ p ∈ m, p.1 ≠ k := by
  unfold mapFind at e
  intro p hp
  simpa using List.find?_eq_none.mp e p hp

theorem mapFind_perm [DecidableEq Key] {m1 m2 : List (Key × Nat)} (hp : m1.Perm m2)
    (hnd : (m1.map Prod.fst).Nodup) (k : Key) : mapFind m1 k = mapFind m2 k := by
  cases h1 : mapFind m1 k with
  | none =>
    have := mapFind_none h1
    symm
    unfold mapFind
    rw [List.find?_eq_none]
    intro p hp2
    simpa using this p (hp.mem_iff.mpr hp2)
  | some it =>
    obtain ⟨hm, hk⟩ := mapFind_some h1
    cases h2 : mapFind m2 k with
    | none =>
      exact absurd hk (mapFind_none h2 it (hp.mem_iff.mp hm))
    | some it2 =>
      obtain ⟨hm2, hk2⟩ := mapFind_some h2
      have := List.inj_on_of_nodup_map hnd hm (hp.mem_iff.mpr hm2) (hk.trans hk2.symm)
      rw [this]

theorem mapFind_slots [DecidableEq Key] (es : List (Slot Key Value)) (k : Key) :
    mapFind (es.map (fun e => (e.key, e.addr))) k =
      (es.find? (fun e => decide (e.key = k))).map (fun e => (e.key, e.addr)) := by
  unfold mapFind
  rw [List.find?_map]
  rfl

theorem mapErase_slots [DecidableEq Key] (es : List (Slot Key Value)) (k : Key) :
    mapErase (es.map (fun e => (e.key, e.addr))) k =
      (es.filter (fun e => decide (e.key ≠ k))).map (fun e => (e.key, e.addr)) := by
  unfold mapErase
  rw [List.filter_map]
  rfl

/-- A list of slots with distinct keys splits around the slot of a key. -/
theorem filter_ne_split [DecidableEq Key] {A B : List (Slot Key Value)} {e : Slot Key Value}
    (hnd : ((A ++ e :: B).map Slot.key).Nodup) :
    (A ++ e :: B).filter (fun x => decide (x.key ≠ e.key)) = A ++ B := by
  simp only [List.map_append, List.map_cons, List.nodup_append, List.nodup_cons, List.mem_map,
    not_exists, not_and] at hnd
  obtain ⟨-, ⟨heB, -⟩, dj⟩ := hnd
  have hA : ∀ x ∈ A, x.key ≠ e.key := by
    intro x hx he
    exact dj (List.mem_map_of_mem Slot.key hx) (by simp [he])
  have hB : ∀ x ∈ B, x.key ≠ e.key := fun x hx he => heB x hx he
  rw [List.filter_append, List.filter_cons]
  simp only [ne_eq, not_true_eq_false, decide_False, Bool.false_eq_true, ↓reduceIte]
  rw [List.filter_eq_self.mpr (by simpa using hA), List.filter_eq_self.mpr (by simpa using hB)]

theorem filter_eq_split [DecidableEq Key] {A B : List (Slot Key Value)} {e : Slot Key Value}
    (hnd : ((A ++ e :: B).map Slot.key).Nodup) :
    (A ++ e :: B).filter (fun x => decide (x.key = e.key)) = [e] := by
  simp only [List.map_append, List.map_cons, List.nodup_append, List.nodup_cons, List.mem_map,
    not_exists, not_and] at hnd
  obtain ⟨-, ⟨heB, -⟩, dj⟩ := hnd
  have hA : ∀ x ∈ A, x.key ≠ e.key := by
    intro x hx he
    exact dj (List.mem_map_of_mem Slot.key hx) (by simp [he])
  have hB : ∀ x ∈ B, x.key ≠ e.key := fun x hx he => heB x hx he
  rw [List.filter_append, List.filter_cons]
  simp only [decide_True, ↓reduceIte]
  rw [List.filter_eq_nil_iff.mpr (by simpa using hA), List.filter_eq_nil_iff.mpr (by simpa using hB)]
  rfl

theorem find_split [DecidableEq Key] {A B : List (Slot Key Value)} {e : Slot Key Value}
    (hnd : ((A ++ e :: B).map Slot.key).Nodup) :
    (A ++ e :: B).find? (fun x => decide (x.key = e.key)) = some e := by
  simp only [List.map_append, List.map_cons, List.nodup_append, List.nodup_cons, List.mem_map,
    not_exists, not_and] at hnd
  obtain ⟨-, -, dj⟩ := hnd
  have hA : ∀ x ∈ A, x.key ≠ e.key := by
    intro x hx he
    exact dj (List.mem_map_of_mem Slot.key hx) (by simp [he])
  rw [List.find?_append, List.find?_eq_none.mpr (by simpa using hA)]
  simp

/-- What `nodeMap_.find(key)` returns in a represented state. -/
theorem Represents.find [DecidableEq Key] {s : KLruCache Key Value} {es : List (Slot Key Value)}
    (r : Represents s es) (k : Key) :
    mapFind s.nodeMap_ k =
      (es.find? (fun e => decide (e.key = k))).map (fun e => (e.key, e.addr)) := by
  rw [← mapFind_slots]
  refine mapFind_perm r.index ?_ k
  have := (r.index.map Prod.fst).nodup_iff.mpr
  apply this
  simpa [List.map_map, Function.comp_def] using r.keys

theorem Represents.length_index {s : KLruCache Key Value} {es : List (Slot Key Value)}
    (r : Represents s es) : s.nodeMap_.length = es.length := by
  simpa using r.index.length_eq

/-! ## The operations on a represented state -/

theorem isSome_of_payload {h : List (LruNode Key Value)} {a : Nat} {x : Key × Value × Nat}
    (e : payload h a = some x) : (h[a]?).isSome := by
  unfold payload at e
  cases hx : h[a]? with
  | none => simp [hx] at e
  | some n => rfl

theorem seq_nodup_ids {h : List (LruNode Key Value)} {hd tl : Nat} {ids : List Nat}
    (hs : Seq h hd tl ids) : ids.Nodup ∧ hd ∉ ids ∧ tl ∉ ids ∧ hd ≠ tl := by
  have hnd := hs.1
  simp only [List.cons_append, List.nodup_cons, List.nodup_append, List.mem_append,
    List.mem_singleton, not_or, List.nodup_nil, List.not_mem_nil, not_false_eq_true,
    and_true, true_and] at hnd
  obtain ⟨⟨h1, h2⟩, h3, h4⟩ := hnd
  refine ⟨h3, h1, ?_, h2⟩
  intro hm
  exact h4 hm (by simp)

theorem Represents.mem_split {s : KLruCache Key Value} {A B : List (Slot Key Value)} {e : Slot Key Value}
    (r : Represents s (A ++ e :: B)) :
    Seq s.heap_ s.dummyHead_ s.dummyTail_ (A.map Slot.addr ++ e.addr :: B.map Slot.addr) := by
  simpa using r.seq

theorem moveToMostRecent_repr {s : KLruCache Key Value} {A B : List (Slot Key Value)}
    {e : Slot Key Value} (r : Represents s (A ++ e :: B)) :
    ∃ h, s.moveToMostRecent e.addr = some { s with heap_ := h } ∧ h.length = s.heap_.length ∧
      Represents { s with heap_ := h } (A ++ B ++ [e]) := by
  have hs := r.mem_split
  obtain ⟨h2, e2, l2, s2, p2⟩ := removeNode_seq hs
  have hx : e.addr ∉ s.dummyHead_ :: (A.map Slot.addr ++ B.map Slot.addr) ++ [s.dummyTail_] := by
    have hnd := hs.1
    have : s.dummyHead_ :: (A.map Slot.addr ++ e.addr :: B.map Slot.addr) ++ [s.dummyTail_] =
        (s.dummyHead_ :: A.map Slot.addr) ++ e.addr :: (B.map Slot.addr ++ [s.dummyTail_]) := by
      simp
    rw [this, List.nodup_append] at hnd
    obtain ⟨-, hR, dj⟩ := hnd
    rw [List.nodup_cons] at hR
    intro hm
    have : e.addr ∈ (s.dummyHead_ :: A.map Slot.addr) ∨ e.addr ∈ (B.map Slot.addr ++ [s.dummyTail_]) := by
      simp only [List.cons_append, List.append_assoc, List.mem_cons, List.mem_append] at hm ⊢
      tauto
    rcases this with h1 | h1
    · exact dj h1 (by simp)
    · exact hR.1 h1
  have hv : (h2[e.addr]?).isSome := by
    have := r.node e (by simp)
    rw [← p2] at this
    exact isSome_of_payload this
  obtain ⟨h4, e4, l4, s4, p4⟩ :=
    insertNode_seq { s with heap_ := h2 } s.dummyHead_ s2 hx hv
  refine ⟨h4, ?_, by simp at l4; omega, ?_⟩
  · simp only [KLruCache.moveToMostRecent, Option.bind_eq_bind, e2, Option.some_bind, e4]
  · refine ⟨by simpa using s4, ?_, ?_, ?_⟩
    · intro e1 he1
      have : e1 ∈ A ++ e :: B := by
        simp only [List.mem_append, List.mem_cons, List.mem_singleton] at he1 ⊢
        tauto
      show payload h4 e1.addr = _
      rw [p4, p2]
      exact r.node e1 this
    · have hp : (A ++ B ++ [e]).Perm (A ++ e :: B) := by
        rw [List.append_assoc]
        exact List.Perm.append_left A (List.perm_append_singleton e B)
      exact (hp.map Slot.key).nodup_iff.mpr r.keys
    · have hp : (A ++ e :: B).Perm (A ++ B ++ [e]) := by
        rw [List.append_assoc]
        exact List.Perm.append_left A (List.perm_append_singleton e B).symm
      exact r.index.trans (hp.map _)

theorem seq_congr {h : List (LruNode Key Value)} (h1 : List (LruNode Key Value))
    {hd tl : Nat} {ids : List Nat} (hs : Seq h hd tl ids)
    (hn : ∀ a b, nextOf h a = some b → nextOf h1 a = some b)
    (hp : ∀ a b, prevOf h a = some b → prevOf h1 a = some b) : Seq h1 hd tl ids :=
  ⟨hs.1, hs.2.imp (fun a b hl => ⟨hn a b hl.1, hp b a hl.2⟩)⟩

theorem setValue_repr {s : KLruCache Key Value} {A B : List (Slot Key Value)}
    {e : Slot Key Value} (r : Represents s (A ++ e :: B)) (v : Value) :
    ∃ h1, modify s.heap_ e.addr (fun m => { m with value_ := v }) = some h1 ∧
      h1.length = s.heap_.length ∧
      Represents { s with heap_ := h1 } (A ++ { e with value := v } :: B) := by
  have hnode := r.node e (by simp)
  obtain ⟨n, hn⟩ := Option.isSome_iff_exists.mp (isSome_of_payload hnode)
  obtain ⟨h1, e1, l1, k1⟩ := modify_spec (fun m : LruNode Key Value => { m with value_ := v }) hn
  have hpay : ∀ a, a ≠ e.addr → payload h1 a = payload s.heap_ a := by
    intro a ha; unfold payload; rw [k1 a, if_neg ha]
  have hpe : payload h1 e.addr = some (e.key, v, e.count) := by
    unfold payload at hnode ⊢
    rw [k1, if_pos rfl]
    rw [hn] at hnode
    simp only [Option.map_some', Option.some.injEq, Prod.mk.injEq] at hnode ⊢
    exact ⟨hnode.1, trivial, hnode.2.2⟩
  have hnx : ∀ a, nextOf h1 a = nextOf s.heap_ a := by
    intro a; unfold nextOf; rw [k1 a]
    by_cases ha : a = e.addr
    · subst ha; simp [hn]
    · simp [ha]
  have hpv : ∀ a, prevOf h1 a = prevOf s.heap_ a := by
    intro a; unfold prevOf; rw [k1 a]
    by_cases ha : a = e.addr
    · subst ha; simp [hn]
    · simp [ha]
  have hadd : ∀ e1 ∈ A ++ B, e1.addr ≠ e.addr := by
    have hnd := (seq_nodup_ids r.mem_split).1
    rw [List.nodup_append, List.nodup_cons] at hnd
    obtain ⟨-, ⟨heB, -⟩, dj⟩ := hnd
    intro e1 he1 heq
    rcases List.mem_append.mp he1 with h | h
    · exact dj (List.mem_map_of_mem Slot.addr h) (by simp [heq])
    · exact heB (heq ▸ List.mem_map_of_mem Slot.addr h)
  refine ⟨h1, e1, l1, ?_, ?_, ?_, ?_⟩
  · have := seq_congr h1 r.seq (fun a b hh => by rw [hnx a]; exact hh)
      (fun a b hh => by rw [hpv a]; exact hh)
    simpa using this
  · intro e1 he1
    simp only [List.mem_append, List.mem_cons] at he1
    rcases he1 with h | h | h
    · show payload h1 e1.addr = _
      rw [hpay _ (hadd e1 (List.mem_append_left _ h))]
      exact r.node e1 (by simp [h])
    · subst h; exact hpe
    · show payload h1 e1.addr = _
      rw [hpay _ (hadd e1 (List.mem_append_right _ h))]
      exact r.node e1 (by simp [h])
  · simpa using r.keys
  · simpa using r.index

theorem updateExistingNode_repr {s : KLruCache Key Value} {A B : List (Slot Key Value)}
    {e : Slot Key Value} (r : Represents s (A ++ e :: B)) (v : Value) :
    ∃ h, s.updateExistingNode e.addr v = some { s with heap_ := h } ∧
      h.length = s.heap_.length ∧
      Represents { s with heap_ := h } (A ++ B ++ [{ e with value := v }]) := by
  obtain ⟨h1, e1, l1, r1⟩ := setValue_repr r v
  obtain ⟨h2, e2, l2, r2⟩ := moveToMostRecent_repr r1
  refine ⟨h2, ?_, by simp at l2; omega, by simpa using r2⟩
  simp only [KLruCache.updateExistingNode, Option.bind_eq_bind, e1, Option.some_bind]
  exact e2

theorem nextOf_eq_some {h : List (LruNode Key Value)} {a b : Nat} (e : nextOf h a = some b) :
    ∃ n, h[a]? = some n ∧ n.next_ = some b := by
  unfold nextOf at e
  cases hx : h[a]? with
  | none => simp [hx] at e
  | some n => rw [hx] at e; exact ⟨n, rfl, e⟩

theorem payload_eq_some {h : List (LruNode Key Value)} {a : Nat} {k : Key} {v : Value} {c : Nat}
    (e : payload h a = some (k, v, c)) :
    ∃ n, h[a]? = some n ∧ n.key_ = k ∧ n.value_ = v ∧ n.accessCount_ = c := by
  unfold payload at e
  cases hx : h[a]? with
  | none => simp [hx] at e
  | some n =>
    rw [hx] at e
    simp only [Option.map_some', Option.some.injEq, Prod.mk.injEq] at e
    exact ⟨n, rfl, e⟩

/-- Unlinking the node of an entry and erasing its key from the index. -/
theorem unlink_repr [DecidableEq Key] {s : KLruCache Key Value} {A B : List (Slot Key Value)}
    {e : Slot Key Value} (r : Represents s (A ++ e :: B)) :
    ∃ h, s.removeNode e.addr = some { s with heap_ := h } ∧ h.length = s.heap_.length ∧
      payload h e.addr = some (e.key, e.value, e.count) ∧
      Represents { s with heap_ := h, nodeMap_ := mapErase s.nodeMap_ e.key } (A ++ B) := by
  obtain ⟨h2, e2, l2, s2, p2⟩ := removeNode_seq r.mem_split
  refine ⟨h2, e2, l2, ?_, ?_, ?_, ?_, ?_⟩
  · rw [p2]; exact r.node e (by simp)
  · simpa using s2
  · intro e1 he1
    show payload h2 e1.addr = _
    rw [p2]
    refine r.node e1 ?_
    simp only [List.mem_append, List.mem_cons] at he1 ⊢
    tauto
  · have : (A ++ B).Sublist (A ++ e :: B) :=
      List.Sublist.append (List.Sublist.refl A) (List.sublist_cons_self e B)
    exact r.keys.sublist (this.map Slot.key)
  · show (mapErase s.nodeMap_ e.key).Perm _
    have h1 : (mapErase s.nodeMap_ e.key).Perm
        (mapErase ((A ++ e :: B).map (fun x => (x.key, x.addr))) e.key) :=
      r.index.filter _
    rw [mapErase_slots, filter_ne_split r.keys] at h1
    exact h1

theorem evictLeastRecent_repr [DecidableEq Key] {s : KLruCache Key Value}
    {es : List (Slot Key Value)} {e : Slot Key Value} (r : Represents s (e :: es)) :
    ∃ h, s.evictLeastRecent =
        some { s with heap_ := h, nodeMap_ := mapErase s.nodeMap_ e.key } ∧
      h.length = s.heap_.length ∧
      Represents { s with heap_ := h, nodeMap_ := mapErase s.nodeMap_ e.key } es := by
  have r0 : Represents s ([] ++ e :: es) := r
  obtain ⟨h, e1, l1, p1, r1⟩ := unlink_repr r0
  have hc := r.seq.2
  simp only [List.map_cons, List.cons_append] at hc
  rw [List.chain'_cons] at hc
  obtain ⟨hn, hhd, hnx⟩ := nextOf_eq_some hc.1.1
  obtain ⟨n, hnn, hk, -, -⟩ := payload_eq_some p1
  refine ⟨h, ?_, l1, by simpa using r1⟩
  simp only [KLruCache.evictLeastRecent, Option.bind_eq_bind, hhd, Option.some_bind, hnx, e1,
    hnn, hk]
  rfl

theorem remove_repr [DecidableEq Key] {s : KLruCache Key Value} {A B : List (Slot Key Value)}
    {e : Slot Key Value} (r : Represents s (A ++ e :: B)) :
    ∃ h, s.remove e.key = some { s with heap_ := h, nodeMap_ := mapErase s.nodeMap_ e.key } ∧
      h.length = s.heap_.length ∧
      Represents { s with heap_ := h, nodeMap_ := mapErase s.nodeMap_ e.key } (A ++ B) := by
  obtain ⟨h, e1, l1, p1, r1⟩ := unlink_repr r
  refine ⟨h, ?_, l1, r1⟩
  have hf := r.find e.key
  rw [find_split r.keys] at hf
  simp only [KLruCache.remove, hf, Option.map_some', Option.bind_eq_bind, e1, Option.some_bind]
  rfl

theorem get_repr_hit [DecidableEq Key] {s : KLruCache Key Value} {A B : List (Slot Key Value)}
    {e : Slot Key Value} (r : Represents s (A ++ e :: B)) (v0 : Value) :
    ∃ h, s.get e.key v0 = some ({ s with heap_ := h }, true, e.value) ∧
      h.length = s.heap_.length ∧ Represents { s with heap_ := h } (A ++ B ++ [e]) := by
  obtain ⟨h, e1, l1, r1⟩ := moveToMostRecent_repr r
  have hf := r.find e.key
  rw [find_split r.keys] at hf
  obtain ⟨n, hnn, -, hv, -⟩ := payload_eq_some (r1.node e (by simp))
  refine ⟨h, ?_, l1, r1⟩
  simp only [KLruCache.get, hf, Option.map_some', Option.bind_eq_bind, e1, Option.some_bind]
  simp only at hnn
  rw [hnn]
  simp [hv]

theorem get_miss [DecidableEq Key] {s : KLruCache Key Value} {k : Key}
    (hf : mapFind s.nodeMap_ k = none) (v0 : Value) : s.get k v0 = some (s, false, v0) := by
  simp [KLruCache.get, hf]

theorem remove_miss [DecidableEq Key] {s : KLruCache Key Value} {k : Key}
    (hf : mapFind s.nodeMap_ k = none) : s.remove k = some s := by
  simp [KLruCache.remove, hf]

theorem put_repr_hit [DecidableEq Key] {s : KLruCache Key Value} {A B : List (Slot Key Value)}
    {e : Slot Key Value} (r : Represents s (A ++ e :: B)) (hcap : 0 < s.capacity_) (v : Value) :
    ∃ h, s.put e.key v = some { s with heap_ := h } ∧ h.length = s.heap_.length ∧
      Represents { s with heap_ := h } (A ++ B ++ [{ e with value := v }]) := by
  obtain ⟨h, e1, l1, r1⟩ := updateExistingNode_repr r v
  have hf := r.find e.key
  rw [find_split r.keys] at hf
  refine ⟨h, ?_, l1, r1⟩
  simp only [KLruCache.put, not_le.mpr hcap, ↓reduceIte, hf, Option.map_some']
  exact e1

theorem nextOf_append {h l : List (LruNode Key Value)} {a b : Nat} (e : nextOf h a = some b) :
    nextOf (h ++ l) a = some b := by
  obtain ⟨n, hn, hb⟩ := nextOf_eq_some e
  have hlt : a < h.length := (List.getElem?_eq_some_iff.mp hn).1
  unfold nextOf
  rw [List.getElem?_append_left hlt, hn]
  exact hb

theorem prevOf_append {h l : List (LruNode Key Value)} {a b : Nat} (e : prevOf h a = some b) :
    prevOf (h ++ l) a = some b := by
  have hv := isSome_of_prevOf e
  obtain ⟨n, hn⟩ := Option.isSome_iff_exists.mp hv
  have hlt : a < h.length := (List.getElem?_eq_some_iff.mp hn).1
  unfold prevOf at e ⊢
  rw [List.getElem?_append_left hlt]
  exact e

theorem payload_append {h l : List (LruNode Key Value)} {a : Nat} {x : Key × Value × Nat}
    (e : payload h a = some x) : payload (h ++ l) a = some x := by
  obtain ⟨n, hn⟩ := Option.isSome_iff_exists.mp (isSome_of_payload e)
  have hlt : a < h.length := (List.getElem?_eq_some_iff.mp hn).1
  unfold payload at e ⊢
  rw [List.getElem?_append_left hlt]
  exact e

theorem addNewNode_repr [DecidableEq Key] {s : KLruCache Key Value}
    {es : List (Slot Key Value)} (r : Represents s es) (hcap : 0 < s.capacity_) {k : Key}
    (hk : ∀ e ∈ es, e.key ≠ k) (v : Value) :
    ∃ s1, s.addNewNode k v = some s1 ∧ s1.capacity_ = s.capacity_ ∧
      Represents s1 ((if (es.length : Int) ≥ s.capacity_ then es.tail else es) ++
        [{ addr := s.heap_.length, key := k, value := v, count := 1 }]) := by
  -- the state after the optional eviction
  obtain ⟨s0, e0, c0, l0, r0, hk0⟩ : ∃ s0,
      (if (s.nodeMap_.length : Int) ≥ s.capacity_ then s.evictLeastRecent else some s) = some s0 ∧
      s0.capacity_ = s.capacity_ ∧ s0.heap_.length = s.heap_.length ∧
      Represents s0 (if (es.length : Int) ≥ s.capacity_ then es.tail else es) ∧
      (∀ e ∈ (if (es.length : Int) ≥ s.capacity_ then es.tail else es), e.key ≠ k) := by
    rw [r.length_index]
    by_cases hfull : (es.length : Int) ≥ s.capacity_
    · rw [if_pos hfull, if_pos hfull]
      cases es with
      | nil =>
        simp only [List.length_nil, Nat.cast_zero, ge_iff_le] at hfull
        omega
      | cons e es =>
        obtain ⟨h, e1, l1, r1⟩ := evictLeastRecent_repr r
        exact ⟨_, e1, rfl, l1, r1, fun x hx => hk x (List.mem_cons_of_mem _ hx)⟩
    · rw [if_neg hfull, if_neg hfull]
      exact ⟨s, rfl, rfl, rfl, r, hk⟩
  generalize (if (es.length : Int) ≥ s.capacity_ then es.tail else es) = es0 at r0 hk0
  rw [← l0]
  have hseq : Seq (s0.heap_ ++ [LruNode.create k v]) s0.dummyHead_ s0.dummyTail_
      (es0.map Slot.addr) :=
    seq_congr _ r0.seq (fun a b => nextOf_append) (fun a b => prevOf_append)
  have hfresh : s0.heap_.length ∉ s0.dummyHead_ :: es0.map Slot.addr ++ [s0.dummyTail_] := by
    intro hm
    obtain ⟨n, hn⟩ := Option.isSome_iff_exists.mp (seq_valid r0.seq _ hm)
    have := (List.getElem?_eq_some_iff.mp hn).1
    omega
  have hnew : (s0.heap_ ++ [LruNode.create k v])[s0.heap_.length]? = some (LruNode.create k v) := by
    simp
  obtain ⟨h4, e4, l4, s4, p4⟩ := insertNode_seq
    { s0 with heap_ := s0.heap_ ++ [LruNode.create k v] } s0.dummyHead_
    hseq hfresh (by rw [hnew]; rfl)
  have hfind : mapFind s0.nodeMap_ k = none := by
    rw [r0.find k, List.find?_eq_none.mpr (by simpa using hk0)]
    rfl
  refine ⟨{ s0 with heap_ := h4, nodeMap_ := (k, s0.heap_.length) :: s0.nodeMap_ }, ?_, c0, ?_⟩
  · unfold KLruCache.addNewNode
    rw [e0]
    simp only [Option.bind_eq_bind, Option.some_bind, e4, mapAssign, hfind]
  · refine ⟨by simpa using s4, ?_, ?_, ?_⟩
    · intro e1 he1
      show payload h4 e1.addr = _
      rw [p4]
      simp only [List.mem_append, List.mem_singleton] at he1
      rcases he1 with h | h
      · exact payload_append (r0.node e1 h)
      · subst h
        show payload (s0.heap_ ++ [LruNode.create k v]) s0.heap_.length = _
        unfold payload
        rw [hnew]
        rfl
    · rw [List.map_append, List.nodup_append]
      refine ⟨r0.keys, by simp, ?_⟩
      intro a ha hb
      simp only [List.map_cons, List.map_nil, List.mem_singleton] at hb
      obtain ⟨e1, he1, rfl⟩ := List.mem_map.mp ha
      exact hk0 e1 he1 hb
    · show ((k, s0.heap_.length) :: s0.nodeMap_).Perm _
      rw [List.map_append]
      refine (List.Perm.cons _ r0.index).trans ?_
      exact (List.perm_append_singleton _ _).symm

/-- A freshly constructed cache represents the empty sequence. -/
theorem repr_create [Inhabited Key] [Inhabited Value] (capacity : Int) :
    Represents (KLruCache.create capacity : KLruCache Key Value) [] := by
  refine ⟨⟨by simp [KLruCache.create], ?_⟩, by simp, by simp, by simp [KLruCache.create]⟩
  simp only [List.map_nil, List.nil_append, KLruCache.create]
  show List.Chain' _ [0, 1]
  rw [List.chain'_pair]
  exact ⟨rfl, rfl⟩

theorem filter_ne_of_absent [DecidableEq Key] {es : List (Slot Key Value)} {k : Key}
    (hk : ∀ e ∈ es, e.key ≠ k) : es.filter (fun e => decide (e.key ≠ k)) = es :=
  List.filter_eq_self.mpr (by simpa using hk)

theorem filter_eq_of_absent [DecidableEq Key] {es : List (Slot Key Value)} {k : Key}
    (hk : ∀ e ∈ es, e.key ≠ k) : es.filter (fun e => decide (e.key = k)) = [] :=
  List.filter_eq_nil_iff.mpr (by simpa using hk)

/-- Every slot list either has no slot for `k` or splits around the slot of `k`. -/
theorem slot_cases [DecidableEq Key] (es : List (Slot Key Value)) (k : Key) :
    (∀ e ∈ es, e.key ≠ k) ∨ ∃ A e B, es = A ++ e :: B ∧ e.key = k := by
  by_cases h : ∃ e ∈ es, e.key = k
  · obtain ⟨e, he, hk⟩ := h
    obtain ⟨A, B, hAB⟩ := List.append_of_mem he
    exact Or.inr ⟨A, e, B, hAB, hk⟩
  · left
    intro e he hk
    exact h ⟨e, he, hk⟩

theorem Represents.find_none [DecidableEq Key] {s : KLruCache Key Value} {es : List (Slot Key Value)}
    (r : Represents s es) {k : Key} (hk : ∀ e ∈ es, e.key ≠ k) : mapFind s.nodeMap_ k = none := by
  rw [r.find k, List.find?_eq_none.mpr (by simpa using hk)]
  rfl

/-- One call on a represented state: it does not fail, keeps the capacity, and the new
state represents `absStep` of the entries. -/
theorem step_repr [DecidableEq Key] [Inhabited Value] {s : KLruCache Key Value}
    {es : List (Slot Key Value)} (r : Represents s es) (op : Op Key Value) :
    ∃ s1, step s op = some s1 ∧ s1.capacity_ = s.capacity_ ∧
      Represents s1 (absStep s.capacity_ s.heap_.length es op) := by
  cases op with
  | put k v =>
    by_cases hcap : s.capacity_ ≤ 0
    · exact ⟨s, by simp [step, KLruCache.put, hcap], rfl, by simpa [absStep, hcap] using r⟩
    · rcases slot_cases es k with hk | ⟨A, e, B, rfl, rfl⟩
      · obtain ⟨s1, e1, c1, r1⟩ := addNewNode_repr r (not_le.mp hcap) hk v
        refine ⟨s1, ?_, c1, ?_⟩
        · simp only [step, KLruCache.put, hcap, ↓reduceIte, r.find_none hk]
          exact e1
        · have hany : es.any (fun e => decide (e.key = k)) = false := by
            rw [List.any_eq_false]; simpa using hk
          simpa only [absStep, hcap, ↓reduceIte, hany, Bool.false_eq_true] using r1
      · obtain ⟨h, e1, l1, r1⟩ := put_repr_hit r (not_le.mp hcap) v
        refine ⟨_, e1, rfl, ?_⟩
        have hany : (A ++ e :: B).any (fun x => decide (x.key = e.key)) = true := by
          rw [List.any_eq_true]; exact ⟨e, by simp, by simp⟩
        simp only [absStep, hcap, ↓reduceIte, hany, filter_ne_split r.keys,
          filter_eq_split r.keys, List.map_cons, List.map_nil]
        exact r1
  | get k =>
    rcases slot_cases es k with hk | ⟨A, e, B, rfl, rfl⟩
    · refine ⟨s, ?_, rfl, ?_⟩
      · simp [step, KLruCache.getValue, get_miss (r.find_none hk)]
      · simpa only [absStep, filter_ne_of_absent hk, filter_eq_of_absent hk,
          List.append_nil] using r
    · obtain ⟨h, e1, l1, r1⟩ := get_repr_hit r default
      refine ⟨{ s with heap_ := h }, ?_, rfl, ?_⟩
      · simp only [step, KLruCache.getValue, e1, Option.bind_eq_bind, Option.some_bind]
        rfl
      · simp only [absStep, filter_ne_split r.keys, filter_eq_split r.keys]
        exact r1
  | remove k =>
    rcases slot_cases es k with hk | ⟨A, e, B, rfl, rfl⟩
    · refine ⟨s, ?_, rfl, ?_⟩
      · simp [step, remove_miss (r.find_none hk)]
      · simpa only [absStep, filter_ne_of_absent hk] using r
    · obtain ⟨h, e1, l1, r1⟩ := remove_repr r
      refine ⟨_, e1, rfl, ?_⟩
      simp only [absStep, filter_ne_split r.keys]
      exact r1

theorem run_append [DecidableEq Key] [Inhabited Value] (s : KLruCache Key Value)
    (ops1 ops2 : List (Op Key Value)) :
    run s (ops1 ++ ops2) = (run s ops1).bind (fun s1 => run s1 ops2) := by
  induction ops1 generalizing s with
  | nil => rfl
  | cons op ops ih =>
    simp only [List.cons_append, run]
    cases step s op with
    | none => rfl
    | some s1 => simp [ih]

/-- Every call sequence runs to the end on a represented state, keeps the capacity and
ends in a represented state. -/
theorem run_repr [DecidableEq Key] [Inhabited Value] (ops : List (Op Key Value)) :
    ∀ {s : KLruCache Key Value} {es : List (Slot Key Value)}, Represents s es →
      ∃ s1 es1, run s ops = some s1 ∧ s1.capacity_ = s.capacity_ ∧ Represents s1 es1 := by
  induction ops with
  | nil => intro s es r; exact ⟨s, es, rfl, rfl, r⟩
  | cons op ops ih =>
    intro s es r
    obtain ⟨s1, e1, c1, r1⟩ := step_repr r op
    obtain ⟨s2, es2, e2, c2, r2⟩ := ih r1
    exact ⟨s2, es2, by simp [run, e1, e2], c2.trans c1, r2⟩

/-! ## Reading the recency sequence off a represented state -/

theorem length_le_of_nodup_lt {L : List Nat} {n : Nat} (hnd : L.Nodup) (hlt : ∀ a ∈ L, a < n) :
    L.length ≤ n := by
  have hsub : L ⊆ List.range n := fun a ha => List.mem_range.mpr (hlt a ha)
  simpa using (hnd.subperm hsub).length_le

theorem walk_chain {h : List (LruNode Key Value)} {tl : Nat} :
    ∀ (xs : List Nat) (fuel : Nat), xs.length < fuel → tl ∉ xs →
      List.Chain' (Linked h) (xs ++ [tl]) → walk h tl fuel (xs.headD tl) = xs
  | [], fuel, hf, _, _ => by
    obtain ⟨f, rfl⟩ : ∃ f, fuel = f + 1 := ⟨fuel - 1, by simp at hf; omega⟩
    simp [walk]
  | x :: xs, fuel, hf, ht, hc => by
    obtain ⟨f, rfl⟩ : ∃ f, fuel = f + 1 := ⟨fuel - 1, by simp at hf; omega⟩
    have hxt : x ≠ tl := fun e => ht (by simp [e])
    have htx : tl ∉ xs := fun hm => ht (List.mem_cons_of_mem _ hm)
    have hnext : nextOf h x = some (xs.headD tl) := by
      cases xs with
      | nil => simp only [List.cons_append, List.nil_append, List.chain'_pair] at hc; exact hc.1
      | cons y ys => simp only [List.cons_append, List.chain'_cons] at hc; exact hc.1.1
    have hc1 : List.Chain' (Linked h) (xs ++ [tl]) := by
      simp only [List.cons_append] at hc
      exact hc.tail
    have ih := walk_chain xs f (by simp at hf; omega) htx hc1
    simp only [walk, List.headD_cons, hxt, ↓reduceIte, hnext, ih]

theorem Represents.order_eq {s : KLruCache Key Value} {es : List (Slot Key Value)} (r : Represents s es) :
    s.order = es.map Slot.addr := by
  have hs := r.seq
  obtain ⟨hnd, htl, hhd, hne⟩ := seq_nodup_ids hs
  have hc := hs.2
  have hfirst : nextOf s.heap_ s.dummyHead_ = some ((es.map Slot.addr).headD s.dummyTail_) := by
    cases hes : es.map Slot.addr with
    | nil => rw [hes] at hc; simp only [List.nil_append, List.cons_append, List.chain'_pair] at hc; exact hc.1
    | cons y ys => rw [hes] at hc; simp only [List.cons_append, List.chain'_cons] at hc; exact hc.1.1
  have hlen : (es.map Slot.addr).length < s.heap_.length := by
    have hall : ∀ a ∈ s.dummyHead_ :: es.map Slot.addr ++ [s.dummyTail_], a < s.heap_.length := by
      intro a ha
      obtain ⟨n, hn⟩ := Option.isSome_iff_exists.mp (seq_valid hs a ha)
      exact (List.getElem?_eq_some_iff.mp hn).1
    have := length_le_of_nodup_lt hs.1 hall
    simp only [List.cons_append, List.length_cons, List.length_append, List.length_singleton,
      List.length_nil] at this
    omega
  have hc1 : List.Chain' (Linked s.heap_) (es.map Slot.addr ++ [s.dummyTail_]) := by
    simp only [List.cons_append] at hc
    exact hc.tail
  unfold KLruCache.order
  rw [hfirst]
  exact walk_chain _ _ hlen hhd hc1

theorem Represents.entries_eq {s : KLruCache Key Value} {es : List (Slot Key Value)} (r : Represents s es) :
    s.entries = es.map (fun e => (e.key, e.value)) := by
  unfold KLruCache.entries
  rw [r.order_eq]
  have hnode := r.node
  clear r
  induction es with
  | nil => rfl
  | cons e es ih =>
    have he := hnode e (by simp)
    obtain ⟨n, hn, hk, hv, -⟩ := payload_eq_some he
    simp only [List.map_cons, List.filterMap_cons, hn, Option.map_some', hk, hv]
    rw [ih (fun x hx => hnode x (List.mem_cons_of_mem _ hx))]

/-! ## Invariants of call sequences -/

theorem run_snoc [DecidableEq Key] [Inhabited Value] (s : KLruCache Key Value)
    (ops : List (Op Key Value)) (op : Op Key Value) :
    run s (ops ++ [op]) = (run s ops).bind (fun s1 => step s1 op) := by
  rw [run_append]
  congr 1
  funext s1
  simp only [run]
  cases step s1 op <;> rfl

/-- Induction along a call sequence on a fresh cache: a property of the sequence and of the
represented entries that holds initially and is kept by every call holds throughout. -/
theorem run_invariant [DecidableEq Key] [Inhabited Key] [Inhabited Value] (C : Int)
    (P : List (Op Key Value) → List (Slot Key Value) → Prop) (h0 : P [] [])
    (hstep : ∀ ops (s : KLruCache Key Value) es op,
      run (KLruCache.create C) ops = some s → s.capacity_ = C → Represents s es → P ops es →
        P (ops ++ [op]) (absStep C s.heap_.length es op))
    (ops : List (Op Key Value)) :
    ∃ s es, run (KLruCache.create C : KLruCache Key Value) ops = some s ∧
      s.capacity_ = C ∧ Represents s es ∧ P ops es := by
  induction ops using List.reverseRecOn with
  | nil => exact ⟨_, [], rfl, rfl, repr_create C, h0⟩
  | append_singleton ops op ih =>
    obtain ⟨s, es, e, c, r, p⟩ := ih
    obtain ⟨s1, e1, c1, r1⟩ := step_repr r op
    refine ⟨s1, _, ?_, c1.trans c, r1, ?_⟩
    · rw [run_snoc, e]; exact e1
    · rw [c]; exact hstep ops s es op e c r p

theorem length_filter_split [DecidableEq Key] (es : List (Slot Key Value)) (k : Key) :
    (es.filter (fun e => decide (e.key ≠ k))).length +
      (es.filter (fun e => decide (e.key = k))).length = es.length := by
  induction es with
  | nil => rfl
  | cons e es ih =>
    by_cases h : e.key = k
    · simp only [List.filter_cons, h, ne_eq, not_true_eq_false, decide_False, decide_True,
        Bool.false_eq_true, ↓reduceIte, List.length_cons]
      simp only [ne_eq] at ih
      omega
    · simp only [List.filter_cons, h, ne_eq, not_false_eq_true, decide_True, decide_False,
        Bool.false_eq_true, ↓reduceIte, List.length_cons]
      simp only [ne_eq] at ih
      omega

theorem absStep_length_le [DecidableEq Key] {C : Int} (fresh : Nat)
    {es : List (Slot Key Value)} (op : Op Key Value) (h : (es.length : Int) ≤ C) :
    ((absStep C fresh es op).length : Int) ≤ C := by
  have hsplit := fun k => length_filter_split es k
  cases op with
  | put k v =>
    simp only [absStep]
    split
    · exact h
    · split
      · simp only [List.length_append, List.length_map]
        have := hsplit k
        omega
      · split
        · next hcap _ hfull =>
          cases es with
          | nil => simp at hfull; omega
          | cons e es => simp at h ⊢; omega
        · next hcap _ hfull => simp at hfull ⊢; omega
  | get k =>
    simp only [absStep, List.length_append]
    have := hsplit k
    omega
  | remove k =>
    simp only [absStep]
    have := hsplit k
    omega

theorem step_inert [DecidableEq Key] [Inhabited Value] (s : KLruCache Key Value)
    (hc : s.capacity_ ≤ 0) (hm : s.nodeMap_ = []) (op : Op Key Value) : step s op = some s := by
  have hf : ∀ k, mapFind s.nodeMap_ k = none := by intro k; rw [hm]; rfl
  cases op with
  | put k v => simp [step, KLruCache.put, hc]
  | get k => simp [step, KLruCache.getValue, get_miss (hf k)]
  | remove k => simp [step, remove_miss (hf k)]

theorem run_inert [DecidableEq Key] [Inhabited Value] (s : KLruCache Key Value)
    (hc : s.capacity_ ≤ 0) (hm : s.nodeMap_ = []) (ops : List (Op Key Value)) :
    run s ops = some s := by
  induction ops with
  | nil => rfl
  | cons op ops ih => simp [run, step_inert s hc hm op, ih]

/-! ## Lookups in a represented state -/

theorem find_slot_perm [DecidableEq Key] {l1 l2 : List (Slot Key Value)} (hp : l1.Perm l2)
    (hnd : (l1.map Slot.key).Nodup) (k : Key) :
    l1.find? (fun e => decide (e.key = k)) = l2.find? (fun e => decide (e.key = k)) := by
  cases h1 : l1.find? (fun e => decide (e.key = k)) with
  | none =>
    symm
    rw [List.find?_eq_none] at h1 ⊢
    intro x hx
    exact h1 x (hp.mem_iff.mpr hx)
  | some e1 =>
    have hm1 := List.mem_of_find?_eq_some h1
    have hk1 : e1.key = k := by simpa using List.find?_some h1
    cases h2 : l2.find? (fun e => decide (e.key = k)) with
    | none =>
      rw [List.find?_eq_none] at h2
      exact absurd (by simpa using hk1) (h2 e1 (hp.mem_iff.mp hm1))
    | some e2 =>
      have hm2 := List.mem_of_find?_eq_some h2
      have hk2 : e2.key = k := by simpa using List.find?_some h2
      rw [List.inj_on_of_nodup_map hnd hm1 (hp.mem_iff.mpr hm2) (hk1.trans hk2.symm)]

theorem Represents.peek_eq [DecidableEq Key] {s : KLruCache Key Value} {es : List (Slot Key Value)}
    (r : Represents s es) (k : Key) :
    s.peek k = (es.find? (fun e => decide (e.key = k))).map Slot.value := by
  unfold KLruCache.peek
  rw [r.find k]
  cases h : es.find? (fun e => decide (e.key = k)) with
  | none => rfl
  | some e =>
    obtain ⟨n, hn, -, hv, -⟩ := payload_eq_some (r.node e (List.mem_of_find?_eq_some h))
    simp [hn, hv]

theorem Represents.contains_eq [DecidableEq Key] {s : KLruCache Key Value}
    {es : List (Slot Key Value)} (r : Represents s es) (k : Key) :
    s.contains k = (es.find? (fun e => decide (e.key = k))).isSome := by
  unfold KLruCache.contains
  rw [r.find k]
  simp

theorem Represents.not_contains [DecidableEq Key] {s : KLruCache Key Value}
    {es : List (Slot Key Value)} (r : Represents s es) {k : Key} (hk : ∀ e ∈ es, e.key ≠ k) :
    s.contains k = false := by
  rw [r.contains_eq, List.find?_eq_none.mpr (by simpa using hk)]
  rfl

theorem Represents.contains_split [DecidableEq Key] {s : KLruCache Key Value}
    {A B : List (Slot Key Value)} {e : Slot Key Value} (r : Represents s (A ++ e :: B)) :
    s.contains e.key = true := by
  rw [r.contains_eq, find_split r.keys]
  rfl

theorem Represents.peek_split [DecidableEq Key] {s : KLruCache Key Value}
    {A B : List (Slot Key Value)} {e : Slot Key Value} (r : Represents s (A ++ e :: B)) :
    s.peek e.key = some e.value := by
  rw [r.peek_eq, find_split r.keys]
  rfl

/-- The most recently used entry is the neighbour of the tail sentinel. -/
theorem Represents.prev_tail {s : KLruCache Key Value} {es : List (Slot Key Value)}
    {e : Slot Key Value} (r : Represents s (es ++ [e])) :
    prevOf s.heap_ s.dummyTail_ = some e.addr := by
  have hc := r.seq.2
  have : s.dummyHead_ :: List.map Slot.addr (es ++ [e]) ++ [s.dummyTail_] =
      (s.dummyHead_ :: List.map Slot.addr es) ++ [e.addr, s.dummyTail_] := by simp
  rw [this, List.chain'_split, List.chain'_pair] at hc
  exact hc.2.2

/-- The least recently used entry is the neighbour of the head sentinel. -/
theorem Represents.next_head {s : KLruCache Key Value} {es : List (Slot Key Value)}
    {e : Slot Key Value} (r : Represents s (e :: es)) :
    nextOf s.heap_ s.dummyHead_ = some e.addr := by
  have hc := r.seq.2
  simp only [List.map_cons, List.cons_append, List.chain'_cons] at hc
  exact hc.1.1

theorem perm_move_last {α : Type} (A B : List α) (e : α) : (A ++ B ++ [e]).Perm (A ++ e :: B) := by
  rw [List.append_assoc]
  exact List.Perm.append_left A (List.perm_append_singleton e B)

theorem map_filter_key [DecidableEq Key] (es : List (Slot Key Value)) (k : Key) :
    (es.map (fun e => (e.key, e.value))).filter (fun p => decide (p.1 ≠ k)) =
      (es.filter (fun e => decide (e.key ≠ k))).map (fun e => (e.key, e.value)) := by
  rw [List.filter_map]
  rfl

/-- After a `put` on a cache of positive capacity the key is the most recently used entry
and carries the value. -/
theorem put_repr_last [DecidableEq Key] {s : KLruCache Key Value}
    {es : List (Slot Key Value)} (r : Represents s es) (hcap : 0 < s.capacity_) (k : Key) (v : Value) :
    ∃ s1 X a c, s.put k v = some s1 ∧ s1.capacity_ = s.capacity_ ∧
      Represents s1 (X ++ [{ addr := a, key := k, value := v, count := c }]) ∧
      X = (if es.any (fun e => decide (e.key = k)) then es
            else if (es.length : Int) ≥ s.capacity_ then es.tail else es).filter
              (fun e => decide (e.key ≠ k)) := by
  have hcap' : ¬ s.capacity_ ≤ 0 := not_le.mpr hcap
  rcases slot_cases es k with hk | ⟨A, e, B, rfl, rfl⟩
  · obtain ⟨s1, e1, c1, r1⟩ := addNewNode_repr r hcap hk v
    have hany : es.any (fun e => decide (e.key = k)) = false := by
      rw [List.any_eq_false]; simpa using hk
    refine ⟨s1, _, _, _, ?_, c1, r1, ?_⟩
    · simp only [KLruCache.put, hcap', ↓reduceIte, r.find_none hk]
      exact e1
    · rw [hany]
      simp only [Bool.false_eq_true, ↓reduceIte]
      symm
      apply filter_ne_of_absent
      intro x hx
      split at hx
      · exact hk x (List.mem_of_mem_tail hx)
      · exact hk x hx
  · obtain ⟨h, e1, l1, r1⟩ := put_repr_hit r hcap v
    have hany : (A ++ e :: B).any (fun x => decide (x.key = e.key)) = true := by
      rw [List.any_eq_true]; exact ⟨e, by simp, by simp⟩
    refine ⟨_, A ++ B, e.addr, e.count, e1, rfl, r1, ?_⟩
    rw [hany]
    simp only [↓reduceIte]
    exact (filter_ne_split r.keys).symm

theorem lastPut_snoc_put (ops : List (Op Key Value)) (k : Key) (v : Value) :
    LastPut (ops ++ [Op.put k v]) k v := by
  refine ⟨ops.length, by simp, ?_⟩
  intro j hj op hop
  have : (ops ++ [Op.put k v])[j]? = none := by
    rw [List.getElem?_eq_none]; simp; omega
  rw [this] at hop; cases hop

theorem lastPut_snoc_other {ops : List (Op Key Value)} {k : Key} {v : Value}
    (h : LastPut ops k v) {op : Op Key Value} (h1 : ∀ w, op ≠ Op.put k w)
    (h2 : op ≠ Op.remove k) : LastPut (ops ++ [op]) k v := by
  obtain ⟨i, hi, hlater⟩ := h
  have hlt : i < ops.length := (List.getElem?_eq_some_iff.mp hi).1
  refine ⟨i, by rw [List.getElem?_append_left hlt]; exact hi, ?_⟩
  intro j hj op1 hop1
  by_cases hjl : j < ops.length
  · rw [List.getElem?_append_left hjl] at hop1
    exact hlater j hj op1 hop1
  · by_cases hje : j = ops.length
    · subst hje
      simp at hop1
      subst hop1
      exact ⟨h1, h2⟩
    · have : (ops ++ [op])[j]? = none := by
        rw [List.getElem?_eq_none]; simp; omega
      rw [this] at hop1; cases hop1

theorem mem_filter_split [DecidableEq Key] {es : List (Slot Key Value)} {k : Key}
    {e : Slot Key Value}
    (h : e ∈ es.filter (fun e => decide (e.key ≠ k)) ++ es.filter (fun e => decide (e.key = k))) :
    e ∈ es := by
  rcases List.mem_append.mp h with h | h <;> exact (List.mem_filter.mp h).1

/-- Every entry carries the value of the most recent put of its key. -/
theorem lastPut_step [DecidableEq Key] {C : Int} (hC : 0 < C) (fresh : Nat)
    {ops : List (Op Key Value)} {es : List (Slot Key Value)} (op : Op Key Value)
    (h : ∀ e ∈ es, LastPut ops e.key e.value) :
    ∀ e ∈ absStep C fresh es op, LastPut (ops ++ [op]) e.key e.value := by
  intro e he
  cases op with
  | put k v =>
    simp only [absStep, not_le.mpr hC, ↓reduceIte] at he
    split at he
    · rcases List.mem_append.mp he with h1 | h1
      · obtain ⟨hm, hk⟩ := List.mem_filter.mp h1
        have hk' : e.key ≠ k := by simpa using hk
        exact lastPut_snoc_other (h e hm) (by intro w hw; cases hw; exact hk' rfl) (by simp)
      · obtain ⟨e0, hm0, rfl⟩ := List.mem_map.mp h1
        obtain ⟨-, hk⟩ := List.mem_filter.mp hm0
        have hk' : e0.key = k := by simpa using hk
        simp only [hk']
        exact lastPut_snoc_put ops k v
    · next hany =>
      have hany' : ∀ x ∈ es, x.key ≠ k := by simpa using hany
      rcases List.mem_append.mp he with h1 | h1
      · have hm : e ∈ es := by
          split at h1
          · exact List.mem_of_mem_tail h1
          · exact h1
        have hk' := hany' e hm
        exact lastPut_snoc_other (h e hm) (by intro w hw; cases hw; exact hk' rfl) (by simp)
      · simp only [List.mem_singleton] at h1
        subst h1
        exact lastPut_snoc_put ops k v
  | get k =>
    simp only [absStep] at he
    exact lastPut_snoc_other (h e (mem_filter_split he)) (by simp) (by simp)
  | remove k =>
    simp only [absStep] at he
    obtain ⟨hm, hk⟩ := List.mem_filter.mp he
    have hk' : e.key ≠ k := by simpa using hk
    exact lastPut_snoc_other (h e hm) (by simp) (by intro hw; cases hw; exact hk' rfl)

/-! ## Recency order and touches -/

section touch
variable [DecidableEq Key] [Inhabited Key] [Inhabited Value]

theorem touchesAt_of_le {C : Int} {ops : List (Op Key Value)} {i : Nat}
    (h : ops.length ≤ i) (key : Key) : touchesAt C ops i key = false := by
  unfold touchesAt
  rw [List.getElem?_eq_none h]

theorem touchesAt_snoc_lt {C : Int} {ops : List (Op Key Value)} {i : Nat}
    (h : i < ops.length) (op : Op Key Value) (key : Key) :
    touchesAt C (ops ++ [op]) i key = touchesAt C ops i key := by
  unfold touchesAt
  rw [List.getElem?_append_left h, List.take_append_of_le_length (Nat.le_of_lt h)]

theorem touchesAt_snoc_length {C : Int} {ops : List (Op Key Value)} {s : KLruCache Key Value}
    (hrun : run (KLruCache.create C) ops = some s) (op : Op Key Value) (key : Key) :
    touchesAt C (ops ++ [op]) ops.length key = touches s op key := by
  unfold touchesAt
  rw [List.take_left', hrun]
  · simp
  · rfl

theorem isLastTouch_snoc_now {C : Int} {ops : List (Op Key Value)} {s : KLruCache Key Value}
    (hrun : run (KLruCache.create C) ops = some s) {op : Op Key Value} {key : Key}
    (ht : touches s op key = true) : IsLastTouch C (ops ++ [op]) key ops.length := by
  refine ⟨by rw [touchesAt_snoc_length hrun]; exact ht, fun j _ hj => ?_⟩
  exact touchesAt_of_le (by simp; omega) key

theorem isLastTouch_lt {C : Int} {ops : List (Op Key Value)} {key : Key} {i : Nat}
    (h : IsLastTouch C ops key i) : i < ops.length := by
  by_contra hn
  have := touchesAt_of_le (C := C) (not_lt.mp hn) key
  rw [h.1] at this
  cases this

theorem isLastTouch_snoc_keep {C : Int} {ops : List (Op Key Value)} {s : KLruCache Key Value}
    (hrun : run (KLruCache.create C) ops = some s) {op : Op Key Value} {key : Key}
    (ht : touches s op key = false) {i : Nat} (h : IsLastTouch C ops key i) :
    IsLastTouch C (ops ++ [op]) key i := by
  have hi := isLastTouch_lt h
  refine ⟨by rw [touchesAt_snoc_lt hi]; exact h.1, fun j _ hj => ?_⟩
  rcases Nat.lt_trichotomy j ops.length with hlt | heq | hgt
  · rw [touchesAt_snoc_lt hlt]; exact h.2 j hlt hj
  · subst heq; rw [touchesAt_snoc_length hrun]; exact ht
  · exact touchesAt_of_le (by simp; omega) key

/-- A call that touches none of the keys `sub` keeps them ordered by last touch. -/
theorem touchOrdered_keep {C : Int} {ops : List (Op Key Value)} {s : KLruCache Key Value}
    (hrun : run (KLruCache.create C) ops = some s) {op : Op Key Value} {keys sub : List Key}
    (h : TouchOrdered C ops keys) (hsub : sub.Sublist keys)
    (hno : ∀ a ∈ sub, touches s op a = false) : TouchOrdered C (ops ++ [op]) sub := by
  refine ⟨fun a ha => ?_, ?_⟩
  · obtain ⟨i, hi⟩ := h.1 a (hsub.subset ha)
    exact ⟨i, isLastTouch_snoc_keep hrun (hno a ha) hi⟩
  · refine (h.2.sublist hsub).imp_of_mem ?_
    intro a b ha hb ⟨i, j, hij, hi, hj⟩
    exact ⟨i, j, hij, isLastTouch_snoc_keep hrun (hno a ha) hi,
      isLastTouch_snoc_keep hrun (hno b hb) hj⟩

/-- A call that touches `k` and none of the keys `sub` makes `k` the last touched. -/
theorem touchOrdered_touch {C : Int} {ops : List (Op Key Value)} {s : KLruCache Key Value}
    (hrun : run (KLruCache.create C) ops = some s) {op : Op Key Value} {keys sub : List Key}
    (h : TouchOrdered C ops keys) (hsub : sub.Sublist keys)
    (hno : ∀ a ∈ sub, touches s op a = false) {k : Key} (hk : touches s op k = true) :
    TouchOrdered C (ops ++ [op]) (sub ++ [k]) := by
  have h1 := touchOrdered_keep hrun h hsub hno
  have hnow := isLastTouch_snoc_now hrun hk
  refine ⟨fun a ha => ?_, ?_⟩
  · rcases List.mem_append.mp ha with ha | ha
    · exact h1.1 a ha
    · simp only [List.mem_singleton] at ha
      subst ha
      exact ⟨_, hnow⟩
  · rw [List.pairwise_append]
    refine ⟨h1.2, List.pairwise_singleton _ _, ?_⟩
    intro a ha b hb
    simp only [List.mem_singleton] at hb
    subst hb
    obtain ⟨i, hi⟩ := h.1 a (hsub.subset ha)
    exact ⟨i, ops.length, isLastTouch_lt hi, isLastTouch_snoc_keep hrun (hno a ha) hi, hnow⟩

end touch

theorem touchOrdered_step [DecidableEq Key] [Inhabited Key] [Inhabited Value] {C : Int}
    (hC : 0 < C) {ops : List (Op Key Value)} {s : KLruCache Key Value}
    {es : List (Slot Key Value)} (op : Op Key Value)
    (hrun : run (KLruCache.create C) ops = some s) (r : Represents s es)
    (h : TouchOrdered C ops (es.map Slot.key)) :
    TouchOrdered C (ops ++ [op]) ((absStep C s.heap_.length es op).map Slot.key) := by
  have hC' : ¬ C ≤ 0 := not_le.mpr hC
  cases op with
  | put k v =>
    rcases slot_cases es k with hk | ⟨A, e, B, rfl, rfl⟩
    · have hany : es.any (fun e => decide (e.key = k)) = false := by
        rw [List.any_eq_false]; simpa using hk
      simp only [absStep, hC', ↓reduceIte, hany, Bool.false_eq_true, List.map_append,
        List.map_cons, List.map_nil]
      have hsub : ((if (es.length : Int) ≥ C then es.tail else es).map Slot.key).Sublist
          (es.map Slot.key) := by
        split
        · exact (List.tail_sublist es).map Slot.key
        · exact List.Sublist.refl _
      refine touchOrdered_touch hrun h hsub ?_ (by simp [touches])
      · intro a ha
        obtain ⟨x, hx, rfl⟩ := List.mem_map.mp ha
        have hx' : x ∈ es := by
          split at hx
          · exact List.mem_of_mem_tail hx
          · exact hx
        simpa [touches] using fun heq => hk x hx' heq.symm
    · have hany : (A ++ e :: B).any (fun x => decide (x.key = e.key)) = true := by
        rw [List.any_eq_true]; exact ⟨e, by simp, by simp⟩
      simp only [absStep, hC', ↓reduceIte, hany, filter_ne_split r.keys, filter_eq_split r.keys,
        List.map_append, List.map_cons, List.map_nil]
      rw [← List.map_append]
      refine touchOrdered_touch hrun h ?_ ?_ (by simp [touches])
      · exact (List.Sublist.append (List.Sublist.refl A) (List.sublist_cons_self e B)).map _
      · intro a ha
        obtain ⟨x, hx, rfl⟩ := List.mem_map.mp ha
        have := filter_ne_split r.keys
        rw [← this, List.mem_filter] at hx
        simpa [touches] using fun heq => (by simpa using hx.2 : x.key ≠ e.key) heq.symm
  | get k =>
    rcases slot_cases es k with hk | ⟨A, e, B, rfl, rfl⟩
    · simp only [absStep, filter_ne_of_absent hk, filter_eq_of_absent hk, List.append_nil]
      refine touchOrdered_keep hrun h (List.Sublist.refl _) ?_
      intro a ha
      obtain ⟨x, hx, rfl⟩ := List.mem_map.mp ha
      simpa [touches] using fun heq => absurd heq.symm (hk x hx)
    · simp only [absStep, filter_ne_split r.keys, filter_eq_split r.keys,
        List.map_append, List.map_cons, List.map_nil]
      rw [← List.map_append]
      refine touchOrdered_touch hrun h ?_ ?_ (by simp [touches, r.contains_split])
      · exact (List.Sublist.append (List.Sublist.refl A) (List.sublist_cons_self e B)).map _
      · intro a ha
        obtain ⟨x, hx, rfl⟩ := List.mem_map.mp ha
        have := filter_ne_split r.keys
        rw [← this, List.mem_filter] at hx
        simpa [touches] using fun heq => absurd heq.symm (by simpa using hx.2 : x.key ≠ e.key)
  | remove k =>
    simp only [absStep]
    refine touchOrdered_keep hrun h ((List.filter_sublist es).map _) ?_
    intro a ha
    rfl

/-! ## Arithmetic of the `int` access count -/

theorem toInt32_of_lt {x : Nat} (h : x < 2 ^ 31) : toInt32 x = x := by
  unfold toInt32
  have h1 : (x : Int) < 2 ^ 31 := by exact_mod_cast h
  have h0 : (0 : Int) ≤ x := Int.ofNat_nonneg x
  rw [Int.emod_eq_of_lt (by omega) (by omega)]
  omega

theorem wrapInt32_range (x : Int) : -2147483648 ≤ wrapInt32 x ∧ wrapInt32 x < 2147483648 := by
  unfold wrapInt32
  omega

theorem wrapInt32_of_range {x : Int} (h1 : -2147483648 ≤ x) (h2 : x < 2147483648) :
    wrapInt32 x = x := by
  unfold wrapInt32
  omega

theorem toInt32_range (n : Nat) : -2147483648 ≤ toInt32 n ∧ toInt32 n < 2147483648 := by
  unfold toInt32
  omega

theorem toInt32_toSizeT {y : Int} (h1 : -2147483648 ≤ y) (h2 : y < 2147483648) :
    toInt32 (toSizeT y) = y := by
  unfold toInt32 toSizeT
  omega

theorem toSizeT_natCast {n : Nat} (h : n < 2147483648) : toSizeT (n : Int) = n := by
  unfold toSizeT
  omega

theorem nextCount_range (n : Nat) : -2147483648 ≤ nextCount n ∧ nextCount n < 2147483648 :=
  wrapInt32_range _

theorem nextCount_le (n : Nat) : nextCount n ≤ toInt32 n + 1 := by
  have := toInt32_range n
  unfold nextCount wrapInt32
  omega

theorem nextCount_eq {n : Nat} (h : toInt32 n < 2147483647) : nextCount n = toInt32 n + 1 := by
  have := toInt32_range n
  unfold nextCount
  exact wrapInt32_of_range (by omega) (by omega)

/-- Below `INT_MAX` the count is incremented and written back without loss. -/
theorem nextCount_of_lt {n : Nat} (h : n < 2147483647) :
    nextCount n = (n : Int) + 1 ∧ toSizeT (nextCount n) = n + 1 := by
  have h1 : toInt32 n = n := toInt32_of_lt (by omega)
  have h2 : nextCount n = (n : Int) + 1 := by
    rw [nextCount_eq (by rw [h1]; omega), h1]
  refine ⟨h2, ?_⟩
  rw [h2]
  exact_mod_cast toSizeT_natCast (by omega : n + 1 < 2147483648)

theorem toInt32_nextCount (n : Nat) : toInt32 (toSizeT (nextCount n)) = nextCount n :=
  toInt32_toSizeT (nextCount_range n).1 (nextCount_range n).2

theorem nextCount_zero : nextCount 0 = 1 := by decide

/-- At `INT_MAX` the increment wraps: the count becomes `-2^31`, written back as
`2^64 - 2^31`. -/
theorem nextCount_int_max :
    nextCount 2147483647 = -2147483648 ∧
      toSizeT (nextCount 2147483647) = 18446744071562067968 := by
  decide

/-! ## The LRU-K cache -/

theorem wellFormed_create [Inhabited Key] [Inhabited Value] (cap : Int) :
    WellFormed (KLruCache.create cap : KLruCache Key Value) cap :=
  ⟨⟨[], repr_create cap⟩, rfl⟩

theorem WellFormed.contains_eq_peek [DecidableEq Key] {s : KLruCache Key Value} {cap : Int}
    (h : WellFormed s cap) (k : Key) : s.contains k = (s.peek k).isSome := by
  obtain ⟨⟨es, r⟩, -⟩ := h
  rw [r.contains_eq, r.peek_eq]
  simp

/-- The one-argument `get` on a well-formed state. -/
theorem getValue_wf [DecidableEq Key] [Inhabited Value] {s : KLruCache Key Value} {cap : Int}
    (h : WellFormed s cap) (k : Key) :
    ∃ s1, s.getValue k = some (s1, (s.peek k).getD default) ∧ WellFormed s1 cap ∧
      (∀ k1, s1.peek k1 = s.peek k1) ∧ (∀ k1, s1.contains k1 = s.contains k1) ∧
      (s.contains k = false → s1 = s) := by
  obtain ⟨⟨es, r⟩, c⟩ := h
  rcases slot_cases es k with hk | ⟨A, x, B, rfl, rfl⟩
  · have hp : s.peek k = none := by
      rw [r.peek_eq, List.find?_eq_none.mpr (by simpa using hk)]; rfl
    refine ⟨s, ?_, ⟨⟨es, r⟩, c⟩, fun _ => rfl, fun _ => rfl, fun _ => rfl⟩
    simp [KLruCache.getValue, get_miss (r.find_none hk), hp]
  · obtain ⟨h, e1, -, r1⟩ := get_repr_hit r default
    have hperm := perm_move_last A B x
    have hnd := (hperm.map Slot.key).nodup_iff.mpr r.keys
    refine ⟨_, ?_, ⟨⟨_, r1⟩, c⟩, fun k1 => ?_, fun k1 => ?_, fun hc => ?_⟩
    · simp [KLruCache.getValue, e1, r.peek_split]
    · rw [r1.peek_eq, r.peek_eq, find_slot_perm hperm hnd]
    · rw [r1.contains_eq, r.contains_eq, find_slot_perm hperm hnd]
    · rw [r.contains_split] at hc; cases hc

/-- The method `put` on a well-formed state. -/
theorem put_wf [DecidableEq Key] [Inhabited Value] {s : KLruCache Key Value} {cap : Int}
    (h : WellFormed s cap) (k : Key) (v : Value) :
    ∃ s1, s.put k v = some s1 ∧ WellFormed s1 cap ∧
      (0 < cap → s1.peek k = some v ∧ s1.contains k = true) ∧ (cap ≤ 0 → s1 = s) := by
  obtain ⟨⟨es, r⟩, c⟩ := h
  by_cases hcap : 0 < cap
  · obtain ⟨s1, X, a, n, e1, c1, r1, -⟩ := put_repr_last r (c ▸ hcap) k v
    have r1' : Represents s1 (X ++ { addr := a, key := k, value := v, count := n } :: []) := r1
    exact ⟨s1, e1, ⟨⟨_, r1⟩, c1.trans c⟩, fun _ => ⟨r1'.peek_split, r1'.contains_split⟩,
      fun h0 => absurd hcap (not_lt.mpr h0)⟩
  · have h0 : s.capacity_ ≤ 0 := by rw [c]; exact not_lt.mp hcap
    exact ⟨s, by simp [KLruCache.put, h0], ⟨⟨es, r⟩, c⟩, fun h1 => absurd h1 hcap, fun _ => rfl⟩

/-- The method `remove` on a well-formed state. -/
theorem remove_wf [DecidableEq Key] {s : KLruCache Key Value} {cap : Int}
    (h : WellFormed s cap) (k : Key) :
    ∃ s1, s.remove k = some s1 ∧ WellFormed s1 cap ∧ s1.contains k = false ∧
      ∀ k1, k1 ≠ k → s1.peek k1 = s.peek k1 ∧ s1.contains k1 = s.contains k1 := by
  obtain ⟨⟨es, r⟩, c⟩ := h
  rcases slot_cases es k with hk | ⟨A, x, B, rfl, rfl⟩
  · exact ⟨s, remove_miss (r.find_none hk), ⟨⟨es, r⟩, c⟩, r.not_contains hk,
      fun _ _ => ⟨rfl, rfl⟩⟩
  · obtain ⟨h, e1, -, r1⟩ := remove_repr r
    have habs : ∀ y ∈ A ++ B, y.key ≠ x.key := by
      intro y hy
      rw [← filter_ne_split r.keys, List.mem_filter] at hy
      simpa using hy.2
    have hfind : ∀ k1, k1 ≠ x.key →
        (A ++ B).find? (fun y => decide (y.key = k1)) =
          (A ++ x :: B).find? (fun y => decide (y.key = k1)) := by
      intro k1 hk1
      have hx : decide (x.key = k1) = false := by simpa using fun h => hk1 h.symm
      simp [List.find?_append, List.find?_cons, hx]
    refine ⟨_, e1, ⟨⟨_, r1⟩, c⟩, r1.not_contains habs, fun k1 hk1 => ⟨?_, ?_⟩⟩
    · rw [r1.peek_eq, r.peek_eq, hfind k1 hk1]
    · rw [r1.contains_eq, r.contains_eq, hfind k1 hk1]

theorem wellFormedK_create [Inhabited Key] (capacity historyCapacity k : Int) :
    WellFormedK capacity historyCapacity k
      (KLruKCache.create capacity historyCapacity k : KLruKCache Key) :=
  ⟨wellFormed_create _, wellFormed_create _, rfl⟩

/-- What `KLruKCache::put` does on a well-formed state, store by store: `m1`, `m2` are the
main store after the initial `get` and after the conditional overwrite, `h1`, `h2` the
history store after its `get` and after the count is written back. -/
theorem putK_wf [DecidableEq Key] {capacity historyCapacity k : Int} {c : KLruKCache Key}
    (rc : WellFormedK capacity historyCapacity k c) (key : Key) (value : String) :
    ∃ c1 m1 m2 h1 h2, c.put key value = some c1 ∧ WellFormedK capacity historyCapacity k c1 ∧
      c.base.getValue key = some (m1, (c.base.peek key).getD "") ∧ WellFormed m1 capacity ∧
      (if (c.base.peek key).getD "" ≠ "" then m1.put key value else some m1) = some m2 ∧
      WellFormed m2 capacity ∧
      c.historyList_.getValue key = some (h1, (c.historyList_.peek key).getD 0) ∧
      WellFormed h1 historyCapacity ∧
      h1.put key (toSizeT (nextCount ((c.historyList_.peek key).getD 0))) = some h2 ∧
      WellFormed h2 historyCapacity ∧
      (nextCount ((c.historyList_.peek key).getD 0) ≥ k →
        h2.remove key = some c1.historyList_ ∧ m2.put key value = some c1.base) ∧
      (nextCount ((c.historyList_.peek key).getD 0) < k →
        c1.base = m2 ∧ c1.historyList_ = h2) := by
  obtain ⟨m1, g1, rm1, -, -, -⟩ := getValue_wf rc.main key
  obtain ⟨m2, g2, rm2⟩ : ∃ m2,
      (if (c.base.peek key).getD "" ≠ "" then m1.put key value else some m1) = some m2 ∧
      WellFormed m2 capacity := by
    split
    · obtain ⟨m2, g2, rm2, -, -⟩ := put_wf rm1 key value
      exact ⟨m2, g2, rm2⟩
    · exact ⟨m1, rfl, rm1⟩
  obtain ⟨h1, g3, rh1, -, -, -⟩ := getValue_wf rc.hist key
  obtain ⟨h2, g4, rh2, -, -⟩ :=
    put_wf rh1 key (toSizeT (nextCount ((c.historyList_.peek key).getD 0)))
  have hd : (default : String) = "" := rfl
  have hd0 : (default : Nat) = 0 := rfl
  rw [hd] at g1
  rw [hd0] at g3
  by_cases hk : nextCount ((c.historyList_.peek key).getD 0) ≥ k
  · obtain ⟨h3, g5, rh3, -, -⟩ := remove_wf rh2 key
    obtain ⟨m3, g6, rm3, -, -⟩ := put_wf rm2 key value
    refine ⟨{ c with base := m3, historyList_ := h3 }, m1, m2, h1, h2, ?_, ⟨rm3, rh3, rc.thr⟩,
      g1, rm1, g2, rm2, g3, rh1, g4, rh2, ?_⟩
    · unfold KLruKCache.put
      simp only [g1, Option.some_bind, g2, g3, g4, rc.thr, hk, ↓reduceIte, g5, g6]
    · exact ⟨fun _ => ⟨g5, g6⟩, fun h => absurd hk (not_le.mpr h)⟩
  · refine ⟨{ c with base := m2, historyList_ := h2 }, m1, m2, h1, h2, ?_, ⟨rm2, rh2, rc.thr⟩,
      g1, rm1, g2, rm2, g3, rh1, g4, rh2, ?_⟩
    · unfold KLruKCache.put
      simp only [g1, Option.some_bind, g2, g3, g4, rc.thr, hk, ↓reduceIte]
    · exact ⟨fun h => absurd h hk, fun _ => ⟨rfl, rfl⟩⟩

/-- What `KLruKCache::get` does on a well-formed state, store by store. -/
theorem getK_wf [DecidableEq Key] {capacity historyCapacity k : Int} {c : KLruKCache Key}
    (rc : WellFormedK capacity historyCapacity k c) (key : Key) :
    ∃ c1 h1, c.get key = some (c1, (c.base.peek key).getD "") ∧
      WellFormedK capacity historyCapacity k c1 ∧
      c.historyList_.getValue key = some (h1, (c.historyList_.peek key).getD 0) ∧
      WellFormed h1 historyCapacity ∧
      h1.put key (toSizeT (nextCount ((c.historyList_.peek key).getD 0))) =
        some c1.historyList_ ∧
      c.base.getValue key = some (c1.base, (c.base.peek key).getD "") := by
  obtain ⟨h1, g3, rh1, -, -, -⟩ := getValue_wf rc.hist key
  obtain ⟨h2, g4, rh2, -, -⟩ :=
    put_wf rh1 key (toSizeT (nextCount ((c.historyList_.peek key).getD 0)))
  obtain ⟨m1, g1, rm1, -, -, -⟩ := getValue_wf rc.main key
  have hd : (default : String) = "" := rfl
  have hd0 : (default : Nat) = 0 := rfl
  rw [hd] at g1
  rw [hd0] at g3
  refine ⟨{ c with base := m1, historyList_ := h2 }, h1, ?_, ⟨rm1, rh2, rc.thr⟩, g3, rh1, g4, g1⟩
  unfold KLruKCache.get
  simp only [g3, Option.some_bind, g4, g1]

theorem stepK_wf [DecidableEq Key] {capacity historyCapacity k : Int} {c : KLruKCache Key}
    (rc : WellFormedK capacity historyCapacity k c) (op : KOp Key) :
    ∃ c1, stepK c op = some c1 ∧ WellFormedK capacity historyCapacity k c1 := by
  cases op with
  | get key =>
    obtain ⟨c1, h1, e, r1, -⟩ := getK_wf rc key
    exact ⟨c1, by simp [stepK, e], r1⟩
  | put key value =>
    obtain ⟨c1, m1, m2, h1, h2, e, r1, -⟩ := putK_wf rc key value
    exact ⟨c1, e, r1⟩

/-- Every call sequence runs to the end on a well-formed LRU-K state. -/
theorem runK_wf [DecidableEq Key] {capacity historyCapacity k : Int} (ops : List (KOp Key)) :
    ∀ {c : KLruKCache Key}, WellFormedK capacity historyCapacity k c →
      ∃ c1, runK c ops = some c1 ∧ WellFormedK capacity historyCapacity k c1 := by
  induction ops with
  | nil => intro c rc; exact ⟨c, rfl, rc⟩
  | cons op ops ih =>
    intro c rc
    obtain ⟨c1, e1, r1⟩ := stepK_wf rc op
    obtain ⟨c2, e2, r2⟩ := ih r1
    exact ⟨c2, by simp [runK, e1, e2], r2⟩

/-- A stored value is what `get` returns. -/
theorem get_of_peek [DecidableEq Key] {s : KLruCache Key Value} {cap : Int} (h : WellFormed s cap)
    {k : Key} {v : Value} (hp : s.peek k = some v) (d : Value) :
    ∃ s1, s.get k d = some (s1, true, v) := by
  obtain ⟨⟨es, r⟩, -⟩ := h
  rcases slot_cases es k with hk | ⟨A, x, B, rfl, rfl⟩
  · rw [r.peek_eq, List.find?_eq_none.mpr (by simpa using hk)] at hp; cases hp
  · obtain ⟨h, e1, -, -⟩ := get_repr_hit r d
    rw [r.peek_split] at hp
    cases hp
    exact ⟨_, e1⟩


/-- With a disabled history store and a threshold above 1 nothing changes the state. -/
theorem stepK_disabled [DecidableEq Key] (c : KLruKCache Key)
    (hh : c.historyList_.capacity_ ≤ 0) (hhm : c.historyList_.nodeMap_ = [])
    (hm : c.base.nodeMap_ = []) (hk : 2 ≤ c.k_) (op : KOp Key) : stepK c op = some c := by
  have hfh : ∀ key, mapFind c.historyList_.nodeMap_ key = none := by intro key; rw [hhm]; rfl
  have hfm : ∀ key, mapFind c.base.nodeMap_ key = none := by intro key; rw [hm]; rfl
  have hnk : ¬ nextCount 0 ≥ c.k_ := by
    rw [nextCount_zero]; omega
  have g1 : ∀ key, c.base.getValue key = some (c.base, "") := by
    intro key
    simp only [KLruCache.getValue, get_miss (hfm key), Option.bind_eq_bind, Option.some_bind]
    rfl
  have g3 : ∀ key, c.historyList_.getValue key = some (c.historyList_, 0) := by
    intro key
    simp only [KLruCache.getValue, get_miss (hfh key), Option.bind_eq_bind, Option.some_bind]
    rfl
  have g4 : ∀ key, c.historyList_.put key (toSizeT (nextCount 0)) = some c.historyList_ := by
    intro key
    simp [KLruCache.put, hh]
  cases op with
  | get key =>
    simp only [stepK, KLruKCache.get, g3, Option.some_bind, g4, g1, Option.map_some']
  | put key value =>
    simp only [stepK, KLruKCache.put, g1, Option.some_bind, ne_eq, not_true_eq_false,
      ↓reduceIte, g3, g4, hnk]

theorem runK_disabled [DecidableEq Key] (c : KLruKCache Key)
    (hh : c.historyList_.capacity_ ≤ 0) (hhm : c.historyList_.nodeMap_ = [])
    (hm : c.base.nodeMap_ = []) (hk : 2 ≤ c.k_) (ops : List (KOp Key)) : runK c ops = some c := by
  induction ops with
  | nil => rfl
  | cons op ops ih => simp [runK, stepK_disabled c hh hhm hm hk op, ih]

/-! ## LRU-K: invariants of call sequences -/

theorem find_of_mem [DecidableEq Key] {es : List (Slot Key Value)} (hnd : (es.map Slot.key).Nodup)
    {e : Slot Key Value} (he : e ∈ es) : es.find? (fun x => decide (x.key = e.key)) = some e := by
  obtain ⟨A, B, rfl⟩ := List.append_of_mem he
  exact find_split hnd

/-- A `put` of `k` changes no other entry: what is stored for another key afterwards was
stored for it before (the entry may have been evicted). -/
theorem put_frame [DecidableEq Key] [Inhabited Value] {s s1 : KLruCache Key Value} {cap : Int}
    (h : WellFormed s cap) {k : Key} {v : Value} (e : s.put k v = some s1) {k1 : Key}
    (hne : k1 ≠ k) {w : Value} (hp : s1.peek k1 = some w) : s.peek k1 = some w := by
  obtain ⟨⟨es, r⟩, c⟩ := h
  by_cases hcap : 0 < cap
  · obtain ⟨s1', X, a, n, e1, c1, r1, hX⟩ := put_repr_last r (c ▸ hcap) k v
    rw [e] at e1
    cases e1
    rw [r1.peek_eq] at hp
    rw [r.peek_eq]
    have hk : ¬ k = k1 := fun h => hne h.symm
    simp only [List.find?_append, List.find?_cons, hk, decide_False, List.find?_nil,
      Option.or_none] at hp
    cases hf : X.find? (fun e => decide (e.key = k1)) with
    | none => rw [hf] at hp; cases hp
    | some x =>
      rw [hf] at hp
      have hxX := List.mem_of_find?_eq_some hf
      have hxk : x.key = k1 := by simpa using List.find?_some hf
      have hxes : x ∈ es := by
        rw [hX] at hxX
        have := (List.mem_filter.mp hxX).1
        split at this
        · exact this
        · split at this
          · exact List.mem_of_mem_tail this
          · exact this
      rw [← hxk, find_of_mem r.keys hxes]
      exact hp
  · have h0 : s.capacity_ ≤ 0 := by rw [c]; exact not_lt.mp hcap
    simp only [KLruCache.put, h0, ↓reduceIte, Option.some.injEq] at e
    rw [e]; exact hp

theorem WellFormed.peek_none [DecidableEq Key] {s : KLruCache Key Value} {cap : Int}
    (h : WellFormed s cap) {k : Key} (hc : s.contains k = false) : s.peek k = none := by
  have := h.contains_eq_peek k
  rw [hc] at this
  cases hpk : s.peek k with
  | none => rfl
  | some v => rw [hpk] at this; cases this

theorem WellFormed.contains_of_peek [DecidableEq Key] {s : KLruCache Key Value} {cap : Int}
    (h : WellFormed s cap) {k : Key} {v : Value} (hp : s.peek k = some v) :
    s.contains k = true := by
  rw [h.contains_eq_peek, hp]; rfl

theorem WellFormed.peek_of_contains [DecidableEq Key] {s : KLruCache Key Value} {cap : Int}
    (h : WellFormed s cap) {k : Key} (hc : s.contains k = true) : ∃ v, s.peek k = some v := by
  rw [h.contains_eq_peek] at hc
  exact Option.isSome_iff_exists.mp hc

theorem put_frame_contains [DecidableEq Key] [Inhabited Value] {s s1 : KLruCache Key Value}
    {cap : Int} (h : WellFormed s cap) {k : Key} {v : Value} (e : s.put k v = some s1)
    (h1 : WellFormed s1 cap) {k1 : Key} (hne : k1 ≠ k) (hc : s1.contains k1 = true) :
    s.contains k1 = true := by
  obtain ⟨w, hw⟩ := h1.peek_of_contains hc
  exact h.contains_of_peek (put_frame h e hne hw)

theorem runK_append [DecidableEq Key] (c : KLruKCache Key) (ops1 ops2 : List (KOp Key)) :
    runK c (ops1 ++ ops2) = (runK c ops1).bind (fun c1 => runK c1 ops2) := by
  induction ops1 generalizing c with
  | nil => rfl
  | cons op ops ih =>
    simp only [List.cons_append, runK]
    cases stepK c op with
    | none => rfl
    | some c1 => simp [ih]

theorem runK_snoc [DecidableEq Key] (c : KLruKCache Key) (ops : List (KOp Key)) (op : KOp Key) :
    runK c (ops ++ [op]) = (runK c ops).bind (fun c1 => stepK c1 op) := by
  rw [runK_append]
  congr 1
  funext c1
  simp only [runK]
  cases stepK c1 op <;> rfl

/-- Induction along a call sequence on a fresh LRU-K cache. -/
theorem runK_invariant [DecidableEq Key] [Inhabited Key] (capacity historyCapacity k : Int)
    (P : List (KOp Key) → KLruKCache Key → Prop)
    (h0 : P [] (KLruKCache.create capacity historyCapacity k))
    (hstep : ∀ ops (c c1 : KLruKCache Key) op,
      WellFormedK capacity historyCapacity k c → P ops c → stepK c op = some c1 →
        P (ops ++ [op]) c1)
    (ops : List (KOp Key)) :
    ∃ c, runK (KLruKCache.create capacity historyCapacity k : KLruKCache Key) ops = some c ∧
      WellFormedK capacity historyCapacity k c ∧ P ops c := by
  induction ops using List.reverseRecOn with
  | nil => exact ⟨_, rfl, wellFormedK_create capacity historyCapacity k, h0⟩
  | append_singleton ops op ih =>
    obtain ⟨c, e, rc, p⟩ := ih
    obtain ⟨c1, e1, rc1⟩ := stepK_wf rc op
    exact ⟨c1, by rw [runK_snoc, e]; exact e1, rc1, hstep ops c c1 op rc p e1⟩

theorem accesses_snoc [DecidableEq Key] (x : Key) (ops : List (KOp Key)) (op : KOp Key) :
    accesses x (ops ++ [op]) = accesses x ops + (if op.key = x then 1 else 0) := by
  unfold accesses
  rw [List.countP_append]
  by_cases h : op.key = x <;> simp [List.countP_cons, h]

/-- The history store after the count of `key` is read and written back incremented: what
it holds for a key afterwards it held before, or the key is `key` and it holds the
incremented count. -/
theorem history_bump [DecidableEq Key] {h h2 : KLruCache Key Nat} {cap : Int}
    (wh : WellFormed h cap) (key : Key) {h1 : KLruCache Key Nat}
    (g3 : h.getValue key = some (h1, (h.peek key).getD 0))
    (g4 : h1.put key (toSizeT (nextCount ((h.peek key).getD 0))) = some h2) :
    WellFormed h1 cap ∧ WellFormed h2 cap ∧ (∀ x, h1.peek x = h.peek x) ∧
      (0 < cap → h2.peek key = some (toSizeT (nextCount ((h.peek key).getD 0)))) ∧
      ∀ x n, h2.peek x = some n →
        h.peek x = some n ∨ (x = key ∧ n = toSizeT (nextCount ((h.peek key).getD 0))) := by
  obtain ⟨h1', g3', wh1, hp1, -, -⟩ := getValue_wf wh key
  have hd0 : (default : Nat) = 0 := rfl
  rw [hd0, g3] at g3'
  cases g3'
  obtain ⟨h2', g4', wh2, hpk, hinert⟩ :=
    put_wf wh1 key (toSizeT (nextCount ((h.peek key).getD 0)))
  rw [g4] at g4'
  cases g4'
  refine ⟨wh1, wh2, hp1, fun hcap => (hpk hcap).1, fun x n hx => ?_⟩
  by_cases hxk : x = key
  · subst hxk
    by_cases hcap : 0 < cap
    · rw [(hpk hcap).1, Option.some.injEq] at hx
      exact Or.inr ⟨rfl, hx.symm⟩
    · rw [hinert (not_lt.mp hcap), hp1] at hx
      exact Or.inl hx
  · left
    rw [← hp1]
    exact put_frame wh1 g4 hxk hx

/-- The two stores after `KLruKCache::put`, compared with the stores before. -/
theorem putK_frames [DecidableEq Key] {capacity historyCapacity k : Int} {c c1 : KLruKCache Key}
    (rc : WellFormedK capacity historyCapacity k c) {key : Key} {value : String}
    (e : c.put key value = some c1) :
    (∀ x n, c1.historyList_.peek x = some n →
      c.historyList_.peek x = some n ∨
        (x = key ∧ n = toSizeT (nextCount ((c.historyList_.peek key).getD 0)))) ∧
    (∀ x, c1.base.contains x = true →
      c.base.contains x = true ∨
        (x = key ∧ nextCount ((c.historyList_.peek key).getD 0) ≥ k)) := by
  obtain ⟨c1', m1, m2, h1, h2, e1, rc1, g1, rm1, g2, rm2, g3, rh1, g4, rh2, hfin⟩ :=
    putK_wf rc key value
  rw [e] at e1
  cases e1
  obtain ⟨-, -, hp1, -, hb⟩ := history_bump rc.hist key g3 g4
  obtain ⟨m1', g1', -, -, hc1, hsame⟩ := getValue_wf rc.main key
  have hd : (default : String) = "" := rfl
  rw [hd, g1] at g1'
  cases g1'
  -- the main store after the conditional overwrite
  have hm2 : ∀ x, m2.contains x = true → c.base.contains x = true := by
    intro x hx
    split at g2
    · next hne =>
      by_cases hxk : x = key
      · subst hxk
        cases hpk : c.base.peek x with
        | none => rw [hpk] at hne; exact absurd rfl hne
        | some w => exact rc.main.contains_of_peek hpk
      · rw [← hc1]
        exact put_frame_contains rm1 g2 rm2 hxk hx
    · cases g2
      rw [← hc1]; exact hx
  constructor
  · intro x n hx
    by_cases hk : nextCount ((c.historyList_.peek key).getD 0) ≥ k
    · obtain ⟨h3, g5, wh3, hrem, hoth⟩ := remove_wf rh2 key
      rw [(hfin.1 hk).1] at g5
      cases g5
      by_cases hxk : x = key
      · subst hxk
        rw [wh3.peek_none hrem] at hx
        cases hx
      · rw [(hoth x hxk).1] at hx
        exact hb x n hx
    · rw [(hfin.2 (not_le.mp hk)).2] at hx
      exact hb x n hx
  · intro x hx
    by_cases hk : nextCount ((c.historyList_.peek key).getD 0) ≥ k
    · by_cases hxk : x = key
      · exact Or.inr ⟨hxk, hk⟩
      · left
        exact hm2 x (put_frame_contains rm2 (hfin.1 hk).2 rc1.main hxk hx)
    · rw [(hfin.2 (not_le.mp hk)).1] at hx
      exact Or.inl (hm2 x hx)

/-- The two stores after `KLruKCache::get`, compared with the stores before. -/
theorem getK_frames [DecidableEq Key] {capacity historyCapacity k : Int} {c c1 : KLruKCache Key}
    (rc : WellFormedK capacity historyCapacity k c) {key : Key} {v : String}
    (e : c.get key = some (c1, v)) :
    (∀ x n, c1.historyList_.peek x = some n →
      c.historyList_.peek x = some n ∨
        (x = key ∧ n = toSizeT (nextCount ((c.historyList_.peek key).getD 0)))) ∧
    (∀ x, c1.base.contains x = c.base.contains x) ∧ (∀ x, c1.base.peek x = c.base.peek x) := by
  obtain ⟨c1', h1, e1, rc1, g3, rh1, g4, g1⟩ := getK_wf rc key
  rw [e] at e1
  cases e1
  obtain ⟨-, -, -, -, hb⟩ := history_bump rc.hist key g3 g4
  obtain ⟨m1', g1', -, hp1, hc1, -⟩ := getValue_wf rc.main key
  have hd : (default : String) = "" := rfl
  rw [hd, g1] at g1'
  cases g1'
  exact ⟨hb, hc1, hp1⟩

/-- The history store after one call, compared with the history store before. -/
theorem stepK_history [DecidableEq Key] {capacity historyCapacity k : Int} {c c1 : KLruKCache Key}
    (rc : WellFormedK capacity historyCapacity k c) {op : KOp Key} (e : stepK c op = some c1) :
    ∀ x n, c1.historyList_.peek x = some n →
      c.historyList_.peek x = some n ∨
        (x = op.key ∧ n = toSizeT (nextCount ((c.historyList_.peek op.key).getD 0))) := by
  cases op with
  | get key =>
    simp only [stepK] at e
    cases hg : c.get key with
    | none => rw [hg] at e; cases e
    | some r =>
      obtain ⟨c1', v⟩ := r
      rw [hg] at e
      cases e
      exact (getK_frames rc hg).1
  | put key value =>
    simp only [stepK] at e
    exact (putK_frames rc e).1

/-- The count a store holds for a key, read as an `int`, with 0 for an absent key. -/
theorem count_le_of_peek [DecidableEq Key] {h : KLruCache Key Nat} {x : Key} {a : Int}
    (ha : 0 ≤ a)
    (p : ∀ n, h.peek x = some n → toInt32 n ≤ a) : toInt32 ((h.peek x).getD 0) ≤ a := by
  cases hp : h.peek x with
  | none => exact ha
  | some n => exact p n hp

theorem admitted_step [DecidableEq Key] {capacity historyCapacity k : Int}
    {ops : List (KOp Key)} {c c1 : KLruKCache Key} {op : KOp Key}
    (rc : WellFormedK capacity historyCapacity k c) (p : Admitted k ops c)
    (e : stepK c op = some c1) : Admitted k (ops ++ [op]) c1 := by
  have hcount : toInt32 ((c.historyList_.peek op.key).getD 0) ≤ (accesses op.key ops : Int) :=
    count_le_of_peek (Int.ofNat_nonneg _) (p.1 op.key)
  have hnext := nextCount_le ((c.historyList_.peek op.key).getD 0)
  have hhist : ∀ x n, c1.historyList_.peek x = some n →
      toInt32 n ≤ (accesses x (ops ++ [op]) : Int) := by
    intro x n hx
    rw [accesses_snoc]
    rcases stepK_history rc e x n hx with h | ⟨rfl, h⟩
    · have := p.1 x n h
      push_cast
      split <;> omega
    · rw [h, toInt32_nextCount]
      simp only [↓reduceIte]
      push_cast
      omega
  have hold : ∀ x, c.base.contains x = true →
      k ≤ (accesses x (ops ++ [op]) : Int) ∧ ∃ v, KOp.put x v ∈ ops ++ [op] := by
    intro x hx
    obtain ⟨h1, v, hv⟩ := p.2 x hx
    rw [accesses_snoc]
    exact ⟨by push_cast; split <;> omega, v, List.mem_append_left _ hv⟩
  cases op with
  | get key =>
    simp only [stepK] at e
    cases hg : c.get key with
    | none => rw [hg] at e; cases e
    | some r =>
      obtain ⟨c1', v⟩ := r
      rw [hg] at e
      cases e
      obtain ⟨-, hc, -⟩ := getK_frames rc hg
      exact ⟨hhist, fun x hx => hold x (by rw [← hc]; exact hx)⟩
  | put key value =>
    simp only [stepK] at e
    obtain ⟨-, hc⟩ := putK_frames rc e
    refine ⟨hhist, fun x hx => ?_⟩
    rcases hc x hx with h | ⟨rfl, h⟩
    · exact hold x h
    · rw [accesses_snoc]
      simp only [KOp.key, ↓reduceIte] at hcount hnext ⊢
      exact ⟨by push_cast; omega, value, by simp⟩

/-! ## LRU-K: the effect of one call on a well-formed state -/

/-- A `put` whose incremented count stays below the threshold, for a key outside the main
store: the main store is unchanged and the history store records the count. -/
theorem putK_below [DecidableEq Key] {capacity historyCapacity k : Int} {c : KLruKCache Key}
    (rc : WellFormedK capacity historyCapacity k c) (key : Key) (value : String)
    (hk : nextCount ((c.historyList_.peek key).getD 0) < k)
    (hc : c.base.contains key = false) :
    ∃ c1, c.put key value = some c1 ∧ WellFormedK capacity historyCapacity k c1 ∧
      c1.base = c.base ∧
      (0 < historyCapacity → c1.historyList_.peek key =
        some (toSizeT (nextCount ((c.historyList_.peek key).getD 0)))) := by
  obtain ⟨c1, m1, m2, h1, h2, e1, rc1, g1, rm1, g2, rm2, g3, rh1, g4, rh2, hfin⟩ :=
    putK_wf rc key value
  have hfin := hfin.2 hk
  obtain ⟨m1', g1', -, -, -, hsame⟩ := getValue_wf rc.main key
  have hd : (default : String) = "" := rfl
  rw [hd, g1] at g1'
  cases g1'
  have hm1 : m1 = c.base := hsame hc
  rw [rc.main.peek_none hc] at g2
  simp only [Option.getD_none, ne_eq, not_true_eq_false, ↓reduceIte, Option.some.injEq] at g2
  obtain ⟨-, -, -, hpk, -⟩ := history_bump rc.hist key g3 g4
  refine ⟨c1, e1, rc1, by rw [hfin.1, ← g2, hm1], fun h0 => ?_⟩
  rw [hfin.2]
  exact hpk h0

/-- A `put` whose incremented count reaches the threshold: the key leaves the history store
and the main store holds it with the value. -/
theorem putK_reached [DecidableEq Key] {capacity historyCapacity k : Int} {c : KLruKCache Key}
    (rc : WellFormedK capacity historyCapacity k c) (key : Key) (value : String)
    (hk : nextCount ((c.historyList_.peek key).getD 0) ≥ k) :
    ∃ c1, c.put key value = some c1 ∧ WellFormedK capacity historyCapacity k c1 ∧
      c1.historyList_.contains key = false ∧
      (0 < capacity → c1.base.peek key = some value ∧ c1.base.contains key = true) := by
  obtain ⟨c1, m1, m2, h1, h2, e1, rc1, g1, rm1, g2, rm2, g3, rh1, g4, rh2, hfin⟩ :=
    putK_wf rc key value
  have hfin := hfin.1 hk
  obtain ⟨h3, g5, -, hrem, -⟩ := remove_wf rh2 key
  rw [hfin.1] at g5
  cases g5
  obtain ⟨m3, g6, -, hpk3, -⟩ := put_wf rm2 key value
  rw [hfin.2] at g6
  cases g6
  exact ⟨c1, e1, rc1, hrem, hpk3⟩

/-- The method `KLruKCache::get` on a well-formed state: the result is the main store's own
`get`, and the history store records the incremented count. -/
theorem getK_effect [DecidableEq Key] {capacity historyCapacity k : Int} {c : KLruKCache Key}
    (rc : WellFormedK capacity historyCapacity k c) (key : Key) :
    ∃ c1, c.get key = some (c1, (c.base.peek key).getD "") ∧
      WellFormedK capacity historyCapacity k c1 ∧
      c.base.getValue key = some (c1.base, (c.base.peek key).getD "") ∧
      (c.base.contains key = false → c1.base = c.base) ∧
      (0 < historyCapacity → c1.historyList_.peek key =
        some (toSizeT (nextCount ((c.historyList_.peek key).getD 0)))) := by
  obtain ⟨c1, h1, e1, rc1, g3, rh1, g4, g1⟩ := getK_wf rc key
  obtain ⟨-, -, -, hpk, -⟩ := history_bump rc.hist key g3 g4
  obtain ⟨m1, g1', -, -, -, hsame⟩ := getValue_wf rc.main key
  have hd : (default : String) = "" := rfl
  rw [hd, g1] at g1'
  cases g1'
  exact ⟨c1, e1, rc1, g1, hsame, hpk⟩

/-- On a fresh cache with a history store, `n` calls of `get(x)`, for `n` up to `INT_MAX`,
leave the main store fresh and bring the count recorded for `x` to `n`. -/
theorem gets_count [DecidableEq Key] [Inhabited Key] (capacity historyCapacity k : Int)
    (hhist : 1 ≤ historyCapacity) (x : Key) (n : Nat) (hn : n ≤ 2147483647) :
    ∃ c, runK (KLruKCache.create capacity historyCapacity k : KLruKCache Key)
        (List.replicate n (KOp.get x)) = some c ∧
      WellFormedK capacity historyCapacity k c ∧ c.base = KLruCache.create capacity ∧
      (c.historyList_.peek x).getD 0 = n := by
  induction n with
  | zero => exact ⟨_, rfl, wellFormedK_create capacity historyCapacity k, rfl, rfl⟩
  | succ n ih =>
    obtain ⟨c, e, rc, hb, hcnt⟩ := ih (by omega)
    obtain ⟨c1, e1, rc1, -, hsame, hpk⟩ := getK_effect rc x
    have hc : c.base.contains x = false := by rw [hb]; rfl
    refine ⟨c1, ?_, rc1, by rw [hsame hc, hb], ?_⟩
    · rw [List.replicate_succ', runK_snoc, e]
      simp only [Option.some_bind, stepK, e1, Option.map_some']
    · rw [hpk (by omega), hcnt, (nextCount_of_lt (by omega : n < 2147483647)).2]
      rfl


theorem Represents.keyAt_eq {s : KLruCache Key Value} {es : List (Slot Key Value)}
    (r : Represents s es) {e : Slot Key Value} (he : e ∈ es) : s.keyAt e.addr = some e.key := by
  obtain ⟨n, hn, hk, -, -⟩ := payload_eq_some (r.node e he)
  simp [KLruCache.keyAt, hn, hk]

theorem Represents.mem_index [DecidableEq Key] {s : KLruCache Key Value}
    {es : List (Slot Key Value)} (r : Represents s es) (k : Key) (a : Nat) :
    (k, a) ∈ s.nodeMap_ ↔ a ∈ s.order ∧ s.keyAt a = some k := by
  rw [r.index.mem_iff, r.order_eq]
  constructor
  · intro h
    obtain ⟨e, he, heq⟩ := List.mem_map.mp h
    cases heq
    exact ⟨List.mem_map_of_mem _ he, r.keyAt_eq he⟩
  · rintro ⟨ha, hk⟩
    obtain ⟨e, he, rfl⟩ := List.mem_map.mp ha
    rw [r.keyAt_eq he] at hk
    cases hk
    exact List.mem_map.mpr ⟨e, he, rfl⟩

theorem Represents.index_keys_nodup {s : KLruCache Key Value} {es : List (Slot Key Value)}
    (r : Represents s es) : (s.nodeMap_.map Prod.fst).Nodup := by
  apply (r.index.map Prod.fst).nodup_iff.mpr
  simpa [List.map_map, Function.comp_def] using r.keys

theorem Represents.accessCount_eq [DecidableEq Key] {s : KLruCache Key Value}
    {es : List (Slot Key Value)} (r : Represents s es) (k : Key) :
    s.accessCount k = (es.find? (fun e => decide (e.key = k))).map Slot.count := by
  unfold KLruCache.accessCount
  rw [r.find k]
  cases h : es.find? (fun e => decide (e.key = k)) with
  | none => rfl
  | some e =>
    obtain ⟨n, hn, -, -, hc⟩ := payload_eq_some (r.node e (List.mem_of_find?_eq_some h))
    simp [hn, hc]

/-- No call changes a stored access count, and new entries start at 1. -/
theorem count_step [DecidableEq Key] (C : Int) (fresh : Nat) {es : List (Slot Key Value)}
    (op : Op Key Value) (h : ∀ e ∈ es, e.count = 1) :
    ∀ e ∈ absStep C fresh es op, e.count = 1 := by
  intro e he
  cases op with
  | put k v =>
    simp only [absStep] at he
    split at he
    · exact h e he
    · split at he
      · rcases List.mem_append.mp he with h1 | h1
        · exact h e (List.mem_filter.mp h1).1
        · obtain ⟨e0, hm0, rfl⟩ := List.mem_map.mp h1
          exact h e0 (List.mem_filter.mp hm0).1
      · rcases List.mem_append.mp he with h1 | h1
        · apply h e
          split at h1
          · exact List.mem_of_mem_tail h1
          · exact h1
        · simp only [List.mem_singleton] at h1
          subst h1
          rfl
  | get k =>
    simp only [absStep] at he
    exact h e (mem_filter_split he)
  | remove k =>
    simp only [absStep] at he
    exact h e (List.mem_filter.mp he).1


/-! ## The heap model refines the pure recency sequence -/

theorem map_filter_key_eq [DecidableEq Key] (es : List (Slot Key Value)) (k : Key) :
    (es.map (fun e => (e.key, e.value))).filter (fun p => decide (p.1 = k)) =
      (es.filter (fun e => decide (e.key = k))).map (fun e => (e.key, e.value)) := by
  rw [List.filter_map]
  rfl

theorem specStep_absStep [DecidableEq Key] (cap : Int) (fresh : Nat)
    {es : List (Slot Key Value)} (hnd : (es.map Slot.key).Nodup) (op : Op Key Value) :
    (absStep cap fresh es op).map (fun e => (e.key, e.value)) =
      specStep cap (es.map (fun e => (e.key, e.value))) op := by
  cases op with
  | put k v =>
    by_cases hcap : cap ≤ 0
    · simp [absStep, specStep, hcap]
    · rcases slot_cases es k with hk | ⟨A, e, B, rfl, rfl⟩
      · have hany : es.any (fun e => decide (e.key = k)) = false := by
          rw [List.any_eq_false]; simpa using hk
        have hany2 : (es.map (fun e => (e.key, e.value))).any (fun p => decide (p.1 = k))
            = false := by
          rw [List.any_eq_false]
          intro p hp
          obtain ⟨e, he, rfl⟩ := List.mem_map.mp hp
          simpa using hk e he
        simp only [absStep, specStep, hcap, ↓reduceIte, hany, hany2, Bool.false_eq_true,
          List.map_append, List.map_cons, List.map_nil, List.length_map]
        split <;> simp
      · have hany : (A ++ e :: B).any (fun x => decide (x.key = e.key)) = true := by
          rw [List.any_eq_true]; exact ⟨e, by simp, by simp⟩
        have hany2 : ((A ++ e :: B).map (fun e => (e.key, e.value))).any
            (fun p => decide (p.1 = e.key)) = true := by
          rw [List.any_eq_true]; exact ⟨(e.key, e.value), by simp, by simp⟩
        simp only [absStep, specStep, hcap, ↓reduceIte, hany, hany2, map_filter_key,
          filter_ne_split hnd, filter_eq_split hnd]
        simp
  | get k =>
    simp only [absStep, specStep, map_filter_key, map_filter_key_eq, List.map_append]
  | remove k =>
    simp only [absStep, specStep, map_filter_key]

/-- One call on a represented state changes the recency sequence as `specStep` says. -/
theorem step_entries [DecidableEq Key] [Inhabited Value] {s : KLruCache Key Value} {cap : Int}
    (h : WellFormed s cap) (op : Op Key Value) :
    ∃ s1, step s op = some s1 ∧ WellFormed s1 cap ∧ s1.entries = specStep cap s.entries op := by
  obtain ⟨⟨es, r⟩, c⟩ := h
  obtain ⟨s1, e1, c1, r1⟩ := step_repr r op
  refine ⟨s1, e1, ⟨⟨_, r1⟩, c1.trans c⟩, ?_⟩
  rw [r1.entries_eq, r.entries_eq, specStep_absStep _ _ r.keys, c]

theorem WellFormed.entries_nodup {s : KLruCache Key Value} {cap : Int} (h : WellFormed s cap) :
    (s.entries.map Prod.fst).Nodup := by
  obtain ⟨⟨es, r⟩, -⟩ := h
  rw [r.entries_eq, List.map_map]
  exact r.keys

theorem WellFormed.peek_entries [DecidableEq Key] {s : KLruCache Key Value} {cap : Int}
    (h : WellFormed s cap) (k : Key) :
    s.peek k = (s.entries.find? (fun p => decide (p.1 = k))).map Prod.snd := by
  obtain ⟨⟨es, r⟩, -⟩ := h
  rw [r.peek_eq, r.entries_eq, List.find?_map, Option.map_map]
  rfl

theorem filter_ne_filter_eq [DecidableEq Key] (l : List (Key × Value)) (k : Key) :
    (l.filter (fun p => decide (p.1 = k))).filter (fun p => decide (p.1 ≠ k)) = [] := by
  rw [List.filter_eq_nil_iff]
  intro p hp
  have := (List.mem_filter.mp hp).2
  simpa using this

theorem filter_ne_idem [DecidableEq Key] (l : List (Key × Value)) (k : Key) :
    (l.filter (fun p => decide (p.1 ≠ k))).filter (fun p => decide (p.1 ≠ k)) =
      l.filter (fun p => decide (p.1 ≠ k)) := by
  rw [List.filter_filter]
  congr 1
  funext p
  simp

/-- A `put` after a `get` of the same key gives the sequence of the `put` alone. -/
theorem specStep_get_put [DecidableEq Key] {cap : Int} (l : List (Key × Value))
    (k : Key) (v : Value) :
    specStep cap (specStep cap l (Op.get k)) (Op.put k v) = specStep cap l (Op.put k v) ∨
      cap ≤ 0 := by
  by_cases hcap : cap ≤ 0
  · exact Or.inr hcap
  left
  by_cases hany : l.any (fun p => decide (p.1 = k)) = true
  · have hany2 : (l.filter (fun p => decide (p.1 ≠ k)) ++
        l.filter (fun p => decide (p.1 = k))).any (fun p => decide (p.1 = k)) = true := by
      rw [List.any_eq_true] at hany ⊢
      obtain ⟨p, hp, hpk⟩ := hany
      exact ⟨p, List.mem_append_right _ (List.mem_filter.mpr ⟨hp, hpk⟩), hpk⟩
    simp only [specStep, hcap, ↓reduceIte, hany, hany2, List.filter_append, filter_ne_idem,
      filter_ne_filter_eq, List.append_nil]
  · have hno : ∀ p ∈ l, p.1 ≠ k := by
      have hf : l.any (fun p => decide (p.1 = k)) = false := Bool.eq_false_iff.mpr hany
      rw [List.any_eq_false] at hf
      intro p hp
      simpa using hf p hp
    have h1 : l.filter (fun p => decide (p.1 ≠ k)) = l :=
      List.filter_eq_self.mpr (by simpa using hno)
    have h2 : l.filter (fun p => decide (p.1 = k)) = [] :=
      List.filter_eq_nil_iff.mpr (by simpa using hno)
    simp only [specStep, h1, h2, List.append_nil]

/-- A second `put` of the same key and value changes nothing. -/
theorem specStep_put_put [DecidableEq Key] {cap : Int} (l : List (Key × Value))
    (k : Key) (v : Value) :
    specStep cap (specStep cap l (Op.put k v)) (Op.put k v) = specStep cap l (Op.put k v) := by
  by_cases hcap : cap ≤ 0
  · simp [specStep, hcap]
  have key : ∀ X : List (Key × Value), (∀ p ∈ X, p.1 ≠ k) →
      specStep cap (X ++ [(k, v)]) (Op.put k v) = X ++ [(k, v)] := by
    intro X hX
    have hany : (X ++ [(k, v)]).any (fun p => decide (p.1 = k)) = true := by
      rw [List.any_eq_true]; exact ⟨(k, v), by simp, by simp⟩
    have h1 : X.filter (fun p => decide (p.1 ≠ k)) = X :=
      List.filter_eq_self.mpr (by simpa using hX)
    simp only [specStep, hcap, ↓reduceIte, hany, List.filter_append, h1]
    simp
  by_cases hany : l.any (fun p => decide (p.1 = k)) = true
  · simp only [specStep, hcap, ↓reduceIte, hany]
    have := key (l.filter (fun p => decide (p.1 ≠ k)))
      (fun p hp => by simpa using (List.mem_filter.mp hp).2)
    simpa only [specStep, hcap, ↓reduceIte] using this
  · have hno : ∀ p ∈ l, p.1 ≠ k := by
      have hf : l.any (fun p => decide (p.1 = k)) = false := Bool.eq_false_iff.mpr hany
      rw [List.any_eq_false] at hf
      intro p hp
      simpa using hf p hp
    simp only [specStep, hcap, ↓reduceIte, hany]
    have := key (if (l.length : Int) ≥ cap then l.tail else l) (fun p hp => by
      apply hno
      split at hp
      · exact List.mem_of_mem_tail hp
      · exact hp)
    simpa only [specStep, hcap, ↓reduceIte] using this

/-- A call of the LRU-K cache whose incremented count reaches the threshold changes the
recency sequence of the main store as the same call changes a plain LRU cache. -/
theorem stepK_entries [DecidableEq Key] {capacity historyCapacity k : Int}
    {c c1 : KLruKCache Key} (rc : WellFormedK capacity historyCapacity k c)
    (hinert : capacity ≤ 0 → c.base.entries = []) {op : KOp Key}
    (hprom : nextCount ((c.historyList_.peek op.key).getD 0) ≥ k)
    (e : stepK c op = some c1) :
    c1.base.entries = specStep capacity c.base.entries op.toOp := by
  cases op with
  | get key =>
    simp only [stepK] at e
    obtain ⟨c1', h1, e1, -, -, -, -, g1⟩ := getK_wf rc key
    rw [e1] at e
    cases e
    obtain ⟨s1, hs1, -, hent⟩ := step_entries rc.main (Op.get key)
    simp only [step, g1, Option.map_some', Option.some.injEq] at hs1
    rw [hs1]
    exact hent
  | put key value =>
    simp only [stepK] at e
    obtain ⟨c1', m1, m2, h1, h2, e1, -, g1, rm1, g2, rm2, -, -, -, -, hfin⟩ :=
      putK_wf rc key value
    rw [e] at e1
    cases e1
    have hfin := hfin.1 hprom
    obtain ⟨s1, hs1, -, hent1⟩ := step_entries rc.main (Op.get key)
    simp only [step, g1, Option.map_some', Option.some.injEq] at hs1
    subst hs1
    obtain ⟨s3, hs3, -, hent3⟩ := step_entries rm2 (Op.put key value)
    simp only [step, hfin.2, Option.some.injEq] at hs3
    subst hs3
    have hent2 : m2.entries = m1.entries ∨
        m2.entries = specStep capacity m1.entries (Op.put key value) := by
      split at g2
      · obtain ⟨s2, hs2, -, hent2⟩ := step_entries rm1 (Op.put key value)
        simp only [step, g2, Option.some.injEq] at hs2
        subst hs2
        exact Or.inr hent2
      · cases g2
        exact Or.inl rfl
    simp only [KOp.toOp]
    rw [hent3]
    by_cases hcap : capacity ≤ 0
    · have h0 := hinert hcap
      rw [h0] at hent1 ⊢
      have hm1 : m1.entries = [] := by rw [hent1]; rfl
      have hm2 : m2.entries = [] := by
        rcases hent2 with h | h
        · rw [h, hm1]
        · rw [h, hm1]; simp [specStep, hcap]
      rw [hm2]
    · rcases hent2 with h | h
      · rw [h, hent1]
        exact (specStep_get_put _ key value).resolve_right hcap
      · rw [h, specStep_put_put, hent1]
        exact (specStep_get_put _ key value).resolve_right hcap

/-! ## LRU-K with threshold at most 1 -/

theorem accesses_le_length [DecidableEq Key] (x : Key) (ops : List (KOp Key)) :
    accesses x ops ≤ ops.length :=
  List.countP_le_length _

/-- Calls of `get` for a key that is not stored leave a `KLruCache` as it is. -/
theorem run_gets_miss [DecidableEq Key] [Inhabited Value] (s : KLruCache Key Value) (x : Key)
    (hc : s.contains x = false) (n : Nat) (ops : List (Op Key Value)) :
    run s (List.replicate n (Op.get x) ++ ops) = run s ops := by
  have hf : mapFind s.nodeMap_ x = none := by
    simpa [KLruCache.contains] using hc
  induction n with
  | zero => rfl
  | succ n ih =>
    rw [List.replicate_succ, List.cons_append]
    simp only [run, step, KLruCache.getValue, get_miss hf, Option.bind_eq_bind,
      Option.some_bind, Option.map_some']
    exact ih

/-- The history counts of an LRU-K cache while every key has been accessed at most
`INT_MAX` times: each count, read as an `int`, lies between 0 and the number of accesses
of its key. -/
theorem counted_step [DecidableEq Key] {capacity historyCapacity k : Int}
    {ops : List (KOp Key)} {c c1 : KLruKCache Key} {op : KOp Key}
    (rc : WellFormedK capacity historyCapacity k c)
    (p : ∀ x n, c.historyList_.peek x = some n →
      0 ≤ toInt32 n ∧ toInt32 n ≤ (accesses x ops : Int))
    (hb : accesses op.key (ops ++ [op]) ≤ 2147483647)
    (e : stepK c op = some c1) :
    nextCount ((c.historyList_.peek op.key).getD 0) ≥ 1 ∧
      ∀ x n, c1.historyList_.peek x = some n →
        0 ≤ toInt32 n ∧ toInt32 n ≤ (accesses x (ops ++ [op]) : Int) := by
  have hm : 0 ≤ toInt32 ((c.historyList_.peek op.key).getD 0) ∧
      toInt32 ((c.historyList_.peek op.key).getD 0) ≤ (accesses op.key ops : Int) := by
    cases hp : c.historyList_.peek op.key with
    | none => exact ⟨le_refl _, Int.ofNat_nonneg _⟩
    | some n => exact p _ n hp
  rw [accesses_snoc] at hb
  simp only [↓reduceIte] at hb
  have hnext : nextCount ((c.historyList_.peek op.key).getD 0) =
      toInt32 ((c.historyList_.peek op.key).getD 0) + 1 := nextCount_eq (by omega)
  refine ⟨by omega, fun x n hx => ?_⟩
  rw [accesses_snoc]
  rcases stepK_history rc e x n hx with h | ⟨rfl, h⟩
  · have := p x n h
    push_cast
    split <;> omega
  · rw [h, toInt32_nextCount, hnext]
    simp only [↓reduceIte]
    push_cast
    omega

/-! ## The sharded cache -/

/-- The slice size is the ceiling of the exact quotient. -/
theorem sliceSize_eq_ceil (c : Nat) {n : Int} (hn : 1 ≤ n) :
    (sliceSize c n : Int) = ⌈(c : ℚ) / (n : ℚ)⌉ := by
  obtain ⟨m, rfl⟩ := Int.eq_ofNat_of_zero_le (by omega : 0 ≤ n)
  have hm : 1 ≤ m := by exact_mod_cast hn
  symm
  rw [Int.ceil_eq_iff]
  simp only [sliceSize, Int.toNat_ofNat, Int.cast_natCast]
  have hq : (0 : ℚ) < (m : ℚ) := by exact_mod_cast hm
  have h1 := Nat.div_mul_le_self (c + m - 1) m
  have h2 := @Nat.lt_div_mul_add (c + m - 1) m (by omega)
  constructor
  · rw [lt_div_iff₀ hq]
    have : ((c + m - 1) / m : Nat) * m < c + m := by omega
    have h3 : (((c + m - 1) / m : Nat) : ℚ) * m < c + m := by exact_mod_cast this
    linarith
  · rw [div_le_iff₀ hq]
    have : c ≤ ((c + m - 1) / m : Nat) * m := by omega
    exact_mod_cast this


theorem create_eq [Inhabited Key] [Inhabited Value] (hw c : Nat) {n : Int} (hn : 1 ≤ n) :
    (KHashLruCaches.create hw c n : Option (KHashLruCaches Key Value)) =
      some { capacity_ := c
             sliceNum_ := n
             lruSliceCaches_ :=
               List.replicate n.toNat (KLruCache.create (toInt32 (sliceSize c n))) } := by
  have h1 : n > 0 := by omega
  have h2 : ¬ n ≤ 0 := by omega
  simp only [KHashLruCaches.create, h1, h2, ↓reduceIte]

theorem wellFormedH_create [Inhabited Key] [Inhabited Value] (c : Nat) (n : Int) :
    WellFormedH n (toInt32 (sliceSize c n))
      ({ capacity_ := c
         sliceNum_ := n
         lruSliceCaches_ :=
           List.replicate n.toNat (KLruCache.create (toInt32 (sliceSize c n))) } :
        KHashLruCaches Key Value) := by
  refine ⟨rfl, by simp, fun s hs => ?_⟩
  rw [List.eq_of_mem_replicate hs]
  exact wellFormed_create _

theorem sliceIndex_eq (hash : Key → Nat) {c : KHashLruCaches Key Value} (hn : 1 ≤ c.sliceNum_)
    (key : Key) :
    KHashLruCaches.sliceIndex hash c key = some (hash key % c.sliceNum_.toNat) ∧
      hash key % c.sliceNum_.toNat < c.sliceNum_.toNat := by
  have h2 : ¬ c.sliceNum_ ≤ 0 := by omega
  refine ⟨by simp only [KHashLruCaches.sliceIndex, h2, ↓reduceIte], Nat.mod_lt _ ?_⟩
  omega

/-- The two-argument `get` on a well-formed state. -/
theorem get_wf [DecidableEq Key] {s : KLruCache Key Value} {cap : Int}
    (h : WellFormed s cap) (k : Key) (d : Value) :
    ∃ s1 b w, s.get k d = some (s1, b, w) ∧ WellFormed s1 cap := by
  obtain ⟨⟨es, r⟩, c⟩ := h
  rcases slot_cases es k with hk | ⟨A, x, B, rfl, rfl⟩
  · exact ⟨s, false, d, get_miss (r.find_none hk) d, ⟨⟨es, r⟩, c⟩⟩
  · obtain ⟨h, e1, -, r1⟩ := get_repr_hit r d
    exact ⟨_, true, _, e1, ⟨⟨_, r1⟩, c⟩⟩

theorem WellFormedH.set {n cap : Int} {c : KHashLruCaches Key Value} (h : WellFormedH n cap c)
    (i : Nat) {t : KLruCache Key Value} (ht : WellFormed t cap) :
    WellFormedH n cap { c with lruSliceCaches_ := c.lruSliceCaches_.set i t } := by
  refine ⟨h.num, by simpa using h.len, fun s hs => ?_⟩
  rcases List.mem_or_eq_of_mem_set hs with h1 | rfl
  · exact h.shards s h1
  · exact ht

/-- On a well-formed sharded cache with at least one shard, the shard of a key exists. -/
theorem WellFormedH.shard {n cap : Int} {c : KHashLruCaches Key Value} (h : WellFormedH n cap c)
    (hn : 1 ≤ n) (hash : Key → Nat) (key : Key) :
    ∃ shard, KHashLruCaches.sliceIndex hash c key = some (hash key % n.toNat) ∧
      c.lruSliceCaches_[hash key % n.toNat]? = some shard ∧ WellFormed shard cap := by
  have hi := sliceIndex_eq hash (h.num ▸ hn : 1 ≤ c.sliceNum_) key
  rw [h.num] at hi
  have hlt : hash key % n.toNat < c.lruSliceCaches_.length := by rw [h.len]; exact hi.2
  refine ⟨c.lruSliceCaches_[hash key % n.toNat], hi.1, List.getElem?_eq_getElem hlt, ?_⟩
  exact h.shards _ (List.getElem_mem _)

theorem putH_wf [DecidableEq Key] [Inhabited Value] {n cap : Int} {c : KHashLruCaches Key Value}
    (h : WellFormedH n cap c) (hn : 1 ≤ n) (hash : Key → Nat) (key : Key) (v : Value) :
    ∃ shard t, c.lruSliceCaches_[hash key % n.toNat]? = some shard ∧
      shard.put key v = some t ∧ WellFormed t cap ∧
      (0 < cap → t.peek key = some v) ∧
      c.put hash key v =
        some { c with lruSliceCaches_ := c.lruSliceCaches_.set (hash key % n.toNat) t } := by
  obtain ⟨shard, e1, e2, w⟩ := h.shard hn hash key
  obtain ⟨t, e3, w1, hp, -⟩ := put_wf w key v
  refine ⟨shard, t, e2, e3, w1, fun h0 => (hp h0).1, ?_⟩
  simp only [KHashLruCaches.put, e1, Option.some_bind, e2, e3]

theorem getH_wf [DecidableEq Key] {n cap : Int} {c : KHashLruCaches Key Value}
    (h : WellFormedH n cap c) (hn : 1 ≤ n) (hash : Key → Nat) (key : Key) (d : Value) :
    ∃ shard t b w, c.lruSliceCaches_[hash key % n.toNat]? = some shard ∧
      shard.get key d = some (t, b, w) ∧ WellFormed t cap ∧
      c.get hash key d =
        some ({ c with lruSliceCaches_ := c.lruSliceCaches_.set (hash key % n.toNat) t }, b, w) := by
  obtain ⟨shard, e1, e2, w⟩ := h.shard hn hash key
  obtain ⟨t, b, x, e3, w1⟩ := get_wf w key d
  refine ⟨shard, t, b, x, e2, e3, w1, ?_⟩
  simp only [KHashLruCaches.get, e1, Option.some_bind, e2, e3]

theorem stepH_wf [DecidableEq Key] [Inhabited Value] {n cap : Int} {c : KHashLruCaches Key Value}
    (h : WellFormedH n cap c) (hn : 1 ≤ n) (hash : Key → Nat) (op : HOp Key Value) :
    ∃ c1, stepH hash c op = some c1 ∧ WellFormedH n cap c1 := by
  cases op with
  | put key v =>
    obtain ⟨shard, t, -, -, w1, -, e⟩ := putH_wf h hn hash key v
    exact ⟨_, e, h.set _ w1⟩
  | get key =>
    obtain ⟨shard, t, b, x, -, -, w1, e⟩ := getH_wf h hn hash key default
    exact ⟨_, by simp only [stepH, e, Option.map_some'], h.set (hash key % n.toNat) w1⟩

theorem runH_wf [DecidableEq Key] [Inhabited Value] {n cap : Int} (hn : 1 ≤ n) (hash : Key → Nat)
    (ops : List (HOp Key Value)) :
    ∀ {c : KHashLruCaches Key Value}, WellFormedH n cap c →
      ∃ c1, runH hash c ops = some c1 ∧ WellFormedH n cap c1 := by
  induction ops with
  | nil => intro c h; exact ⟨c, rfl, h⟩
  | cons op ops ih =>
    intro c h
    obtain ⟨c1, e1, w1⟩ := stepH_wf h hn hash op
    obtain ⟨c2, e2, w2⟩ := ih w1
    exact ⟨c2, by simp only [runH, e1, Option.some_bind, e2], w2⟩

/-- After `put(key, v)` on a well-formed sharded cache with positive shard capacity,
`get(key, value)` finds `v`. -/
theorem putH_getH [DecidableEq Key] [Inhabited Value] {n cap : Int} {c : KHashLruCaches Key Value}
    (h : WellFormedH n cap c) (hn : 1 ≤ n) (hcap : 0 < cap) (hash : Key → Nat) (key : Key)
    (v d : Value) :
    ∃ c1 c2, c.put hash key v = some c1 ∧ c1.get hash key d = some (c2, true, v) := by
  obtain ⟨shard, t, e2, -, w1, hp, e⟩ := putH_wf h hn hash key v
  have hlt : hash key % n.toNat < c.lruSliceCaches_.length := by
    rcases Nat.lt_or_ge (hash key % n.toNat) c.lruSliceCaches_.length with h1 | h1
    · exact h1
    · rw [List.getElem?_eq_none h1] at e2; cases e2
  have w2 := h.set (hash key % n.toNat) w1
  obtain ⟨shard1, t1, b, x, e3, e4, -, e5⟩ := getH_wf w2 hn hash key d
  simp only [List.getElem?_set_self hlt, Option.some.injEq] at e3
  subst e3
  obtain ⟨s1, e6⟩ := get_of_peek w1 (hp hcap) d
  rw [e6] at e4
  cases e4
  exact ⟨_, _, e, e5⟩

/-! ## Capacity bound -/

/-- C1 (capacity bound): on a fresh `KLruCache` of capacity `C ≥ 0`, every call sequence of
put, get and remove runs without failure, and after each of its calls (after the first `n`
calls, for every `n`) the key index holds at most `C` entries. -/
theorem capacity_bound [DecidableEq Key] [Inhabited Key] [Inhabited Value] (C : Int)
    (hC : 0 ≤ C) (ops : List (Op Key Value)) (n : Nat) :
    ∃ s, run (KLruCache.create C : KLruCache Key Value) (ops.take n) = some s ∧
      (s.nodeMap_.length : Int) ≤ C := by
  obtain ⟨s, es, e, -, r, p⟩ := run_invariant C (fun _ es => (es.length : Int) ≤ C)
    (by simpa using hC)
    (fun _ s es op _ _ _ p => absStep_length_le s.heap_.length op p) (ops.take n)
  exact ⟨s, e, by rw [r.length_index]; exact p⟩

theorem capacity_bound_witness :
    (0 : Int) ≤ 2 ∧
      ∃ s, run (KLruCache.create 2 : KLruCache Int String)
          ([Op.put 1 "a", Op.put 2 "b", Op.put 3 "c"].take 3) = some s ∧
        (s.nodeMap_.length : Int) ≤ 2 :=
  ⟨by decide, capacity_bound 2 (by decide) [Op.put 1 "a", Op.put 2 "b", Op.put 3 "c"] 3⟩

/-! ## Misses and the inert cache -/

/-- C5 (miss transparency): in every state, a `get` of a key that the key index does not
hold returns `found = false`, leaves the reference untouched and returns the very same
state, so the live keys, their values, the occupancy and the recency order are unchanged;
the one-argument `get` then returns the default value. -/
theorem get_miss_unchanged [DecidableEq Key] [Inhabited Value] (s : KLruCache Key Value)
    (k : Key) (d : Value) (h : s.contains k = false) :
    s.get k d = some (s, false, d) ∧ s.getValue k = some (s, default) := by
  have hf : mapFind s.nodeMap_ k = none := by
    simpa [KLruCache.contains] using h
  refine ⟨get_miss hf d, ?_⟩
  simp [KLruCache.getValue, get_miss hf]

theorem get_miss_unchanged_witness :
    ∃ s, run (KLruCache.create 2 : KLruCache Int String)
        [Op.put 1 "a", Op.put 2 "b", Op.put 3 "c"] = some s ∧
      s.contains 1 = false ∧
      s.get 1 "zz" = some (s, false, "zz") ∧ s.getValue 1 = some (s, default) := by
  refine ⟨_, rfl, by decide, ?_⟩
  exact get_miss_unchanged _ 1 "zz" (by decide)

/-- C6 (inert cache): with capacity `C ≤ 0`, `put` returns every state unchanged; after any
call sequence on a fresh cache the state is still the fresh one: the key index and the
recency sequence are empty, every `get(k, value)` returns `found = false` and the
one-argument `get(k)` returns the default value. -/
theorem inert_cache [DecidableEq Key] [Inhabited Key] [Inhabited Value] (C : Int) (hC : C ≤ 0) :
    (∀ (s : KLruCache Key Value) k v, s.capacity_ = C → s.put k v = some s) ∧
    ∀ ops : List (Op Key Value), ∃ s,
      run (KLruCache.create C : KLruCache Key Value) ops = some s ∧
      s.nodeMap_ = [] ∧ s.entries = [] ∧
      ∀ k d, s.get k d = some (s, false, d) ∧ s.getValue k = some (s, default) := by
  refine ⟨fun s k v hs => by simp [KLruCache.put, hs, hC], fun ops => ?_⟩
  refine ⟨KLruCache.create C, run_inert _ hC rfl ops, rfl, ?_, fun k d => ?_⟩
  · exact (repr_create C).entries_eq
  · have hf : mapFind (KLruCache.create C : KLruCache Key Value).nodeMap_ k = none := rfl
    refine ⟨get_miss hf d, ?_⟩
    simp [KLruCache.getValue, get_miss hf]

theorem inert_cache_witness :
    (0 : Int) ≤ 0 ∧
    ((∀ (s : KLruCache Int String) k v, s.capacity_ = 0 → s.put k v = some s) ∧
    ∀ ops : List (Op Int String), ∃ s,
      run (KLruCache.create 0 : KLruCache Int String) ops = some s ∧
      s.nodeMap_ = [] ∧ s.entries = [] ∧
      ∀ k d, s.get k d = some (s, false, d) ∧ s.getValue k = some (s, default)) :=
  ⟨by decide, inert_cache 0 (by decide)⟩

/-! ## Hits and removals -/

/-- C7 (a get hit only changes recency): in every state reached from a fresh cache, a `get`
of a live key `k` returns `found = true` with the stored value; it leaves the key index
(so the set of live keys and the occupancy) and every stored value unchanged; afterwards
the node of `k` is the `prev_` neighbour of the tail sentinel; and the recency sequence is
the old one with the entry of `k` moved to the most-recently-used end, all other entries
keeping their relative order. -/
theorem get_hit_only_recency [DecidableEq Key] [Inhabited Key] [Inhabited Value] (C : Int)
    (ops : List (Op Key Value)) (k : Key) (d : Value) :
    ∃ s, run (KLruCache.create C : KLruCache Key Value) ops = some s ∧
      (s.contains k = true → ∃ s1 v node,
        s.get k d = some (s1, true, v) ∧ s.peek k = some v ∧
        s1.nodeMap_ = s.nodeMap_ ∧ (∀ k1, s1.peek k1 = s.peek k1) ∧
        mapFind s.nodeMap_ k = some (k, node) ∧
        prevOf s1.heap_ s1.dummyTail_ = some node ∧
        s1.entries = s.entries.filter (fun p => decide (p.1 ≠ k)) ++ [(k, v)]) := by
  obtain ⟨s, es, e, -, r⟩ := run_repr ops (repr_create C : Represents (KLruCache.create C : KLruCache Key Value) [])
  refine ⟨s, e, fun hc => ?_⟩
  rcases slot_cases es k with hk | ⟨A, x, B, rfl, rfl⟩
  · rw [r.not_contains hk] at hc; cases hc
  · obtain ⟨h, e1, -, r1⟩ := get_repr_hit r d
    refine ⟨_, x.value, x.addr, e1, r.peek_split, rfl, fun k1 => ?_, ?_, r1.prev_tail, ?_⟩
    · rw [r1.peek_eq, r.peek_eq,
        find_slot_perm (perm_move_last A B x) ((perm_move_last A B x).map Slot.key |>.nodup_iff.mpr r.keys)]
    · rw [r.find, find_split r.keys]; rfl
    · rw [r1.entries_eq, r.entries_eq, map_filter_key, filter_ne_split r.keys]
      simp

theorem get_hit_only_recency_witness :
    ∃ s, run (KLruCache.create 2 : KLruCache Int String) [Op.put 1 "a", Op.put 2 "b"] = some s ∧
      s.contains 1 = true ∧ ∃ s1 v node,
        s.get 1 "" = some (s1, true, v) ∧ s.peek 1 = some v ∧
        s1.nodeMap_ = s.nodeMap_ ∧ (∀ k1, s1.peek k1 = s.peek k1) ∧
        mapFind s.nodeMap_ 1 = some (1, node) ∧
        prevOf s1.heap_ s1.dummyTail_ = some node ∧
        s1.entries = s.entries.filter (fun p => decide (p.1 ≠ 1)) ++ [(1, v)] := by
  obtain ⟨s, hs, h⟩ := get_hit_only_recency 2 [Op.put 1 "a", Op.put 2 "b"] (1 : Int) ""
  have hc : (run (KLruCache.create 2 : KLruCache Int String)
      [Op.put 1 "a", Op.put 2 "b"]).map (fun s => s.contains 1) = some true := by decide
  rw [hs] at hc
  have hc1 : s.contains 1 = true := by simpa using hc
  exact ⟨s, hs, hc1, h hc1⟩

/-- C8 (remove): in every state reached from a fresh cache, `remove(k)` of an absent key
returns the same state; `remove(k)` of a live key makes every later `get(k)` miss, lowers
the occupancy by one, keeps the stored value of every other key, and leaves the recency
sequence as it was with the entry of `k` deleted. -/
theorem remove_effect [DecidableEq Key] [Inhabited Key] [Inhabited Value] (C : Int)
    (ops : List (Op Key Value)) (k : Key) :
    ∃ s, run (KLruCache.create C : KLruCache Key Value) ops = some s ∧
      (s.contains k = false → s.remove k = some s) ∧
      (s.contains k = true → ∃ s1,
        s.remove k = some s1 ∧ s1.contains k = false ∧
        (∀ d, s1.get k d = some (s1, false, d)) ∧
        s1.nodeMap_.length + 1 = s.nodeMap_.length ∧
        (∀ k1, k1 ≠ k → s1.peek k1 = s.peek k1 ∧ s1.contains k1 = s.contains k1) ∧
        s1.entries = s.entries.filter (fun p => decide (p.1 ≠ k))) := by
  obtain ⟨s, es, e, -, r⟩ := run_repr ops (repr_create C : Represents (KLruCache.create C : KLruCache Key Value) [])
  refine ⟨s, e, fun hc => ?_, fun hc => ?_⟩
  · exact remove_miss (by simpa [KLruCache.contains] using hc)
  · rcases slot_cases es k with hk | ⟨A, x, B, rfl, rfl⟩
    · rw [r.not_contains hk] at hc; cases hc
    · obtain ⟨h, e1, -, r1⟩ := remove_repr r
      have habs : ∀ y ∈ A ++ B, y.key ≠ x.key := by
        have := filter_ne_split r.keys
        intro y hy
        rw [← this, List.mem_filter] at hy
        simpa using hy.2
      have hfind : ∀ k1, k1 ≠ x.key →
          (A ++ B).find? (fun y => decide (y.key = k1)) =
            (A ++ x :: B).find? (fun y => decide (y.key = k1)) := by
        intro k1 hk1
        have hx : decide (x.key = k1) = false := by simpa using fun h => hk1 h.symm
        simp [List.find?_append, List.find?_cons, hx]
      refine ⟨_, e1, r1.not_contains habs, fun d => ?_, ?_, fun k1 hk1 => ⟨?_, ?_⟩, ?_⟩
      · exact get_miss (r1.find_none habs) d
      · rw [r1.length_index, r.length_index]; simp; omega
      · rw [r1.peek_eq, r.peek_eq, hfind k1 hk1]
      · rw [r1.contains_eq, r.contains_eq, hfind k1 hk1]
      · rw [r1.entries_eq, r.entries_eq, map_filter_key, filter_ne_split r.keys]

theorem remove_effect_witness :
    ∃ s, run (KLruCache.create 2 : KLruCache Int String) [Op.put 1 "a", Op.put 2 "b"] = some s ∧
      s.contains 1 = true ∧ ∃ s1,
        s.remove 1 = some s1 ∧ s1.contains 1 = false ∧
        (∀ d, s1.get 1 d = some (s1, false, d)) ∧
        s1.nodeMap_.length + 1 = s.nodeMap_.length ∧
        (∀ k1, k1 ≠ 1 → s1.peek k1 = s.peek k1 ∧ s1.contains k1 = s.contains k1) ∧
        s1.entries = s.entries.filter (fun p => decide (p.1 ≠ 1)) := by
  obtain ⟨s, hs, -, h⟩ := remove_effect 2 [Op.put 1 "a", Op.put 2 "b"] (1 : Int)
  have hc : (run (KLruCache.create 2 : KLruCache Int String)
      [Op.put 1 "a", Op.put 2 "b"]).map (fun s => s.contains 1) = some true := by decide
  rw [hs] at hc
  have hc1 : s.contains 1 = true := by simpa using hc
  exact ⟨s, hs, hc1, h hc1⟩

/-- C4 (overwrite does not grow occupancy): in every state reached from a fresh cache of
capacity `C ≥ 1`, after `put(k, v1)` the call `put(k, v2)` leaves the key index unchanged,
hence the occupancy and the set of live keys, and a following `get(k)` returns
`found = true` with the value `v2`. -/
theorem overwrite_keeps_occupancy [DecidableEq Key] [Inhabited Key] [Inhabited Value]
    (C : Int) (hC : 1 ≤ C) (ops : List (Op Key Value)) (k : Key) (v1 v2 d : Value) :
    ∃ s s1 s2 s3, run (KLruCache.create C : KLruCache Key Value) ops = some s ∧
      s.put k v1 = some s1 ∧ s1.put k v2 = some s2 ∧
      s2.nodeMap_ = s1.nodeMap_ ∧ s2.nodeMap_.length = s1.nodeMap_.length ∧
      (∀ k1, s2.contains k1 = s1.contains k1) ∧
      s2.get k d = some (s3, true, v2) := by
  obtain ⟨s, es, e, c, r⟩ := run_repr ops (repr_create C : Represents (KLruCache.create C : KLruCache Key Value) [])
  have hcap : 0 < s.capacity_ := by rw [c]; exact hC
  obtain ⟨s1, X, a, n, e1, c1, r1, -⟩ := put_repr_last r hcap k v1
  have r1' : Represents s1 (X ++ { addr := a, key := k, value := v1, count := n } :: []) := r1
  obtain ⟨h2, e2, -, r2⟩ := put_repr_hit r1' (c1 ▸ hcap) v2
  have r2' : Represents { s1 with heap_ := h2 }
      (X ++ { addr := a, key := k, value := v2, count := n } :: []) := by
    simpa using r2
  obtain ⟨h3, e3, -, -⟩ := get_repr_hit r2' d
  exact ⟨s, s1, _, _, e, e1, e2, rfl, rfl, fun _ => rfl, e3⟩

theorem overwrite_keeps_occupancy_witness :
    (1 : Int) ≤ 2 ∧
    ∃ s s1 s2 s3, run (KLruCache.create 2 : KLruCache Int String)
        [Op.put 1 "a", Op.put 2 "b"] = some s ∧
      s.put 1 "x" = some s1 ∧ s1.put 1 "y" = some s2 ∧
      s2.nodeMap_ = s1.nodeMap_ ∧ s2.nodeMap_.length = s1.nodeMap_.length ∧
      (∀ k1, s2.contains k1 = s1.contains k1) ∧
      s2.get 1 "" = some (s3, true, "y") :=
  ⟨by decide, overwrite_keeps_occupancy 2 (by decide) [Op.put 1 "a", Op.put 2 "b"] 1 "x" "y" ""⟩

/-! ## Values returned by `get` -/

/-- C3 (no stale or foreign value): on a fresh `KLruCache` of any capacity, after any call
sequence `ops`, `get(k, value)` returns; if it reports `found = true`, then `ops` contains
a `put(k, v)` such that the returned value is `v`, no later call of `ops` is a put of `k`
(so `v` is the value of the most recent put of `k`), and no later call is `remove(k)`. -/
theorem get_returns_last_put [DecidableEq Key] [Inhabited Key] [Inhabited Value] (C : Int)
    (ops : List (Op Key Value)) (k : Key) (d : Value) :
    ∃ s s1 found value, run (KLruCache.create C : KLruCache Key Value) ops = some s ∧
      s.get k d = some (s1, found, value) ∧
      (found = true → ∃ (i : Nat) (v : Value), ops[i]? = some (Op.put k v) ∧ value = v ∧
        ∀ j : Nat, i < j → ∀ op, ops[j]? = some op → (∀ w, op ≠ Op.put k w) ∧ op ≠ Op.remove k) := by
  by_cases hC : C ≤ 0
  · have hf : mapFind (KLruCache.create C : KLruCache Key Value).nodeMap_ k = none := rfl
    exact ⟨_, _, false, d, run_inert _ hC rfl ops, get_miss hf d, fun h => by cases h⟩
  · obtain ⟨s, es, e, -, r, p⟩ := run_invariant C
      (fun ops es => ∀ e ∈ es, LastPut ops e.key e.value) (by simp)
      (fun _ s es op _ _ _ p => lastPut_step (not_le.mp hC) s.heap_.length op p) ops
    rcases slot_cases es k with hk | ⟨A, x, B, rfl, rfl⟩
    · exact ⟨s, s, false, d, e, get_miss (r.find_none hk) d, fun h => by cases h⟩
    · obtain ⟨h, e1, -, -⟩ := get_repr_hit r d
      refine ⟨s, _, true, x.value, e, e1, fun _ => ?_⟩
      obtain ⟨i, hi, hl⟩ := p x (by simp)
      exact ⟨i, x.value, hi, rfl, hl⟩

theorem get_returns_last_put_witness :
    ∃ s s1 value, run (KLruCache.create 2 : KLruCache Int String)
        [Op.put 1 "a", Op.put 2 "b", Op.put 1 "c"] = some s ∧
      s.get 1 "" = some (s1, true, value) ∧
      ∃ (i : Nat) (v : String),
        [Op.put 1 "a", Op.put 2 "b", Op.put (1 : Int) "c"][i]? = some (Op.put 1 v) ∧ value = v ∧
        ∀ j : Nat, i < j → ∀ op, [Op.put 1 "a", Op.put 2 "b", Op.put (1 : Int) "c"][j]? = some op →
          (∀ w, op ≠ Op.put 1 w) ∧ op ≠ Op.remove 1 := by
  obtain ⟨s, s1, found, value, hs, hg, h⟩ :=
    get_returns_last_put 2 [Op.put 1 "a", Op.put 2 "b", Op.put (1 : Int) "c"] 1 ""
  have hf : (run (KLruCache.create 2 : KLruCache Int String)
      [Op.put 1 "a", Op.put 2 "b", Op.put 1 "c"]).bind
        (fun s => (s.get 1 "").map (fun r => r.2.1)) = some true := by decide
  rw [hs] at hf
  simp only [Option.some_bind, hg, Option.map_some', Option.some.injEq] at hf
  subst hf
  exact ⟨s, s1, value, hs, hg, h rfl⟩

/-- C2 (eviction victim): on a fresh `KLruCache` of capacity `C ≥ 1`, after any call
sequence `ops`, a `put(k, v)` of a key that is not live while the occupancy equals `C`
removes exactly one live key `u`: the most recent touch of `u` in `ops` is earlier than
the most recent touch of every other live key; every other live key stays live with its
value; `k` becomes live with value `v`; the occupancy stays `C`. -/
theorem eviction_victim [DecidableEq Key] [Inhabited Key] [Inhabited Value] (C : Int)
    (hC : 1 ≤ C) (ops : List (Op Key Value)) (k : Key) (v d : Value) :
    ∃ s, run (KLruCache.create C : KLruCache Key Value) ops = some s ∧
      (s.contains k = false → (s.nodeMap_.length : Int) = C →
        ∃ s1 u, s.put k v = some s1 ∧
          s.contains u = true ∧ s1.contains u = false ∧
          (∀ k1, s.contains k1 = true → k1 ≠ u →
            ∃ i j, i < j ∧ IsLastTouch C ops u i ∧ IsLastTouch C ops k1 j) ∧
          (∀ k1, s1.contains k1 = true ↔ (k1 = k ∨ (k1 ≠ u ∧ s.contains k1 = true))) ∧
          (∀ k1, k1 ≠ u → k1 ≠ k → s1.peek k1 = s.peek k1) ∧
          s1.peek k = some v ∧ (∃ s2, s1.get k d = some (s2, true, v)) ∧
          s1.nodeMap_.length = s.nodeMap_.length) := by
  have hC0 : 0 < C := by omega
  obtain ⟨s, es, e, c, r, p⟩ := run_invariant C
    (fun ops es => TouchOrdered C ops (es.map Slot.key))
    ⟨by simp, by simp⟩
    (fun _ s es op hrun _ r p => touchOrdered_step hC0 op hrun r p) ops
  refine ⟨s, e, fun hk hfull => ?_⟩
  have hkabs : ∀ x ∈ es, x.key ≠ k := by
    rcases slot_cases es k with hk1 | ⟨A, x, B, rfl, rfl⟩
    · exact hk1
    · rw [r.contains_split] at hk; cases hk
  rw [r.length_index] at hfull
  cases es with
  | nil => simp at hfull; omega
  | cons u rest =>
    have hcap : 0 < s.capacity_ := by rw [c]; exact hC0
    obtain ⟨s1, e1, c1, r1⟩ := addNewNode_repr r hcap hkabs v
    rw [c, if_pos (by rw [hfull]), List.tail_cons] at r1
    have r0 : Represents s ([] ++ u :: rest) := r
    have huk : u.key ≠ k := hkabs u (by simp)
    have hrest : ∀ x ∈ rest, x.key ≠ u.key := by
      have := r.keys
      simp only [List.map_cons, List.nodup_cons, List.mem_map, not_exists, not_and] at this
      intro x hx heq
      exact this.1 x hx heq
    have r1' : Represents s1 (rest ++
        { addr := s.heap_.length, key := k, value := v, count := 1 } :: []) := r1
    obtain ⟨h2, e2, -, -⟩ := get_repr_hit r1' d
    refine ⟨s1, u.key, ?_, r0.contains_split, ?_, ?_, ?_, ?_, r1'.peek_split, ⟨_, e2⟩, ?_⟩
    · simp only [KLruCache.put, not_le.mpr hcap, ↓reduceIte, r.find_none hkabs]
      exact e1
    · refine r1.not_contains ?_
      intro x hx
      rcases List.mem_append.mp hx with hx | hx
      · exact hrest x hx
      · simp only [List.mem_singleton] at hx
        subst hx
        exact fun heq => huk heq.symm
    · intro k1 hk1 hne
      rw [r.contains_eq] at hk1
      obtain ⟨x, hx⟩ := Option.isSome_iff_exists.mp hk1
      have hxm := List.mem_of_find?_eq_some hx
      have hxk : x.key = k1 := by simpa using List.find?_some hx
      have hxr : x ∈ rest := by
        rcases List.mem_cons.mp hxm with h | h
        · subst h; exact absurd hxk.symm hne
        · exact h
      have hp := p.2
      simp only [List.map_cons, List.pairwise_cons] at hp
      rw [← hxk]
      exact hp.1 x.key (List.mem_map_of_mem Slot.key hxr)
    · intro k1
      rw [r1.contains_eq, r.contains_eq]
      by_cases h1 : k1 = k
      · subst h1
        simp [List.find?_append]
      · by_cases h2 : k1 = u.key
        · subst h2
          have hnone : rest.find? (fun x => decide (x.key = u.key)) = none := by
            rw [List.find?_eq_none]; simpa using hrest
          have hk' : ¬ k = u.key := fun heq => huk heq.symm
          simp [List.find?_append, hnone, h1, hk']
        · have hu' : ¬ u.key = k1 := fun heq => h2 heq.symm
          have hk' : ¬ k = k1 := fun heq => h1 heq.symm
          simp [List.find?_append, List.find?_cons, h1, h2, hu', hk']
    · intro k1 h2 h1
      rw [r1.peek_eq, r.peek_eq]
      have hu' : ¬ u.key = k1 := fun heq => h2 heq.symm
      have hk' : ¬ k = k1 := fun heq => h1 heq.symm
      simp [List.find?_append, List.find?_cons, hu', hk']
    · rw [r1.length_index, r.length_index]; simp

theorem eviction_victim_witness :
    (1 : Int) ≤ 2 ∧
    ∃ s, run (KLruCache.create 2 : KLruCache Int String)
        [Op.put 1 "a", Op.put 2 "b", Op.get 1] = some s ∧
      s.contains 3 = false ∧ (s.nodeMap_.length : Int) = 2 ∧
      ∃ s1 u, s.put 3 "c" = some s1 ∧
        s.contains u = true ∧ s1.contains u = false ∧
        (∀ k1, s.contains k1 = true → k1 ≠ u →
          ∃ i j, i < j ∧ IsLastTouch 2 [Op.put 1 "a", Op.put 2 "b", Op.get 1] u i ∧
            IsLastTouch 2 [Op.put 1 "a", Op.put 2 "b", Op.get 1] k1 j) ∧
        (∀ k1, s1.contains k1 = true ↔ (k1 = 3 ∨ (k1 ≠ u ∧ s.contains k1 = true))) ∧
        (∀ k1, k1 ≠ u → k1 ≠ 3 → s1.peek k1 = s.peek k1) ∧
        s1.peek 3 = some "c" ∧ (∃ s2, s1.get 3 "" = some (s2, true, "c")) ∧
        s1.nodeMap_.length = s.nodeMap_.length := by
  obtain ⟨s, hs, h⟩ :=
    eviction_victim 2 (by decide) [Op.put 1 "a", Op.put 2 "b", Op.get (1 : Int)] 3 "c" ""
  have hc : (run (KLruCache.create 2 : KLruCache Int String)
      [Op.put 1 "a", Op.put 2 "b", Op.get 1]).map
        (fun s => (s.contains 3, (s.nodeMap_.length : Int))) = some (false, 2) := by decide
  rw [hs] at hc
  simp only [Option.map_some', Option.some.injEq, Prod.mk.injEq] at hc
  exact ⟨by decide, s, hs, hc.1, hc.2, h hc.1 hc.2⟩

/-! ## LRU-K: overwrite and promotion in `put` -/

/-- C9 (LRU-K overwrite of an admitted key), evaluated on the code: with capacity 2,
history capacity 10 and threshold 2, after `put(5, "")`, `put(5, "")` the main store holds
key 5 with the empty string; the next `put(5, "x")` does not reach the threshold and leaves
the main store mapping 5 to the empty string, not to "x". -/
theorem lruk_put_empty_value_not_overwritten :
    ∃ c c1, runK (KLruKCache.create 2 10 2 : KLruKCache Int) [KOp.put 5 "", KOp.put 5 ""] = some c ∧
      c.base.contains 5 = true ∧ c.base.peek 5 = some "" ∧
      c.put 5 "x" = some c1 ∧ c1.base.peek 5 = some "" ∧
      ∃ m, c1.base.get 5 "?" = some (m, true, "") := by
  refine ⟨_, _, rfl, by decide, by decide, rfl, by decide, _, rfl⟩

/-- An admitted key whose stored value is not the empty string is overwritten by `put`,
whether or not the threshold is reached. -/
theorem lruk_put_overwrites_nonempty [DecidableEq Key] [Inhabited Key]
    (capacity historyCapacity k : Int) (hcap : 1 ≤ capacity) (ops : List (KOp Key)) (key : Key)
    (value w : String) :
    ∃ c c1, runK (KLruKCache.create capacity historyCapacity k) ops = some c ∧
      c.put key value = some c1 ∧
      (c.base.peek key = some w → w ≠ "" → c1.base.peek key = some value) := by
  obtain ⟨c, e, rc⟩ := runK_wf ops
    (wellFormedK_create capacity historyCapacity k :
      WellFormedK capacity historyCapacity k (KLruKCache.create capacity historyCapacity k : KLruKCache Key))
  obtain ⟨c1, m1, m2, h1, h2, e1, rc1, g1, rm1, g2, rm2, g3, rh1, g4, rh2, hfin⟩ :=
    putK_wf rc key value
  refine ⟨c, c1, e, e1, fun hp hw => ?_⟩
  have hcap : 0 < capacity := by omega
  rw [hp] at g2
  simp only [Option.getD_some, ne_eq, hw, not_false_eq_true, ↓reduceIte] at g2
  obtain ⟨m2', g2', -, hpk, -⟩ := put_wf rm1 key value
  rw [g2] at g2'
  cases g2'
  have hm2 := (hpk hcap).1
  by_cases hk : nextCount ((c.historyList_.peek key).getD 0) ≥ k
  · obtain ⟨m3, g6, -, hpk3, -⟩ := put_wf rm2 key value
    rw [(hfin.1 hk).2] at g6
    cases g6
    exact (hpk3 hcap).1
  · rw [(hfin.2 (not_le.mp hk)).1]; exact hm2

/-- C10 (LRU-K promotion in `put`) fails when the recorded count is `INT_MAX`: with
capacity 2, history capacity 10 and threshold 2, 2147483647 calls of `get(5)` on a fresh
cache bring the count recorded for key 5 to `c = 2147483647`, so `c + 1 ≥ k`; the
`put(5, "x")` that follows increments the `int` count to `-2^31`, below the threshold, and
afterwards key 5 is not in the main store and the history store still holds it, with the
count `2^64 - 2^31`. -/
theorem lruk_put_count_overflow :
    ∃ c c1, runK (KLruKCache.create 2 10 2 : KLruKCache Int)
        (List.replicate 2147483647 (KOp.get 5)) = some c ∧
      (c.historyList_.peek 5).getD 0 = 2147483647 ∧
      (((c.historyList_.peek 5).getD 0 + 1 : Nat) : Int) ≥ 2 ∧
      c.put 5 "x" = some c1 ∧ c1.base.contains 5 = false ∧
      c1.historyList_.peek 5 = some 18446744071562067968 := by
  obtain ⟨c, e, rc, hb, hcnt⟩ := gets_count 2 10 2 (by decide) (5 : Int) 2147483647 (le_refl _)
  have hnc := nextCount_int_max
  obtain ⟨c1, e1, -, hbase, hpk⟩ := putK_below rc 5 "x" (by rw [hcnt, hnc.1]; decide)
    (by rw [hb]; rfl)
  refine ⟨c, c1, e, hcnt, by rw [hcnt]; decide, e1, by rw [hbase, hb]; rfl, ?_⟩
  rw [hpk (by decide), hcnt, hnc.2]

/-- C10, amended (LRU-K promotion in `put`, count below `INT_MAX`): on an LRU-K cache with
capacity and history capacity at least 1 and any threshold `k`, after any sequence of
`get` and `put` calls on a fresh cache, `put(key, value)` returns; with `c` the count the
history store holds for `key` before the call (0 if absent) and `c < 2^31 - 1`: if
`c + 1 ≥ k`, then afterwards `key` is absent from the history store and the main store
maps `key` to `value` (a `get` on it finds `value`); if `c + 1 < k` and `key` is not in
the main store, then afterwards the main store is the same state and the history store
holds `c + 1` for `key`. -/
theorem lruk_put_promotion [DecidableEq Key] [Inhabited Key]
    (capacity historyCapacity k : Int) (hcap : 1 ≤ capacity) (hhist : 1 ≤ historyCapacity)
    (ops : List (KOp Key)) (key : Key) (value : String) :
    ∃ c c1, runK (KLruKCache.create capacity historyCapacity k) ops = some c ∧
      c.put key value = some c1 ∧
      ((c.historyList_.peek key).getD 0 < 2147483647 →
        ((((c.historyList_.peek key).getD 0 + 1 : Nat) : Int) ≥ k →
          c1.historyList_.contains key = false ∧ c1.base.peek key = some value ∧
          ∀ d, ∃ m, c1.base.get key d = some (m, true, value)) ∧
        ((((c.historyList_.peek key).getD 0 + 1 : Nat) : Int) < k →
          c.base.contains key = false →
          c1.base = c.base ∧
          c1.historyList_.peek key = some ((c.historyList_.peek key).getD 0 + 1))) := by
  obtain ⟨c, e, rc⟩ := runK_wf ops
    (wellFormedK_create capacity historyCapacity k :
      WellFormedK capacity historyCapacity k (KLruKCache.create capacity historyCapacity k : KLruKCache Key))
  obtain ⟨c1, -, -, -, -, e1, rc1, -⟩ := putK_wf rc key value
  refine ⟨c, c1, e, e1, fun hlt => ?_⟩
  obtain ⟨hn1, hn2⟩ := nextCount_of_lt hlt
  refine ⟨fun hk => ?_, fun hk hc => ?_⟩
  · obtain ⟨c1', e1', -, hrem, hp⟩ := putK_reached rc key value
      (by rw [hn1]; push_cast at hk; exact hk)
    rw [e1] at e1'
    cases e1'
    have hp1 := (hp (by omega)).1
    exact ⟨hrem, hp1, fun d => get_of_peek rc1.main hp1 d⟩
  · obtain ⟨c1', e1', -, hbase, hpk⟩ := putK_below rc key value
      (by rw [hn1]; push_cast at hk; exact hk) hc
    rw [e1] at e1'
    cases e1'
    refine ⟨hbase, ?_⟩
    rw [hpk (by omega), hn2]

theorem lruk_put_promotion_witness :
    (1 : Int) ≤ 2 ∧ (1 : Int) ≤ 10 ∧
    ∃ c c1, runK (KLruKCache.create 2 10 2 : KLruKCache Int) [KOp.put 5 "x", KOp.get 5] = some c ∧
      c.put 5 "x" = some c1 ∧ (c.historyList_.peek 5).getD 0 = 2 ∧
      c1.historyList_.contains 5 = false ∧ c1.base.peek 5 = some "x" ∧
      ∀ d, ∃ m, c1.base.get 5 d = some (m, true, "x") := by
  obtain ⟨c, c1, hc, hp, h⟩ :=
    lruk_put_promotion 2 10 2 (by decide) (by decide) [KOp.put 5 "x", KOp.get (5 : Int)] 5 "x"
  have hn : (runK (KLruKCache.create 2 10 2 : KLruKCache Int) [KOp.put 5 "x", KOp.get 5]).map
      (fun c => (c.historyList_.peek 5).getD 0) = some 2 := by decide
  rw [hc] at hn
  simp only [Option.map_some', Option.some.injEq] at hn
  exact ⟨by decide, by decide, c, c1, hc, hp, hn,
    (h (by rw [hn]; decide)).1 (by rw [hn]; decide)⟩

/-- Below the threshold, at a concrete input: the first `put(5, "x")` on a fresh cache with
threshold 2 records count 1 and leaves the main store as it was. -/
theorem lruk_put_below_threshold_example :
    ∃ c1, (KLruKCache.create 2 10 2 : KLruKCache Int).put 5 "x" = some c1 ∧
      c1.base = (KLruKCache.create 2 10 2 : KLruKCache Int).base ∧
      c1.historyList_.peek 5 = some 1 :=
  ⟨_, rfl, by decide, by decide⟩

/-! ## The scenarios of the specification, evaluated -/

/-- Capacity 2: `put(1,"a")`, `put(2,"b")`, `put(3,"c")` evicts key 1; keys 2 and 3 keep
their values. -/
theorem scenario_evict_least_recent :
    (run (KLruCache.create 2 : KLruCache Int String)
        [Op.put 1 "a", Op.put 2 "b", Op.put 3 "c"]).map
      (fun s => (s.contains 1, s.peek 2, s.peek 3, s.entries)) =
      some (false, some "b", some "c", [(2, "b"), (3, "c")]) := by
  decide

/-- Capacity 2: `put(1,"a")`, `put(2,"b")`, `get(1)`, `put(3,"c")` evicts key 2, the least
recently touched; keys 1 and 3 keep their values. -/
theorem scenario_touch_protects :
    (run (KLruCache.create 2 : KLruCache Int String)
        [Op.put 1 "a", Op.put 2 "b", Op.get 1, Op.put 3 "c"]).map
      (fun s => (s.contains 2, s.peek 1, s.peek 3, s.entries)) =
      some (false, some "a", some "c", [(1, "a"), (3, "c")]) := by
  decide

/-- In `put(1,"a")`, `put(2,"b")`, `get(1)` the most recent touch of key 2 is call 1 and
the most recent touch of key 1 is call 2 (the get that hits). -/
theorem scenario_last_touches :
    IsLastTouch 2 ([Op.put 1 "a", Op.put 2 "b", Op.get 1] : List (Op Int String)) 2 1 ∧
      IsLastTouch 2 ([Op.put 1 "a", Op.put 2 "b", Op.get 1] : List (Op Int String)) 1 2 := by
  decide

/-- Capacity 0: `put(1,"a")` stores nothing and `get(1)` misses. -/
theorem scenario_capacity_zero :
    (run (KLruCache.create 0 : KLruCache Int String) [Op.put 1 "a"]).bind
      (fun s => (s.get 1 "").map (fun r => (r.2.1, s.entries))) = some (false, []) := by
  decide

/-- LRU-K with capacity 2, history capacity 10, threshold 2: after `put(5,"x")` a `get(5)`
misses; after a second `put(5,"x")` the key is in the main store, `get(5)` returns "x" and
the main store holds one entry. -/
theorem scenario_delayed_admission :
    ((runK (KLruKCache.create 2 10 2 : KLruKCache Int) [KOp.put 5 "x"]).bind
        (fun c => (c.get 5).map Prod.snd) = some "") ∧
    ((runK (KLruKCache.create 2 10 2 : KLruKCache Int)
        [KOp.put 5 "x", KOp.get 5, KOp.put 5 "x"]).bind
        (fun c => (c.get 5).map (fun r => (r.2, r.1.base.nodeMap_.length))) = some ("x", 1)) := by
  decide


/-! ## LRU-K: `get`, and the cache without a history -/

/-- C13 (LRU-K get) fails when the recorded count is `INT_MAX`: with capacity 2, history
capacity 10 and threshold 2, 2147483647 calls of `get(5)` on a fresh cache bring the count
recorded for key 5 to 2147483647; the next `get(5)` increments the `int` count to `-2^31`
and the history store then records `2^64 - 2^31`, not 2147483648. -/
theorem lruk_get_count_overflow :
    ∃ c c1 v, runK (KLruKCache.create 2 10 2 : KLruKCache Int)
        (List.replicate 2147483647 (KOp.get 5)) = some c ∧
      (c.historyList_.peek 5).getD 0 = 2147483647 ∧
      c.get 5 = some (c1, v) ∧
      c1.historyList_.peek 5 = some 18446744071562067968 ∧
      c1.historyList_.peek 5 ≠ some ((c.historyList_.peek 5).getD 0 + 1) := by
  obtain ⟨c, e, rc, -, hcnt⟩ := gets_count 2 10 2 (by decide) (5 : Int) 2147483647 (le_refl _)
  obtain ⟨c1, e1, -, -, -, hpk⟩ := getK_effect rc 5
  have hp : c1.historyList_.peek 5 = some 18446744071562067968 := by
    rw [hpk (by decide), hcnt, nextCount_int_max.2]
  refine ⟨c, c1, _, e, hcnt, e1, hp, ?_⟩
  rw [hp, hcnt]
  decide

/-- C13, amended (LRU-K get, count below `INT_MAX`): on an LRU-K cache with history
capacity at least 1, after any sequence of `get` and `put` calls on a fresh cache,
`get(key)` returns; if the count the history store held for `key` before the call (0 if
it held none) is below `2^31 - 1`, the history store afterwards holds one more, whether
or not `key` is in the main store; the returned value and the main store after the call
are exactly the result of the main store's own `get(key)` on the main store before the
call, which on a miss is the empty string and the unchanged main store. -/
theorem lruk_get_effect [DecidableEq Key] [Inhabited Key]
    (capacity historyCapacity k : Int) (hhist : 1 ≤ historyCapacity)
    (ops : List (KOp Key)) (key : Key) :
    ∃ c c1 v, runK (KLruKCache.create capacity historyCapacity k) ops = some c ∧
      c.get key = some (c1, v) ∧
      ((c.historyList_.peek key).getD 0 < 2147483647 →
        c1.historyList_.peek key = some ((c.historyList_.peek key).getD 0 + 1)) ∧
      c.base.getValue key = some (c1.base, v) ∧
      (c.base.contains key = false → v = "" ∧ c1.base = c.base) := by
  obtain ⟨c, e, rc⟩ := runK_wf ops
    (wellFormedK_create capacity historyCapacity k :
      WellFormedK capacity historyCapacity k (KLruKCache.create capacity historyCapacity k : KLruKCache Key))
  obtain ⟨c1, e1, -, g1, hsame, hpk⟩ := getK_effect rc key
  refine ⟨c, c1, _, e, e1, fun hlt => ?_, g1, fun hc => ⟨?_, hsame hc⟩⟩
  · rw [hpk (by omega), (nextCount_of_lt hlt).2]
  · rw [rc.main.peek_none hc]; rfl

theorem lruk_get_effect_witness :
    (1 : Int) ≤ 10 ∧
    ∃ c c1 v, runK (KLruKCache.create 2 10 2 : KLruKCache Int)
        [KOp.put 5 "x", KOp.put 5 "x"] = some c ∧
      c.get 5 = some (c1, v) ∧
      ((c.historyList_.peek 5).getD 0 < 2147483647 →
        c1.historyList_.peek 5 = some ((c.historyList_.peek 5).getD 0 + 1)) ∧
      c.base.getValue 5 = some (c1.base, v) ∧
      (c.base.contains 5 = false → v = "" ∧ c1.base = c.base) :=
  ⟨by decide, lruk_get_effect 2 10 2 (by decide) [KOp.put 5 "x", KOp.put 5 "x"] 5⟩

/-- C19 (disabled history blocks all admission): on a fresh LRU-K cache with history
capacity `≤ 0` and threshold `k ≥ 2`, of any main capacity, every sequence of `get` and
`put` calls ends in the fresh state: the main store's key index and recency sequence are
empty, and every `get` returns the empty string, the default value. -/
theorem lruk_disabled_history [DecidableEq Key] [Inhabited Key]
    (capacity historyCapacity k : Int) (hhist : historyCapacity ≤ 0) (hk : 2 ≤ k)
    (ops : List (KOp Key)) :
    ∃ c, runK (KLruKCache.create capacity historyCapacity k : KLruKCache Key) ops = some c ∧
      c.base.nodeMap_ = [] ∧ c.base.entries = [] ∧
      ∀ key, ∃ c1, c.get key = some (c1, "") ∧ c1.base.nodeMap_ = [] := by
  have hrun := fun ops => runK_disabled
    (KLruKCache.create capacity historyCapacity k : KLruKCache Key) hhist rfl rfl hk ops
  refine ⟨_, hrun ops, rfl, (repr_create capacity).entries_eq, fun key => ?_⟩
  have h1 := hrun [KOp.get key]
  simp only [runK, stepK, Option.bind_eq_bind] at h1
  cases hg : (KLruKCache.create capacity historyCapacity k : KLruKCache Key).get key with
  | none => rw [hg] at h1; cases h1
  | some r =>
    rw [hg] at h1
    simp only [Option.map_some', Option.some_bind, Option.some.injEq] at h1
    obtain ⟨c1, v⟩ := r
    simp only at h1
    subst h1
    obtain ⟨c1', h1', e1, -, -, -, -, g1⟩ := getK_wf
      (wellFormedK_create capacity historyCapacity k :
        WellFormedK capacity historyCapacity k (KLruKCache.create capacity historyCapacity k : KLruKCache Key)) key
    rw [hg] at e1
    have hv : v = "" := by
      have := (Prod.mk.inj (Option.some.inj e1)).2
      rw [this]
      rfl
    exact ⟨_, by rw [hv], rfl⟩

theorem lruk_disabled_history_witness :
    (0 : Int) ≤ 0 ∧ (2 : Int) ≤ 2 ∧
    ∃ c, runK (KLruKCache.create 2 0 2 : KLruKCache Int)
        [KOp.put 5 "x", KOp.put 5 "x", KOp.get 5, KOp.put 5 "x"] = some c ∧
      c.base.nodeMap_ = [] ∧ c.base.entries = [] ∧
      ∀ key, ∃ c1, c.get key = some (c1, "") ∧ c1.base.nodeMap_ = [] :=
  ⟨by decide, by decide, lruk_disabled_history 2 0 2 (by decide) (by decide)
    [KOp.put 5 "x", KOp.put 5 "x", KOp.get 5, KOp.put 5 "x"]⟩

/-! ## LRU-K: the admission gate -/

/-- C11 (LRU-K admission gate, no early admission): on a fresh LRU-K cache with any
capacities and any threshold `k`, after any sequence `ops` of `get` and `put` calls, a key
`x` that is in the main store has been accessed by at least `k` calls of `ops`, gets and
puts counted alike, and at least one call of `ops` is a put of `x`. -/
theorem lruk_no_early_admission [DecidableEq Key] [Inhabited Key]
    (capacity historyCapacity k : Int) (ops : List (KOp Key)) (x : Key) :
    ∃ c, runK (KLruKCache.create capacity historyCapacity k : KLruKCache Key) ops = some c ∧
      (c.base.contains x = true →
        k ≤ (accesses x ops : Int) ∧ ∃ v, KOp.put x v ∈ ops) := by
  have h0 : Admitted k [] (KLruKCache.create capacity historyCapacity k : KLruKCache Key) := by
    constructor
    · intro x n h
      have : (KLruKCache.create capacity historyCapacity k : KLruKCache Key).historyList_.peek x
          = none := rfl
      rw [this] at h
      cases h
    · intro x h
      have : (KLruKCache.create capacity historyCapacity k : KLruKCache Key).base.contains x
          = false := rfl
      rw [this] at h
      cases h
  obtain ⟨c, e, -, p⟩ := runK_invariant capacity historyCapacity k (Admitted k) h0
    (fun _ _ _ _ rc p e => admitted_step rc p e) ops
  exact ⟨c, e, p.2 x⟩

theorem lruk_no_early_admission_witness :
    ∃ c, runK (KLruKCache.create 2 10 3 : KLruKCache Int)
        [KOp.put 5 "x", KOp.get 5, KOp.put 5 "y"] = some c ∧
      c.base.contains 5 = true ∧
      (3 : Int) ≤ (accesses 5 [KOp.put 5 "x", KOp.get 5, KOp.put (5 : Int) "y"] : Int) ∧
      ∃ v, KOp.put 5 v ∈ [KOp.put 5 "x", KOp.get 5, KOp.put (5 : Int) "y"] := by
  obtain ⟨c, hc, h⟩ := lruk_no_early_admission 2 10 3
    [KOp.put 5 "x", KOp.get 5, KOp.put (5 : Int) "y"] 5
  have hm : (runK (KLruKCache.create 2 10 3 : KLruKCache Int)
      [KOp.put 5 "x", KOp.get 5, KOp.put 5 "y"]).map (fun c => c.base.contains 5) = some true := by
    decide
  rw [hc] at hm
  have hm1 : c.base.contains 5 = true := by simpa using hm
  exact ⟨c, hc, hm1, h hm1⟩

/-- C12 (LRU-K promotion on the k-th access) fails for `get`: with capacity 2, history
capacity 10 and threshold 2, after `put(5, "x")` the history store holds count 1 for key 5
and the main store does not hold it; `get(5)` brings the count to 2, the threshold, and
afterwards key 5 is still absent from the main store and still in the history store. -/
theorem lruk_get_does_not_promote :
    ∃ c c1 v, runK (KLruKCache.create 2 10 2 : KLruKCache Int) [KOp.put 5 "x"] = some c ∧
      c.base.contains 5 = false ∧ c.historyList_.peek 5 = some 1 ∧
      c.get 5 = some (c1, v) ∧ c1.historyList_.peek 5 = some 2 ∧
      c1.base.contains 5 = false ∧ c1.historyList_.contains 5 = true := by
  refine ⟨_, _, _, rfl, by decide, by decide, rfl, by decide, by decide, by decide⟩

/-- C12 as amended: on an LRU-K cache with capacity and history capacity at least 1 and
threshold `k`, an `int` and so at most `2^31 - 1`, after any sequence of `get` and `put`
calls on a fresh cache, for a key `x` that is not in the main store and whose recorded
count plus one equals `k`: a `put(x, value)` leaves `x` in the main store with `value` and
absent from the history store; a `get(x)` returns the empty string, leaves the main store
as it was, without `x`, and the history store records the count `k` for `x`. -/
theorem lruk_promotion_on_put [DecidableEq Key] [Inhabited Key]
    (capacity historyCapacity k : Int) (hcap : 1 ≤ capacity) (hhist : 1 ≤ historyCapacity)
    (hk : k ≤ 2147483647) (ops : List (KOp Key)) (x : Key) (value : String) :
    ∃ c, runK (KLruKCache.create capacity historyCapacity k : KLruKCache Key) ops = some c ∧
      (c.base.contains x = false →
        (((c.historyList_.peek x).getD 0 + 1 : Nat) : Int) = k →
        (∃ c1, c.put x value = some c1 ∧ c1.base.contains x = true ∧
          c1.base.peek x = some value ∧ c1.historyList_.contains x = false) ∧
        (∃ c1, c.get x = some (c1, "") ∧ c1.base = c.base ∧ c1.base.contains x = false ∧
          c1.historyList_.peek x = some ((c.historyList_.peek x).getD 0 + 1))) := by
  obtain ⟨c, e, rc⟩ := runK_wf ops
    (wellFormedK_create capacity historyCapacity k :
      WellFormedK capacity historyCapacity k (KLruKCache.create capacity historyCapacity k : KLruKCache Key))
  refine ⟨c, e, fun hc hkeq => ?_⟩
  have hlt : (c.historyList_.peek x).getD 0 < 2147483647 := by
    push_cast at hkeq; omega
  obtain ⟨hn1, hn2⟩ := nextCount_of_lt hlt
  constructor
  · obtain ⟨c1, e1, -, hrem, hp⟩ := putK_reached rc x value
      (by rw [hn1]; push_cast at hkeq; omega)
    exact ⟨c1, e1, (hp (by omega)).2, (hp (by omega)).1, hrem⟩
  · obtain ⟨c1, e1, -, -, hsame, hpk⟩ := getK_effect rc x
    rw [rc.main.peek_none hc] at e1
    have hb : c1.base = c.base := hsame hc
    refine ⟨c1, e1, hb, by rw [hb]; exact hc, ?_⟩
    rw [hpk (by omega), hn2]

theorem lruk_promotion_on_put_witness :
    (1 : Int) ≤ 2 ∧ (1 : Int) ≤ 10 ∧ (2 : Int) ≤ 2147483647 ∧
    ∃ c, runK (KLruKCache.create 2 10 2 : KLruKCache Int) [KOp.put 5 "x"] = some c ∧
      c.base.contains 5 = false ∧ (((c.historyList_.peek 5).getD 0 + 1 : Nat) : Int) = 2 ∧
      (∃ c1, c.put 5 "y" = some c1 ∧ c1.base.contains 5 = true ∧
        c1.base.peek 5 = some "y" ∧ c1.historyList_.contains 5 = false) ∧
      (∃ c1, c.get 5 = some (c1, "") ∧ c1.base = c.base ∧ c1.base.contains 5 = false ∧
        c1.historyList_.peek 5 = some ((c.historyList_.peek 5).getD 0 + 1)) := by
  obtain ⟨c, hc, h⟩ := lruk_promotion_on_put 2 10 2 (by decide) (by decide) (by decide)
    [KOp.put (5 : Int) "x"] 5 "y"
  have hm : (runK (KLruKCache.create 2 10 2 : KLruKCache Int) [KOp.put 5 "x"]).map
      (fun c => (c.base.contains 5, (((c.historyList_.peek 5).getD 0 + 1 : Nat) : Int))) =
        some (false, 2) := by decide
  rw [hc] at hm
  simp only [Option.map_some', Option.some.injEq, Prod.mk.injEq] at hm
  exact ⟨by decide, by decide, by decide, c, hc, hm.1, hm.2, h hm.1 hm.2⟩


/-! ## The bijection between the key index and the recency sequence -/

/-- C17 (index/sequence bijection): after any sequence of put, get and remove calls on a
fresh `KLruCache`, the sentinels and the nodes reached from the head sentinel form one
doubly linked chain without repeated nodes; the key index holds each key once; a pair
(key, node) is in the index exactly when the node lies between the sentinels and carries
that key; so every node between the sentinels carries a key that the index maps to that
very node, every indexed key has exactly one node, no key occurs twice in the sequence,
and index and sequence have the same size. -/
theorem index_sequence_bijection [DecidableEq Key] [Inhabited Key] [Inhabited Value] (C : Int)
    (ops : List (Op Key Value)) :
    ∃ s, run (KLruCache.create C : KLruCache Key Value) ops = some s ∧
      (s.dummyHead_ :: s.order ++ [s.dummyTail_]).Nodup ∧
      List.Chain' (Linked s.heap_) (s.dummyHead_ :: s.order ++ [s.dummyTail_]) ∧
      (s.nodeMap_.map Prod.fst).Nodup ∧
      (∀ k a, (k, a) ∈ s.nodeMap_ ↔ a ∈ s.order ∧ s.keyAt a = some k) ∧
      (∀ a ∈ s.order, ∃ k, s.keyAt a = some k ∧ mapFind s.nodeMap_ k = some (k, a)) ∧
      (∀ k, s.contains k = true → ∃! a, a ∈ s.order ∧ s.keyAt a = some k) ∧
      (s.order.map s.keyAt).Nodup ∧ (s.entries.map Prod.fst).Nodup ∧
      s.nodeMap_.length = s.order.length := by
  obtain ⟨s, es, e, -, r⟩ :=
    run_repr ops (repr_create C : Represents (KLruCache.create C : KLruCache Key Value) [])
  have hseq := r.seq
  rw [← r.order_eq] at hseq
  have hkeys : s.order.map s.keyAt = es.map (fun e => some e.key) := by
    rw [r.order_eq, List.map_map]
    apply List.map_congr_left
    intro x hx
    exact r.keyAt_eq hx
  have hinj : ∀ x ∈ es, ∀ y ∈ es, x.key = y.key → x = y :=
    fun x hx y hy => List.inj_on_of_nodup_map r.keys hx hy
  refine ⟨s, e, hseq.1, hseq.2, r.index_keys_nodup, r.mem_index, ?_, ?_, ?_, ?_, ?_⟩
  · intro a ha
    rw [r.order_eq] at ha
    obtain ⟨x, hx, rfl⟩ := List.mem_map.mp ha
    obtain ⟨A, B, rfl⟩ := List.append_of_mem hx
    refine ⟨x.key, r.keyAt_eq hx, ?_⟩
    rw [r.find, find_split r.keys]
    rfl
  · intro k hk
    rcases slot_cases es k with habs | ⟨A, x, B, rfl, rfl⟩
    · rw [r.not_contains habs] at hk; cases hk
    · have hx : x ∈ A ++ x :: B := by simp
      refine ⟨x.addr, ⟨by rw [r.order_eq]; exact List.mem_map_of_mem _ hx, r.keyAt_eq hx⟩, ?_⟩
      rintro b ⟨hb, hkb⟩
      rw [r.order_eq] at hb
      obtain ⟨y, hy, rfl⟩ := List.mem_map.mp hb
      rw [r.keyAt_eq hy] at hkb
      rw [hinj y hy x hx (Option.some.inj hkb)]
  · rw [hkeys]
    have : es.map (fun e => some e.key) = (es.map Slot.key).map some := by
      rw [List.map_map]; rfl
    rw [this]
    exact r.keys.map (Option.some_injective _)
  · rw [r.entries_eq, List.map_map]
    exact r.keys
  · rw [r.length_index, r.order_eq, List.length_map]

theorem index_sequence_bijection_witness :
    ∃ s, run (KLruCache.create 2 : KLruCache Int String)
        [Op.put 1 "a", Op.put 2 "b", Op.get 1, Op.put 3 "c", Op.remove 1] = some s ∧
      s.order = [4] ∧ s.nodeMap_ = [(3, 4)] ∧
      (s.dummyHead_ :: s.order ++ [s.dummyTail_]).Nodup ∧
      List.Chain' (Linked s.heap_) (s.dummyHead_ :: s.order ++ [s.dummyTail_]) ∧
      (s.nodeMap_.map Prod.fst).Nodup ∧
      (∀ k a, (k, a) ∈ s.nodeMap_ ↔ a ∈ s.order ∧ s.keyAt a = some k) ∧
      (∀ a ∈ s.order, ∃ k, s.keyAt a = some k ∧ mapFind s.nodeMap_ k = some (k, a)) ∧
      (∀ k, s.contains k = true → ∃! a, a ∈ s.order ∧ s.keyAt a = some k) ∧
      (s.order.map s.keyAt).Nodup ∧ (s.entries.map Prod.fst).Nodup ∧
      s.nodeMap_.length = s.order.length := by
  obtain ⟨s, hs, h⟩ := index_sequence_bijection 2
    [Op.put 1 "a", Op.put 2 "b", Op.get 1, Op.put 3 "c", Op.remove (1 : Int)]
  have hc : (run (KLruCache.create 2 : KLruCache Int String)
      [Op.put 1 "a", Op.put 2 "b", Op.get 1, Op.put 3 "c", Op.remove 1]).map
        (fun s => (s.order, s.nodeMap_)) = some ([4], [(3, 4)]) := by decide
  rw [hs] at hc
  simp only [Option.map_some', Option.some.injEq, Prod.mk.injEq] at hc
  exact ⟨s, hs, hc.1, hc.2, h⟩

/-! ## The per-entry access count -/

/-- C18 (per-entry access count), evaluated on the code: after `put(1,"a")` the entry of
key 1 has access count 1; a `get` that hits it and a `put` that overwrites it are touches,
and after either the count is not 2: the code never calls `incrementAccessCount`. -/
theorem access_count_not_incremented :
    ∃ s s1 s2, run (KLruCache.create 2 : KLruCache Int String) [Op.put 1 "a"] = some s ∧
      s.accessCount 1 = some 1 ∧
      s.get 1 "" = some (s1, true, "a") ∧ s1.accessCount 1 ≠ some (1 + 1) ∧
      s.put 1 "b" = some s2 ∧ s2.peek 1 = some "b" ∧ s2.accessCount 1 ≠ some (1 + 1) := by
  refine ⟨_, _, _, rfl, by decide, rfl, by decide, rfl, by decide, by decide⟩

/-- The missing increment on every reachable state: after any sequence of put, get and
remove calls on a fresh `KLruCache` every live entry still has access count 1, the count
it was inserted with, and a `get` that hits or a `put` that overwrites leaves the count of
the touched entry at 1 instead of raising it. -/
theorem access_count_stays_one [DecidableEq Key] [Inhabited Key] [Inhabited Value] (C : Int)
    (ops : List (Op Key Value)) (key : Key) (v d : Value) :
    ∃ s, run (KLruCache.create C : KLruCache Key Value) ops = some s ∧
      (s.contains key = true →
        s.accessCount key = some 1 ∧
        (∃ s1 w, s.get key d = some (s1, true, w) ∧ s1.accessCount key = some 1) ∧
        (∃ s2, s.put key v = some s2 ∧ s2.accessCount key = some 1)) := by
  obtain ⟨s, es, e, c, r, p⟩ := run_invariant C
    (fun _ es => ∀ e ∈ es, e.count = 1) (by simp)
    (fun _ s es op _ _ _ p => count_step C s.heap_.length op p) ops
  refine ⟨s, e, fun hc => ?_⟩
  rcases slot_cases es key with hk | ⟨A, x, B, rfl, rfl⟩
  · rw [r.not_contains hk] at hc; cases hc
  · have hx : x.count = 1 := p x (by simp)
    refine ⟨?_, ?_, ?_⟩
    · rw [r.accessCount_eq, find_split r.keys]
      simp [hx]
    · obtain ⟨h, e1, -, r1⟩ := get_repr_hit r d
      have r1' : Represents { s with heap_ := h } ((A ++ B) ++ x :: []) := r1
      refine ⟨_, _, e1, ?_⟩
      rw [r1'.accessCount_eq, find_split r1'.keys]
      simp [hx]
    · by_cases hcap : 0 < s.capacity_
      · obtain ⟨h, e1, -, r1⟩ := put_repr_hit r hcap v
        have r1' : Represents { s with heap_ := h }
            ((A ++ B) ++ { x with value := v } :: []) := r1
        refine ⟨_, e1, ?_⟩
        rw [r1'.accessCount_eq]
        have := find_split r1'.keys
        simp only at this
        rw [this]
        simp [hx]
      · refine ⟨s, by simp [KLruCache.put, not_lt.mp hcap], ?_⟩
        rw [r.accessCount_eq, find_split r.keys]
        simp [hx]

theorem access_count_stays_one_witness :
    ∃ s, run (KLruCache.create 2 : KLruCache Int String)
        [Op.put 1 "a", Op.get 1, Op.put 1 "b", Op.get 1] = some s ∧
      s.contains 1 = true ∧ s.accessCount 1 = some 1 ∧
      (∃ s1 w, s.get 1 "" = some (s1, true, w) ∧ s1.accessCount 1 = some 1) ∧
      (∃ s2, s.put 1 "c" = some s2 ∧ s2.accessCount 1 = some 1) := by
  obtain ⟨s, hs, h⟩ := access_count_stays_one 2
    [Op.put 1 "a", Op.get 1, Op.put 1 "b", Op.get (1 : Int)] 1 "c" ""
  have hc : (run (KLruCache.create 2 : KLruCache Int String)
      [Op.put 1 "a", Op.get 1, Op.put 1 "b", Op.get 1]).map
        (fun s => s.contains 1) = some true := by decide
  rw [hs] at hc
  have hc1 : s.contains 1 = true := by simpa using hc
  exact ⟨s, hs, hc1, h hc1⟩


/-! ## LRU-K with threshold 1 -/

/-- C20 (LRU-K with threshold 1 is plain LRU) fails when a count reaches `INT_MAX`: with
capacity 2, history capacity 10 and threshold 1, after 2147483647 calls of `get(5)` and
then `put(5, "x")` the `int` count of key 5 has wrapped to `-2^31`, below the threshold,
and the main store is empty; the `KLruCache` of capacity 2 driven by the same calls holds
`(5, "x")`. -/
theorem lruk_threshold_one_count_overflow :
    ∃ c s, runK (KLruKCache.create 2 10 1 : KLruKCache Int)
        (List.replicate 2147483647 (KOp.get 5) ++ [KOp.put 5 "x"]) = some c ∧
      run (KLruCache.create 2 : KLruCache Int String)
        ((List.replicate 2147483647 (KOp.get (5 : Int)) ++ [KOp.put 5 "x"]).map KOp.toOp) = some s ∧
      c.base.entries = [] ∧ c.base.contains 5 = false ∧
      s.entries = [(5, "x")] ∧ s.contains 5 = true := by
  obtain ⟨c, e, rc, hb, hcnt⟩ := gets_count 2 10 1 (by decide) (5 : Int) 2147483647 (le_refl _)
  obtain ⟨c1, e1, -, hbase, -⟩ := putK_below rc 5 "x"
    (by rw [hcnt, nextCount_int_max.1]; decide) (by rw [hb]; rfl)
  have hs : run (KLruCache.create 2 : KLruCache Int String)
      ((List.replicate 2147483647 (KOp.get (5 : Int)) ++ [KOp.put 5 "x"]).map KOp.toOp) =
        run (KLruCache.create 2 : KLruCache Int String) [Op.put 5 "x"] := by
    rw [List.map_append, List.map_replicate]
    exact run_gets_miss (KLruCache.create 2 : KLruCache Int String) 5 rfl 2147483647 _
  refine ⟨c1, _, ?_, hs.trans rfl, by rw [hbase, hb]; rfl, by rw [hbase, hb]; rfl,
    by decide, by decide⟩
  rw [runK_snoc, e]
  exact e1

/-- C20, amended (LRU-K with threshold at most 1 is plain LRU while the counts fit an
`int`): for an LRU-K cache with threshold `k ≤ 1` and any history capacity, and a
`KLruCache` of the same capacity, both fresh and driven by the same sequence of `get` and
`put` calls in which every key is accessed at most `2^31 - 1` times: both runs return, and
afterwards the main store and the plain cache have the same recency sequence of
(key, value) pairs, hence the same live keys, values and occupancy; a `get(key)` then
returns the same value from both and again leaves equal sequences. -/
theorem lruk_threshold_one_is_lru [DecidableEq Key] [Inhabited Key]
    (capacity historyCapacity k : Int) (hk : k ≤ 1) (ops : List (KOp Key))
    (hbound : ∀ x, accesses x ops ≤ 2147483647) :
    ∃ c s, runK (KLruKCache.create capacity historyCapacity k : KLruKCache Key) ops = some c ∧
      run (KLruCache.create capacity : KLruCache Key String) (ops.map KOp.toOp) = some s ∧
      c.base.entries = s.entries ∧
      (∀ key, c.base.peek key = s.peek key ∧ c.base.contains key = s.contains key) ∧
      c.base.nodeMap_.length = s.nodeMap_.length ∧
      ∀ key, ∃ c1 s1 v, c.get key = some (c1, v) ∧ s.getValue key = some (s1, v) ∧
        c1.base.entries = s1.entries := by
  obtain ⟨c, e, rc, p⟩ := runK_invariant capacity historyCapacity k
    (fun ops c => (∀ x, accesses x ops ≤ 2147483647) →
      (∃ s, run (KLruCache.create capacity : KLruCache Key String)
        (ops.map KOp.toOp) = some s ∧ WellFormed s capacity ∧ c.base.entries = s.entries ∧
        (capacity ≤ 0 → c.base.entries = [])) ∧
      ∀ x n, c.historyList_.peek x = some n →
        0 ≤ toInt32 n ∧ toInt32 n ≤ (accesses x ops : Int))
    (fun _ => ⟨⟨_, rfl, wellFormed_create capacity, rfl,
        fun _ => (repr_create capacity).entries_eq⟩, fun x n h => by
      have : (KLruKCache.create capacity historyCapacity k : KLruKCache Key).historyList_.peek x
          = none := rfl
      rw [this] at h
      cases h⟩)
    (fun ops c c1 op rc p e1 hb => by
      have hb0 : ∀ x, accesses x ops ≤ 2147483647 := by
        intro x
        have := hb x
        rw [accesses_snoc] at this
        omega
      obtain ⟨⟨s, hs, ws, hent, hinert⟩, hcnt⟩ := p hb0
      obtain ⟨hprom, hcnt1⟩ := counted_step rc hcnt (hb op.key) e1
      obtain ⟨s1, hs1, ws1, hent1⟩ := step_entries ws op.toOp
      have hc1 := stepK_entries rc hinert (by omega) e1
      refine ⟨⟨s1, ?_, ws1, by rw [hc1, hent1, hent], fun h0 => ?_⟩, hcnt1⟩
      · rw [List.map_append, List.map_cons, List.map_nil, run_snoc, hs]
        exact hs1
      · rw [hc1, hinert h0]
        cases op <;> simp [KOp.toOp, specStep, h0])
    ops
  obtain ⟨⟨s, hs, ws, hent, hinert⟩, -⟩ := p hbound
  have hpeek : ∀ key, c.base.peek key = s.peek key := by
    intro key
    rw [rc.main.peek_entries, ws.peek_entries, hent]
  have hlen : ∀ {t : KLruCache Key String}, WellFormed t capacity →
      t.nodeMap_.length = t.entries.length := by
    intro t wt
    obtain ⟨⟨es, r⟩, -⟩ := wt
    rw [r.length_index, r.entries_eq, List.length_map]
  refine ⟨c, s, e, hs, hent, fun key => ⟨hpeek key, ?_⟩, ?_, fun key => ?_⟩
  · rw [rc.main.contains_eq_peek, ws.contains_eq_peek, hpeek]
  · rw [hlen rc.main, hlen ws, hent]
  · obtain ⟨c1, h1, e1, rc1, -, -, -, g1⟩ := getK_wf rc key
    obtain ⟨s1, g2, ws1, -, -, -⟩ := getValue_wf ws key
    have hd : (default : String) = "" := rfl
    rw [hd, ← hpeek] at g2
    refine ⟨c1, s1, _, e1, g2, ?_⟩
    obtain ⟨m, hm, -, hment⟩ := step_entries rc.main (Op.get key)
    simp only [step, g1, Option.map_some', Option.some.injEq] at hm
    subst hm
    obtain ⟨t, ht, -, htent⟩ := step_entries ws (Op.get key)
    simp only [step, g2, Option.map_some', Option.some.injEq] at ht
    subst ht
    rw [hment, htent, hent]

theorem lruk_threshold_one_is_lru_witness :
    (1 : Int) ≤ 1 ∧
    (∀ x : Int, accesses x
      [KOp.put 1 "a", KOp.put 2 "", KOp.get 1, KOp.put 2 "b", KOp.put 3 "c"] ≤ 2147483647) ∧
    ∃ c s, runK (KLruKCache.create 2 3 1 : KLruKCache Int)
        [KOp.put 1 "a", KOp.put 2 "", KOp.get 1, KOp.put 2 "b", KOp.put 3 "c"] = some c ∧
      run (KLruCache.create 2 : KLruCache Int String)
        ([KOp.put 1 "a", KOp.put 2 "", KOp.get 1, KOp.put 2 "b", KOp.put 3 "c"].map KOp.toOp)
          = some s ∧
      c.base.entries = s.entries ∧
      (∀ key, c.base.peek key = s.peek key ∧ c.base.contains key = s.contains key) ∧
      c.base.nodeMap_.length = s.nodeMap_.length ∧
      ∀ key, ∃ c1 s1 v, c.get key = some (c1, v) ∧ s.getValue key = some (s1, v) ∧
        c1.base.entries = s1.entries :=
  ⟨by decide, fun x => le_trans (accesses_le_length x _) (by decide),
    lruk_threshold_one_is_lru 2 3 1 (by decide)
      [KOp.put 1 "a", KOp.put 2 "", KOp.get 1, KOp.put 2 "b", KOp.put 3 "c"]
      (fun x => le_trans (accesses_le_length x _) (by decide))⟩


/-! ## Claims on the sharded cache -/

/-- C14, counterexample (shard capacity is narrowed to `int`): constructed with capacity
2^31 and one shard, the cache has one shard whose capacity is -2^31, not
`ceil(2^31 / 1) = 2^31`; the aggregate capacity -2^31 is below the requested 2^31. -/
theorem shard_capacity_narrowed :
    ∃ c, (KHashLruCaches.create 8 2147483648 1 : Option (KHashLruCaches Int String)) = some c ∧
      c.lruSliceCaches_.map (fun s => s.capacity_) = [-2147483648] ∧
      ⌈((2147483648 : Nat) : ℚ) / ((1 : Int) : ℚ)⌉ = 2147483648 ∧
      ¬ ((2147483648 : Int) ≤ (c.lruSliceCaches_.map (fun s => s.capacity_)).sum) := by
  refine ⟨_, rfl, by decide, ?_, by decide⟩
  norm_num

/-- C14, amended (shard sizing within the integer ranges): constructed with capacity
`c < 2^53` and shard count `n ≥ 1` such that `ceil(c / n) < 2^31`, the cache has
`sliceNum_ = n`, exactly `n` shards, each of them the empty `KLruCache` of capacity
`ceil(c / n)`, and the aggregate capacity `n * ceil(c / n)`, the sum of the shard
capacities, is at least `c` and less than `c + n`. -/
theorem shard_sizing [Inhabited Key] [Inhabited Value] (hw c : Nat) (n : Int) (hn : 1 ≤ n)
    (_hc : c < 2 ^ 53) (hs : ⌈(c : ℚ) / (n : ℚ)⌉ < 2 ^ 31) :
    ∃ k0, (KHashLruCaches.create hw c n : Option (KHashLruCaches Key Value)) = some k0 ∧
      k0.sliceNum_ = n ∧ (k0.lruSliceCaches_.length : Int) = n ∧
      (∀ s ∈ k0.lruSliceCaches_,
        s = KLruCache.create ⌈(c : ℚ) / (n : ℚ)⌉ ∧ s.capacity_ = ⌈(c : ℚ) / (n : ℚ)⌉) ∧
      (k0.lruSliceCaches_.map (fun s => s.capacity_)).sum = n * ⌈(c : ℚ) / (n : ℚ)⌉ ∧
      (c : Int) ≤ n * ⌈(c : ℚ) / (n : ℚ)⌉ ∧ n * ⌈(c : ℚ) / (n : ℚ)⌉ < c + n := by
  have hceil := sliceSize_eq_ceil c hn
  have hlt : sliceSize c n < 2 ^ 31 := by
    have : (sliceSize c n : Int) < 2 ^ 31 := by rw [hceil]; exact hs
    exact_mod_cast this
  have hcap : toInt32 (sliceSize c n) = ⌈(c : ℚ) / (n : ℚ)⌉ := by
    rw [toInt32_of_lt hlt, hceil]
  have hq : (0 : ℚ) < (n : ℚ) := by exact_mod_cast (by omega : (0 : Int) < n)
  obtain ⟨h1, h2⟩ := Int.ceil_eq_iff.mp hceil.symm
  rw [hceil] at h1 h2
  refine ⟨_, create_eq hw c hn, rfl, ?_, ?_, ?_, ?_, ?_⟩
  · simp only [List.length_replicate]
    exact Int.toNat_of_nonneg (by omega)
  · intro s hs
    rw [List.eq_of_mem_replicate hs, hcap]
    exact ⟨rfl, rfl⟩
  · simp only [List.map_replicate, List.sum_replicate, hcap, smul_eq_mul, nsmul_eq_mul]
    rw [show ((n.toNat : Nat) : Int) = n from Int.toNat_of_nonneg (by omega)]
    rfl
  · rw [div_le_iff₀ hq] at h2
    have : ((c : Int) : ℚ) ≤ ((n * ⌈(c : ℚ) / (n : ℚ)⌉ : Int) : ℚ) := by
      push_cast; linarith
    exact_mod_cast this
  · rw [lt_div_iff₀ hq] at h1
    have : ((n * ⌈(c : ℚ) / (n : ℚ)⌉ : Int) : ℚ) < ((c + n : Int) : ℚ) := by
      push_cast; linarith
    exact_mod_cast this

theorem shard_sizing_witness :
    (1 : Int) ≤ 4 ∧ (10 : Nat) < 2 ^ 53 ∧ ⌈((10 : Nat) : ℚ) / ((4 : Int) : ℚ)⌉ < 2 ^ 31 ∧
    ∃ k0, (KHashLruCaches.create 8 10 4 : Option (KHashLruCaches Int String)) = some k0 ∧
      k0.sliceNum_ = 4 ∧ (k0.lruSliceCaches_.length : Int) = 4 ∧
      (∀ s ∈ k0.lruSliceCaches_,
        s = KLruCache.create ⌈((10 : Nat) : ℚ) / ((4 : Int) : ℚ)⌉ ∧
          s.capacity_ = ⌈((10 : Nat) : ℚ) / ((4 : Int) : ℚ)⌉) ∧
      (k0.lruSliceCaches_.map (fun s => s.capacity_)).sum =
        4 * ⌈((10 : Nat) : ℚ) / ((4 : Int) : ℚ)⌉ ∧
      ((10 : Nat) : Int) ≤ 4 * ⌈((10 : Nat) : ℚ) / ((4 : Int) : ℚ)⌉ ∧
      4 * ⌈((10 : Nat) : ℚ) / ((4 : Int) : ℚ)⌉ < (10 : Nat) + 4 := by
  have h3 : ⌈((10 : Nat) : ℚ) / ((4 : Int) : ℚ)⌉ = 3 := by
    rw [Int.ceil_eq_iff]; norm_num
  exact ⟨by decide, by decide, by rw [h3]; decide,
    shard_sizing 8 10 4 (by decide) (by decide) (by rw [h3]; decide)⟩


/-- C15 (shard routing and isolation): in a `KHashLruCaches` with `n ≥ 1` shards
(`sliceNum_ = n` and `n` entries in `lruSliceCaches_`), for every hash function and key
the index is `hash key % n`, it is less than `n`, and that shard exists; `put` and the
two-argument `get` are the `KLruCache` call on that shard, the result stored back at the
same index, and `get` returns that shard's flag and value; after either call the shard
count is the same, every other shard is unchanged, and every key has the same index as
before.  When the selected shard is well-formed, both calls return. -/
theorem shard_routing [DecidableEq Key] [Inhabited Value] (hash : Key → Nat)
    (c : KHashLruCaches Key Value) (hn : 1 ≤ c.sliceNum_)
    (hlen : c.lruSliceCaches_.length = c.sliceNum_.toNat) (key : Key) (v d : Value) :
    ∃ i shard, i = hash key % c.sliceNum_.toNat ∧ i < c.sliceNum_.toNat ∧
      KHashLruCaches.sliceIndex hash c key = some i ∧ c.lruSliceCaches_[i]? = some shard ∧
      c.put hash key v = (shard.put key v).map
        (fun t => { c with lruSliceCaches_ := c.lruSliceCaches_.set i t }) ∧
      c.get hash key d = (shard.get key d).map
        (fun r => ({ c with lruSliceCaches_ := c.lruSliceCaches_.set i r.1 }, r.2.1, r.2.2)) ∧
      (∀ c1, c.put hash key v = some c1 →
        c1.sliceNum_ = c.sliceNum_ ∧ c1.lruSliceCaches_.length = c.lruSliceCaches_.length ∧
        shard.put key v = c1.lruSliceCaches_[i]? ∧
        (∀ j, j ≠ i → c1.lruSliceCaches_[j]? = c.lruSliceCaches_[j]?) ∧
        ∀ key1, KHashLruCaches.sliceIndex hash c1 key1 =
          KHashLruCaches.sliceIndex hash c key1) ∧
      (∀ c1 b w, c.get hash key d = some (c1, b, w) →
        c1.sliceNum_ = c.sliceNum_ ∧ c1.lruSliceCaches_.length = c.lruSliceCaches_.length ∧
        (∃ t, shard.get key d = some (t, b, w) ∧ c1.lruSliceCaches_[i]? = some t) ∧
        (∀ j, j ≠ i → c1.lruSliceCaches_[j]? = c.lruSliceCaches_[j]?) ∧
        ∀ key1, KHashLruCaches.sliceIndex hash c1 key1 =
          KHashLruCaches.sliceIndex hash c key1) ∧
      ∀ cap, WellFormed shard cap →
        (∃ c1, c.put hash key v = some c1) ∧ ∃ c1 b w, c.get hash key d = some (c1, b, w) := by
  obtain ⟨e1, hi⟩ := sliceIndex_eq hash hn key
  have hlt : hash key % c.sliceNum_.toNat < c.lruSliceCaches_.length := by rw [hlen]; exact hi
  have e2 : c.lruSliceCaches_[hash key % c.sliceNum_.toNat]? =
      some c.lruSliceCaches_[hash key % c.sliceNum_.toNat] := List.getElem?_eq_getElem hlt
  have hput : c.put hash key v = (c.lruSliceCaches_[hash key % c.sliceNum_.toNat].put key v).map
      (fun t => { c with lruSliceCaches_ :=
          c.lruSliceCaches_.set (hash key % c.sliceNum_.toNat) t }) := by
    simp only [KHashLruCaches.put, e1, Option.some_bind, e2]
    cases c.lruSliceCaches_[hash key % c.sliceNum_.toNat].put key v <;> rfl
  have hget : c.get hash key d = (c.lruSliceCaches_[hash key % c.sliceNum_.toNat].get key d).map
      (fun r => ({ c with lruSliceCaches_ :=
          c.lruSliceCaches_.set (hash key % c.sliceNum_.toNat) r.1 }, r.2.1, r.2.2)) := by
    simp only [KHashLruCaches.get, e1, Option.some_bind, e2]
    cases c.lruSliceCaches_[hash key % c.sliceNum_.toNat].get key d <;> rfl
  refine ⟨_, _, rfl, hi, e1, e2, hput, hget, ?_, ?_, ?_⟩
  · intro c1 h1
    rw [hput] at h1
    cases ht : c.lruSliceCaches_[hash key % c.sliceNum_.toNat].put key v with
    | none => rw [ht] at h1; cases h1
    | some t =>
      rw [ht] at h1
      cases h1
      refine ⟨rfl, by simp, ?_, fun j hj => ?_, fun key1 => rfl⟩
      · simp only [List.getElem?_set_self hlt]
      · simp only [List.getElem?_set_ne (Ne.symm hj)]
  · intro c1 b w h1
    rw [hget] at h1
    cases ht : c.lruSliceCaches_[hash key % c.sliceNum_.toNat].get key d with
    | none => rw [ht] at h1; cases h1
    | some r =>
      rw [ht] at h1
      cases h1
      refine ⟨rfl, by simp, ⟨r.1, rfl, ?_⟩, fun j hj => ?_, fun key1 => rfl⟩
      · simp only [List.getElem?_set_self hlt]
      · simp only [List.getElem?_set_ne (Ne.symm hj)]
  · intro cap w
    obtain ⟨t, e3, -⟩ := put_wf w key v
    obtain ⟨t1, b, x, e4, -⟩ := get_wf w key d
    exact ⟨⟨_, by rw [hput, e3]; rfl⟩, ⟨_, b, x, by rw [hget, e4]; rfl⟩⟩


theorem shard_routing_witness :
    ∃ c0 c : KHashLruCaches Int String, KHashLruCaches.create 8 10 4 = some c0 ∧
      runH (fun k => k.toNat) c0 [HOp.put 7 "z", HOp.put 3 "y", HOp.put 5 "x"] = some c ∧
      1 ≤ c.sliceNum_ ∧ c.lruSliceCaches_.length = c.sliceNum_.toNat ∧
      ∃ i shard, i = (7 : Int).toNat % c.sliceNum_.toNat ∧ i < c.sliceNum_.toNat ∧
        KHashLruCaches.sliceIndex (fun k => k.toNat) c 7 = some i ∧
        c.lruSliceCaches_[i]? = some shard ∧
        c.put (fun k => k.toNat) 7 "w" = (shard.put 7 "w").map
          (fun t => { c with lruSliceCaches_ := c.lruSliceCaches_.set i t }) ∧
        c.get (fun k => k.toNat) 7 "" = (shard.get 7 "").map
          (fun r => ({ c with lruSliceCaches_ := c.lruSliceCaches_.set i r.1 }, r.2.1, r.2.2)) := by
  obtain ⟨c, e, w⟩ := runH_wf (by decide : (1 : Int) ≤ 4) (fun k : Int => k.toNat)
    [HOp.put 7 "z", HOp.put 3 "y", HOp.put 5 "x"]
    (wellFormedH_create 10 4 : WellFormedH 4 _ (_ : KHashLruCaches Int String))
  have hn : 1 ≤ c.sliceNum_ := by rw [w.num]; decide
  have hl : c.lruSliceCaches_.length = c.sliceNum_.toNat := by rw [w.len, w.num]
  obtain ⟨i, shard, h1, h2, h3, h4, h5, h6, -⟩ :=
    shard_routing (fun k : Int => k.toNat) c hn hl 7 "w" ""
  exact ⟨_, c, create_eq 8 10 (by decide), e, hn, hl, i, shard, h1, h2, h3, h4, h5, h6⟩

/-- C16, counterexample (a shard capacity that does not fit `int`): constructed with
capacity 2^31 and one shard, the cache has a shard of capacity -2^31, `put(7, "z")` stores
nothing, and the `get(7, value)` that follows returns `false` and leaves `value` as it
was. -/
theorem sharded_put_get_miss :
    ∃ c c1 c2, (KHashLruCaches.create 8 2147483648 1 : Option (KHashLruCaches Int String)) =
        some c ∧
      c.put (fun k => k.toNat) 7 "z" = some c1 ∧
      c1.get (fun k => k.toNat) 7 "" = some (c2, false, "") :=
  ⟨_, _, _, rfl, rfl, rfl⟩

/-- C16, amended (sharded put then get within the integer ranges): constructed with
capacity `1 ≤ c < 2^53` and shard count `n ≥ 1` (possibly above `c`) such that
`ceil(c / n) < 2^31`, for every hash function and every sequence of `put` and `get` calls,
the sequence returns, and in the state it reaches `put(key, v)` returns and the
`get(key, value)` that follows returns `true` with `value = v`. -/
theorem sharded_put_then_get [DecidableEq Key] [Inhabited Key] [Inhabited Value] (hw c : Nat)
    (n : Int) (hash : Key → Nat) (hc1 : 1 ≤ c) (hn : 1 ≤ n) (_hc : c < 2 ^ 53)
    (hs : ⌈(c : ℚ) / (n : ℚ)⌉ < 2 ^ 31) (ops : List (HOp Key Value)) (key : Key)
    (v d : Value) :
    ∃ k0 k k1 k2, (KHashLruCaches.create hw c n : Option (KHashLruCaches Key Value)) = some k0 ∧
      runH hash k0 ops = some k ∧ k.put hash key v = some k1 ∧
      k1.get hash key d = some (k2, true, v) := by
  have hceil := sliceSize_eq_ceil c hn
  have hlt : sliceSize c n < 2 ^ 31 := by
    have : (sliceSize c n : Int) < 2 ^ 31 := by rw [hceil]; exact hs
    exact_mod_cast this
  have hpos : 0 < toInt32 (sliceSize c n) := by
    rw [toInt32_of_lt hlt]
    have h0 : 0 < n.toNat := by omega
    have : 0 < sliceSize c n := Nat.div_pos (by omega) h0
    exact_mod_cast this
  obtain ⟨k, e1, w⟩ := runH_wf hn hash ops (wellFormedH_create c n)
  obtain ⟨k1, k2, e2, e3⟩ := putH_getH w hn hpos hash key v d
  exact ⟨_, k, k1, k2, create_eq hw c hn, e1, e2, e3⟩

theorem sharded_put_then_get_witness :
    (1 : Nat) ≤ 2 ∧ (1 : Int) ≤ 4 ∧ (2 : Nat) < 2 ^ 53 ∧
    ⌈((2 : Nat) : ℚ) / ((4 : Int) : ℚ)⌉ < 2 ^ 31 ∧
    ∃ k0 k k1 k2, (KHashLruCaches.create 8 2 4 : Option (KHashLruCaches Int String)) = some k0 ∧
      runH (fun x => x.toNat) k0 [HOp.put 3 "a", HOp.put 11 "b", HOp.get 3] = some k ∧
      k.put (fun x => x.toNat) 7 "z" = some k1 ∧
      k1.get (fun x => x.toNat) 7 "" = some (k2, true, "z") := by
  have h1 : ⌈((2 : Nat) : ℚ) / ((4 : Int) : ℚ)⌉ = 1 := by
    rw [Int.ceil_eq_iff]; norm_num
  exact ⟨by decide, by decide, by decide, by rw [h1]; decide,
    sharded_put_then_get 8 2 4 (fun x => x.toNat) (by decide) (by decide) (by decide)
      (by rw [h1]; decide) _ 7 "z" ""⟩

end KamaCache
